import Mathlib

/-!
The program subbox: link extraction and VLESS descriptor translation.

A shallow embedding of `src/app/subscription.go` and `src/app/util.go`.

Go strings and byte slices are modelled as lists of bytes (`List Nat`, every
element below 256 for a real string).  The functions of the Go standard
library that the source calls (`strings.TrimSpace`, `bufio.Scanner`,
`regexp`, `encoding/json`, `encoding/base64`, `net/url`, `strconv`) are
modelled by executable definitions that follow their documented behaviour.
-/

namespace Subbox

/-! ## Strings -/

/-- A Go string or byte slice. -/
abbrev GoString := List Nat

/-- The bytes of an ASCII string constant of the source. -/
def bytes (s : String) : GoString := s.toList.map Char.toNat

/-- UTF-8 encodings of the runes for which `unicode.IsSpace` holds:
tab, LF, VT, FF, CR, space, U+0085, U+00A0, U+1680, U+2000..U+200A,
U+2028, U+2029, U+202F, U+205F, U+3000. -/
def spaceRunes : List GoString :=
  [[9], [10], [11], [12], [13], [32], [0xC2, 0x85], [0xC2, 0xA0], [0xE1, 0x9A, 0x80],
   [0xE2, 0x80, 0x80], [0xE2, 0x80, 0x81], [0xE2, 0x80, 0x82], [0xE2, 0x80, 0x83],
   [0xE2, 0x80, 0x84], [0xE2, 0x80, 0x85], [0xE2, 0x80, 0x86], [0xE2, 0x80, 0x87],
   [0xE2, 0x80, 0x88], [0xE2, 0x80, 0x89], [0xE2, 0x80, 0x8A], [0xE2, 0x80, 0xA8],
   [0xE2, 0x80, 0xA9], [0xE2, 0x80, 0xAF], [0xE2, 0x81, 0x9F], [0xE3, 0x80, 0x80]]

/-- Byte length of the white-space rune that `s` starts with (`0` when it starts with none);
`encs` is `spaceRunes`, or the reversed encodings when `s` is read backwards. -/
def spaceLen (encs : List GoString) (s : GoString) : Nat :=
  match encs.find? (fun e => e.isPrefixOf s) with
  | some e => e.length
  | none => 0

/-- Drop white-space runes from the front; `skip` bytes of a rune already recognised
are dropped first. -/
def dropSpaces (encs : List GoString) : Nat → GoString → GoString
  | _, [] => []
  | k + 1, _ :: rest => dropSpaces encs k rest
  | 0, b :: rest =>
    match spaceLen encs (b :: rest) with
    | 0 => b :: rest
    | n + 1 => dropSpaces encs n rest

/-- Model of `strings.TrimLeftFunc(s, unicode.IsSpace)`. -/
def trimLeft (s : GoString) : GoString := dropSpaces spaceRunes 0 s

/-- Model of `strings.TrimRightFunc(s, unicode.IsSpace)`: the string is read backwards. -/
def trimRight (s : GoString) : GoString :=
  (dropSpaces (spaceRunes.map List.reverse) 0 s.reverse).reverse

/-- Model of `strings.TrimSpace`. -/
def trimSpace (s : GoString) : GoString := trimRight (trimLeft s)

/-- Byte class `[a-zA-Z]`. -/
def isLetter (b : Nat) : Bool := (65 ≤ b && b ≤ 90) || (97 ≤ b && b ≤ 122)

/-- Byte class `[a-zA-Z0-9+.-]`. -/
def isSchemeChar (b : Nat) : Bool :=
  isLetter b || (48 ≤ b && b ≤ 57) || b == 43 || b == 46 || b == 45

/-- Model of `schemePattern.MatchString` for the pattern `^[a-zA-Z][a-zA-Z0-9+.-]*://`.
The class holds neither `:` nor `/`, so the run of class bytes is the maximal one. -/
def schemePattern (s : GoString) : Bool :=
  match s with
  | [] => false
  | b :: rest => isLetter b && (rest.dropWhile isSchemeChar).take 3 == [58, 47, 47]

/-- Model of `strings.HasPrefix`. -/
def startsWith (s p : GoString) : Bool := p.isPrefixOf s

/-! ## Plain-text scan -/

/-- The constant `bufio.MaxScanTokenSize`: the buffer limit of a default `bufio.Scanner`. -/
def maxScanTokenSize : Nat := 64 * 1024

/-- The helper `dropCR` of `bufio.ScanLines`: one trailing carriage return is removed. -/
def dropCR (line : GoString) : GoString :=
  if line.getLast? = some 13 then line.dropLast else line

/-- Model of the loop `for scanner.Scan()` over `bufio.NewScanner(strings.NewReader(content))`
with the default split function `bufio.ScanLines`: the list of tokens `scanner.Text()` yields.
`cur` is the current line, reversed.  A line that does not end within `maxScanTokenSize`
bytes fills the buffer: `Scan` records `bufio.ErrTooLong` and returns false, which ends the
loop (the source never looks at `scanner.Err()`). -/
def scanLinesFrom : GoString → GoString → List GoString
  | [], cur => if cur = [] then [] else [dropCR cur.reverse]
  | b :: rest, cur =>
    if b = 10 then dropCR cur.reverse :: scanLinesFrom rest []
    else if maxScanTokenSize ≤ cur.length + 1 then []
    else scanLinesFrom rest (b :: cur)

/-- The tokens of a default line scanner over `content`. -/
def scanLines (content : GoString) : List GoString := scanLinesFrom content []

/-- Body of the loop of `extractLinksFromPlainText` for one scanned line. -/
def plainLine (text : GoString) : List GoString :=
  let line := trimSpace text
  if line = [] || startsWith line [35] then []
  else if !schemePattern line then []
  else [line]

/-- Embedding of `extractLinksFromPlainText`. -/
def extractLinksFromPlainText (content : GoString) : List GoString :=
  (scanLines content).flatMap plainLine

/-! ## Deduplication -/

/-- Loop of `uniqueNonEmpty`: `seen` is the set of items already appended to the result. -/
def uniqueLoop : List GoString → List GoString → List GoString
  | [], _ => []
  | item :: rest, seen =>
    let item := trimSpace item
    if item = [] then uniqueLoop rest seen
    else if item ∈ seen then uniqueLoop rest seen
    else item :: uniqueLoop rest (item :: seen)

/-- Embedding of `uniqueNonEmpty`. -/
def uniqueNonEmpty (items : List GoString) : List GoString := uniqueLoop items []

/-! ## UTF-8 -/

/-- Continuation byte `10xxxxxx`. -/
def isCont (b : Nat) : Bool := 0x80 ≤ b && b ≤ 0xBF

/-- Width of the rune that `utf8.DecodeRune` reads at the head of `s`, or `0` when the bytes
there are not a valid encoding (Go then yields `utf8.RuneError` with width 1). -/
def runeWidth : GoString → Nat
  | [] => 0
  | b :: rest =>
    if b < 0x80 then 1
    else if 0xC2 ≤ b && b ≤ 0xDF then
      match rest with
      | c :: _ => if isCont c then 2 else 0
      | _ => 0
    else if 0xE0 ≤ b && b ≤ 0xEF then
      match rest with
      | c :: d :: _ =>
        if (if b = 0xE0 then 0xA0 else 0x80) ≤ c && c ≤ (if b = 0xED then 0x9F else 0xBF)
          && isCont d then 3 else 0
      | _ => 0
    else if 0xF0 ≤ b && b ≤ 0xF4 then
      match rest with
      | c :: d :: e :: _ =>
        if (if b = 0xF0 then 0x90 else 0x80) ≤ c && c ≤ (if b = 0xF4 then 0x8F else 0xBF)
          && isCont d && isCont e then 4 else 0
      | _ => 0
    else 0

/-- The encoding of `utf8.RuneError` (U+FFFD). -/
def runeError : GoString := [0xEF, 0xBF, 0xBD]

/-- Model of `utf8.EncodeRune` / `strings.Builder.WriteRune`. -/
def encodeRune (r : Nat) : GoString :=
  if r < 0x80 then [r]
  else if r < 0x800 then [0xC0 + r / 64, 0x80 + r % 64]
  else if (0xD800 ≤ r && r ≤ 0xDFFF) || 0x10FFFF < r then runeError
  else if r < 0x10000 then [0xE0 + r / 4096, 0x80 + r / 64 % 64, 0x80 + r % 64]
  else [0xF0 + r / 262144, 0x80 + r / 4096 % 64, 0x80 + r / 64 % 64, 0x80 + r % 64]

/-- Byte class `[0-9]`. -/
def isDigit (b : Nat) : Bool := 48 ≤ b && b ≤ 57

/-- Byte class `[0-9a-fA-F]`. -/
def isHex (b : Nat) : Bool := isDigit b || (97 ≤ b && b ≤ 102) || (65 ≤ b && b ≤ 70)

/-- Value of a hexadecimal digit. -/
def unhex (b : Nat) : Nat :=
  if isDigit b then b - 48 else if 97 ≤ b && b ≤ 102 then b - 97 + 10 else b - 65 + 10

/-- Value of four hexadecimal digits (`getu4` of `encoding/json`). -/
def hex4 (a b c d : Nat) : Nat := ((unhex a * 16 + unhex b) * 16 + unhex c) * 16 + unhex d

/-! ## JSON -/

/-- A decoded JSON value (`any` holding `nil`, `bool`, `float64`, `string`, `[]any` or
`map[string]any`).  A number keeps its literal; the entries of a map are listed in the order
in which `range` visits them. -/
inductive JValue where
  | null
  | bool (b : Bool)
  | number (lit : GoString)
  | str (s : GoString)
  | arr (items : List JValue)
  | obj (members : List (GoString × JValue))

/-- What the Go runtime and the Unicode tables decide and the source does not. -/
structure Runtime where
  /-- Order in which `range` visits the entries of a map (unspecified by the language). -/
  mapOrder : List (GoString × JValue) → List (GoString × JValue)
  /-- A map is visited entry by entry: the order is a permutation. -/
  mapOrder_perm : ∀ m, (mapOrder m).Perm m
  /-- Whether `strconv.ParseFloat(lit, 64)` accepts a JSON number literal (no range error). -/
  floatInRange : GoString → Bool
  /-- The function `strings.Map(unicode.ToLower, s)`, used for strings with a non-ASCII byte. -/
  lowerNonASCII : GoString → GoString

/-- Lexical tokens of a JSON text. -/
inductive Token where
  | lbracket | rbracket | lbrace | rbrace | colon | comma
  | str (s : GoString)
  | num (lit : GoString)
  | tru | fls | nul
  deriving DecidableEq

/-- Model of `unquote` of `encoding/json` on the bytes between the quotes of a valid string
literal: escapes are resolved, a surrogate pair of two `\\u` escapes becomes one rune, an unpaired
surrogate and every invalid UTF-8 byte become U+FFFD.  `skip` bytes already consumed are
passed over. -/
def unquoteFrom : Nat → GoString → GoString
  | _, [] => []
  | k + 1, _ :: rest => unquoteFrom k rest
  | 0, b :: rest =>
    if b = 92 then
      match rest with
      | 117 :: h1 :: h2 :: h3 :: h4 :: more =>
        let rr := hex4 h1 h2 h3 h4
        if 0xD800 ≤ rr && rr ≤ 0xDFFF then
          match more with
          | 92 :: 117 :: g1 :: g2 :: g3 :: g4 :: _ =>
            let rr1 := hex4 g1 g2 g3 g4
            if rr < 0xDC00 && isHex g1 && isHex g2 && isHex g3 && isHex g4
                && 0xDC00 ≤ rr1 && rr1 ≤ 0xDFFF then
              encodeRune ((rr - 0xD800) * 1024 + (rr1 - 0xDC00) + 0x10000) ++ unquoteFrom 11 rest
            else runeError ++ unquoteFrom 5 rest
          | _ => runeError ++ unquoteFrom 5 rest
        else encodeRune rr ++ unquoteFrom 5 rest
      | c :: _ =>
        (if c = 98 then 8 else if c = 102 then 12 else if c = 110 then 10
          else if c = 114 then 13 else if c = 116 then 9 else c) :: unquoteFrom 1 rest
      | [] => []
    else
      match runeWidth (b :: rest) with
      | 0 => runeError ++ unquoteFrom 0 rest
      | n + 1 => b :: unquoteFrom n rest

/-- The string a JSON string literal denotes. -/
def unquote (raw : GoString) : GoString := unquoteFrom 0 raw

/-- Exponent part of a JSON number: empty, or `e`/`E`, an optional sign and digits. -/
def validExp (s : GoString) : Bool :=
  match s with
  | [] => true
  | e :: r =>
    (e == 101 || e == 69) &&
      (match r with
       | [] => false
       | c :: t => if c = 43 ∨ c = 45 then (!t.isEmpty && t.all isDigit) else r.all isDigit)

/-- Fraction and exponent part of a JSON number. -/
def validFrac (s : GoString) : Bool :=
  match s with
  | 46 :: d :: r => isDigit d && validExp (r.dropWhile isDigit)
  | _ => validExp s

/-- The number grammar of JSON: `-? (0 | [1-9][0-9]*) (\.[0-9]+)? ([eE][+-]?[0-9]+)?`. -/
def validNumber (s : GoString) : Bool :=
  match (match s with | 45 :: r => r | _ => s) with
  | [] => false
  | d :: r =>
    if d = 48 then validFrac r
    else if 49 ≤ d ∧ d ≤ 57 then validFrac (r.dropWhile isDigit)
    else false

/-- Scanner mode of the JSON lexer. -/
inductive LexMode where
  /-- Between tokens. -/
  | idle
  /-- Inside a string literal: `raw` holds the bytes read so far, reversed; `esc` is `0` in
  plain text, `1` after a backslash, and `n + 1` when `n` hexadecimal digits of a `\u` escape
  are still to come. -/
  | inStr (raw : GoString) (esc : Nat)
  /-- Inside a number: the bytes read so far, reversed. -/
  | inNum (lit : GoString)
  /-- Inside `true`, `false` or `null`: the bytes still to come and the token they complete. -/
  | inLit (rest : GoString) (tok : Token)

/-- Bytes that can continue a number. -/
def isNumChar (c : Nat) : Bool :=
  isDigit c || c == 45 || c == 43 || c == 46 || c == 101 || c == 69

/-- The structural characters of JSON. -/
def punctuation (c : Nat) : Option Token :=
  if c = 91 then some .lbracket
  else if c = 93 then some .rbracket
  else if c = 123 then some .lbrace
  else if c = 125 then some .rbrace
  else if c = 58 then some .colon
  else if c = 44 then some .comma
  else none

/-- The first byte of `true`, `false` or `null`: the bytes that must follow and the token. -/
def literalStart (c : Nat) : Option (GoString × Token) :=
  if c = 116 then some ([114, 117, 101], .tru)
  else if c = 102 then some ([97, 108, 115, 101], .fls)
  else if c = 110 then some ([117, 108, 108], .nul)
  else none

/-- One byte read between tokens; `toks` are the tokens so far, reversed. -/
def lexIdle (toks : List Token) (c : Nat) : Option (List Token × LexMode) :=
  if c = 32 ∨ c = 9 ∨ c = 13 ∨ c = 10 then some (toks, .idle)
  else
    match punctuation c with
    | some t => some (t :: toks, .idle)
    | none =>
      if c = 34 then some (toks, .inStr [] 0)
      else if c = 45 ∨ isDigit c then some (toks, .inNum [c])
      else
        match literalStart c with
        | some (rest, tok) => some (toks, .inLit rest tok)
        | none => none

/-- One byte of JSON text; `none` is a syntax error. -/
def lexStep (st : List Token × LexMode) (c : Nat) : Option (List Token × LexMode) :=
  match st with
  | (toks, .idle) => lexIdle toks c
  | (toks, .inStr raw 0) =>
    if c = 34 then some (.str (unquote raw.reverse) :: toks, .idle)
    else if c = 92 then some (toks, .inStr (c :: raw) 1)
    else if c < 32 then none
    else some (toks, .inStr (c :: raw) 0)
  | (toks, .inStr raw 1) =>
    if c = 34 ∨ c = 92 ∨ c = 47 ∨ c = 98 ∨ c = 102 ∨ c = 110 ∨ c = 114 ∨ c = 116 then
      some (toks, .inStr (c :: raw) 0)
    else if c = 117 then some (toks, .inStr (c :: raw) 5)
    else none
  | (toks, .inStr raw (k + 2)) =>
    if isHex c then some (toks, .inStr (c :: raw) (if k = 0 then 0 else k + 1)) else none
  | (toks, .inNum lit) =>
    if isNumChar c then some (toks, .inNum (c :: lit))
    else if validNumber lit.reverse then lexIdle (.num lit.reverse :: toks) c
    else none
  | (toks, .inLit rest tok) =>
    match rest with
    | [] => none
    | r :: more =>
      if c = r then (if more = [] then some (tok :: toks, .idle) else some (toks, .inLit more tok))
      else none

/-- End of input: a number may end here, a string or a literal may not. -/
def lexEnd (st : List Token × LexMode) : Option (List Token) :=
  match st with
  | (toks, .idle) => some toks.reverse
  | (toks, .inNum lit) =>
    if validNumber lit.reverse then some (Token.num lit.reverse :: toks).reverse else none
  | _ => none

/-- The tokens of a JSON text, or `none` on a lexical error. -/
def jsonTokens (body : GoString) : Option (List Token) :=
  (body.foldlM lexStep ([], LexMode.idle)).bind lexEnd

/-- An array or object under construction. -/
inductive Frame where
  /-- An array: the items so far, reversed. -/
  | arr (items : List JValue)
  /-- An object: the members so far, reversed, and the key whose value is awaited. -/
  | obj (members : List (GoString × JValue)) (key : Option GoString)

/-- What the parser expects next. -/
inductive Phase where
  | value | valueOrClose | keyOrClose | key | colon | next
  | done (v : JValue)

/-- The constant `maxNestingDepth` of the scanner of `encoding/json`. -/
def maxNestingDepth : Nat := 10000

/-- A value is complete: it is the document, an array item or a member value. -/
def complete (v : JValue) : List Frame → Option (List Frame × Phase)
  | [] => some ([], .done v)
  | .arr items :: st => some (.arr (v :: items) :: st, .next)
  | .obj ms (some k) :: st => some (.obj ((k, v) :: ms) none :: st, .next)
  | .obj _ none :: _ => none

/-- A token where a value must start. -/
def beginValue (stack : List Frame) (tok : Token) : Option (List Frame × Phase) :=
  match tok with
  | .str s => complete (.str s) stack
  | .num l => complete (.number l) stack
  | .tru => complete (.bool true) stack
  | .fls => complete (.bool false) stack
  | .nul => complete .null stack
  | .lbracket =>
    if stack.length < maxNestingDepth then some (.arr [] :: stack, .valueOrClose) else none
  | .lbrace =>
    if stack.length < maxNestingDepth then some (.obj [] none :: stack, .keyOrClose) else none
  | _ => none

/-- A token where an object key must stand. -/
def beginKey (stack : List Frame) (tok : Token) : Option (List Frame × Phase) :=
  match tok, stack with
  | .str k, .obj ms none :: st => some (.obj ms (some k) :: st, .colon)
  | _, _ => none

/-- A closing bracket or brace; `mk` builds the object from its members in document order. -/
def closeFrame (mk : List (GoString × JValue) → List (GoString × JValue))
    (stack : List Frame) (tok : Token) : Option (List Frame × Phase) :=
  match tok, stack with
  | .rbracket, .arr items :: st => complete (.arr items.reverse) st
  | .rbrace, .obj ms none :: st => complete (.obj (mk ms.reverse)) st
  | _, _ => none

/-- One token of the JSON grammar. -/
def parseStep (mk : List (GoString × JValue) → List (GoString × JValue))
    (st : List Frame × Phase) (tok : Token) : Option (List Frame × Phase) :=
  match st with
  | (stack, .value) => beginValue stack tok
  | (stack, .valueOrClose) =>
    if tok = .rbracket then closeFrame mk stack tok else beginValue stack tok
  | (stack, .keyOrClose) =>
    if tok = .rbrace then closeFrame mk stack tok else beginKey stack tok
  | (stack, .key) => beginKey stack tok
  | (stack, .colon) => if tok = .colon then some (stack, .value) else none
  | (stack, .next) =>
    if tok = .comma then
      match stack with
      | .arr _ :: _ => some (stack, .value)
      | .obj _ _ :: _ => some (stack, .key)
      | [] => none
    else closeFrame mk stack tok
  | (_, .done _) => none

/-- The value a token sequence denotes, or `none` when it is not one JSON value. -/
def parseTokens (mk : List (GoString × JValue) → List (GoString × JValue))
    (toks : List Token) : Option JValue :=
  match toks.foldlM (parseStep mk) ([], Phase.value) with
  | some ([], .done v) => some v
  | _ => none

/-- The assignment `m[k] = v` on a map given by its entries. -/
def mapAssign (m : List (GoString × JValue)) (k : GoString) (v : JValue) :
    List (GoString × JValue) :=
  match m with
  | [] => [(k, v)]
  | (k1, v1) :: rest => if k1 = k then (k, v) :: rest else (k1, v1) :: mapAssign rest k v

/-- The map that decoding an object builds: members are assigned in document order, so of
several members with one key the last is kept. -/
def goMap (members : List (GoString × JValue)) : List (GoString × JValue) :=
  members.foldl (fun m kv => mapAssign m kv.1 kv.2) []

/-- The JSON document as written: every member of every object, in document order. -/
def jsonDocument (body : GoString) : Option JValue :=
  (jsonTokens body).bind (parseTokens id)

/-- Model of `json.Valid`. -/
def jsonValid (body : GoString) : Bool := (jsonDocument body).isSome

/-- Number tokens that `strconv.ParseFloat` accepts. -/
def numbersInRange (rt : Runtime) (toks : List Token) : Bool :=
  toks.all (fun t => match t with | .num lit => rt.floatInRange lit | _ => true)

/-- Model of `json.Unmarshal(body, &payload)` with `payload` of type `any`: `none` when an
error is returned: the text is checked with the scanner of `json.Valid` first, and a number
outside `float64` is an error as well. -/
def jsonUnmarshal (rt : Runtime) (body : GoString) : Option JValue :=
  if jsonValid body then
    (jsonTokens body).bind (fun toks =>
      if numbersInRange rt toks then parseTokens (fun ms => rt.mapOrder (goMap ms)) toks
      else none)
  else none

mutual
/-- The closure `walk` of `extractLinksFromJSON`: the links appended while visiting `v`. -/
def walk : JValue → List GoString
  | .str t =>
    let value := trimSpace t
    if schemePattern value then [value] else []
  | .arr items => walkItems items
  | .obj members => walkMembers members
  | _ => []
/-- The loop `for _, item := range t` over a slice. -/
def walkItems : List JValue → List GoString
  | [] => []
  | item :: rest => walk item ++ walkItems rest
/-- The loop `for _, item := range t` over a map. -/
def walkMembers : List (GoString × JValue) → List GoString
  | [] => []
  | (_, item) :: rest => walk item ++ walkMembers rest
end

/-- Embedding of `extractLinksFromJSON`. -/
def extractLinksFromJSON (rt : Runtime) (body : GoString) : List GoString :=
  match jsonUnmarshal rt body with
  | none => []
  | some payload => walk payload

mutual
/-- Every string value of a JSON value, at any depth of arrays and of object members. -/
def stringValues : JValue → List GoString
  | .str t => [t]
  | .arr items => stringValuesOfItems items
  | .obj members => stringValuesOfMembers members
  | _ => []
/-- The string values below the items of an array. -/
def stringValuesOfItems : List JValue → List GoString
  | [] => []
  | item :: rest => stringValues item ++ stringValuesOfItems rest
/-- The string values below the members of an object. -/
def stringValuesOfMembers : List (GoString × JValue) → List GoString
  | [] => []
  | (_, item) :: rest => stringValues item ++ stringValuesOfMembers rest
end

/-! ## Base64 -/

/-- One of the four encodings `base64.StdEncoding`, `RawStdEncoding`, `URLEncoding` and
`RawURLEncoding`. -/
structure Encoding where
  /-- The URL-safe alphabet (`-` and `_` for `+` and `/`). -/
  url : Bool
  /-- Padding with `=`. -/
  padded : Bool
  deriving DecidableEq

/-- The alphabet of an encoding. -/
def Encoding.alphabet (enc : Encoding) : GoString :=
  if enc.url then bytes "ABCDEFGHIJKLMNOPQRSTUVWXYZabcdefghijklmnopqrstuvwxyz0123456789-_"
  else bytes "ABCDEFGHIJKLMNOPQRSTUVWXYZabcdefghijklmnopqrstuvwxyz0123456789+/"

/-- The entry of `decodeMap` for a byte: its position in the alphabet. -/
def sextet (enc : Encoding) (c : Nat) : Option Nat :=
  let i := enc.alphabet.indexOf c
  if i < 64 then some i else none

/-- The character of a six-bit value. -/
def sextetChar (enc : Encoding) (d : Nat) : Nat := enc.alphabet.getD d 0

/-- Model of `decodeQuantum`, quantum after quantum, on an input without line breaks:
`none` is a `CorruptInputError`. -/
def decodeQuanta (enc : Encoding) : GoString → Option GoString
  | [] => some []
  | [_] => none
  | c0 :: c1 :: rest =>
    match sextet enc c0, sextet enc c1 with
    | some d0, some d1 =>
      match rest with
      | [] => if enc.padded then none else some [(d0 * 4 + d1 / 16) % 256]
      | c2 :: rest2 =>
        match sextet enc c2 with
        | some d2 =>
          match rest2 with
          | [] =>
            if enc.padded then none
            else some [(d0 * 4 + d1 / 16) % 256, (d1 % 16) * 16 + d2 / 4]
          | c3 :: rest3 =>
            match sextet enc c3 with
            | some d3 =>
              (decodeQuanta enc rest3).map (fun out =>
                (d0 * 4 + d1 / 16) % 256 :: ((d1 % 16) * 16 + d2 / 4)
                  :: ((d2 % 4) * 64 + d3) :: out)
            | none =>
              if enc.padded && c3 == 61 && rest3.isEmpty then
                some [(d0 * 4 + d1 / 16) % 256, (d1 % 16) * 16 + d2 / 4]
              else none
        | none =>
          if enc.padded && c2 == 61 && rest2 == [61] then some [(d0 * 4 + d1 / 16) % 256]
          else none
    | _, _ => none

/-- Model of `Encoding.DecodeString` with a nil error: the decoder skips `\r` and `\n`. -/
def base64Decode (enc : Encoding) (s : GoString) : Option GoString :=
  decodeQuanta enc (s.filter (fun c => c != 10 && c != 13))

/-- Model of `Encoding.EncodeToString`. -/
def base64Encode (enc : Encoding) : GoString → GoString
  | [] => []
  | [a] =>
    [sextetChar enc (a / 4), sextetChar enc (a % 4 * 16)] ++ (if enc.padded then [61, 61] else [])
  | [a, b] =>
    [sextetChar enc (a / 4), sextetChar enc (a % 4 * 16 + b / 16), sextetChar enc (b % 16 * 4)]
      ++ (if enc.padded then [61] else [])
  | a :: b :: c :: rest =>
    sextetChar enc (a / 4) :: sextetChar enc (a % 4 * 16 + b / 16)
      :: sextetChar enc (b % 16 * 4 + c / 64) :: sextetChar enc (c % 64) :: base64Encode enc rest

/-- The decoders in the order the source tries them. -/
def decoders : List Encoding :=
  [⟨false, true⟩, ⟨false, false⟩, ⟨true, true⟩, ⟨true, false⟩]

/-- The loop of `collapseWhitespace`: `range` reads rune by rune, and `WriteRune` writes an
invalid byte as U+FFFD.  The `skip` trailing bytes of a rune already read are copied. -/
def collapseFrom : Nat → GoString → GoString
  | _, [] => []
  | k + 1, b :: rest => b :: collapseFrom k rest
  | 0, b :: rest =>
    if b = 10 ∨ b = 13 ∨ b = 9 ∨ b = 32 then collapseFrom 0 rest
    else
      match runeWidth (b :: rest) with
      | 0 => runeError ++ collapseFrom 0 rest
      | n + 1 => b :: collapseFrom n rest

/-- Embedding of `collapseWhitespace`. -/
def collapseWhitespace (s : GoString) : GoString := collapseFrom 0 s

/-- Embedding of `padBase64`. -/
def padBase64 (s : GoString) : GoString :=
  let mod := s.length % 4
  if mod ≠ 0 then s ++ List.replicate (4 - mod) 61 else s

/-- Model of `strings.Contains`. -/
def containsSub (s sub : GoString) : Bool := s.tails.any (fun t => sub.isPrefixOf t)

/-- The decoding loop of `extractLinksFromBase64`: the output of the first decoder that
returns no error, or nil. -/
def decodeFirst (normalized : GoString) : GoString :=
  match decoders.findSome? (fun enc => base64Decode enc (padBase64 normalized)) with
  | some out => out
  | none => []

/-- Embedding of `extractLinksFromBase64`. -/
def extractLinksFromBase64 (rt : Runtime) (content : GoString) : List GoString :=
  let normalized := collapseWhitespace content
  if normalized = [] || containsSub normalized [58, 47, 47] then []
  else
    let decoded := decodeFirst normalized
    if decoded.length = 0 then []
    else
      (if jsonValid decoded then extractLinksFromJSON rt decoded else [])
        ++ extractLinksFromPlainText decoded

/-- Embedding of `extractLinks`. -/
def extractLinks (rt : Runtime) (body : GoString) : List GoString :=
  uniqueNonEmpty
    ((if jsonValid body then extractLinksFromJSON rt body else [])
      ++ extractLinksFromPlainText body
      ++ extractLinksFromBase64 rt body)

/-- The value of a JSON number literal against the range of `float64`: with mantissa digits
`m`, `f` of them behind the point, and exponent `e`, the value `m * 10 ^ (e - f)` rounds to a
finite `float64` when it is below `2^1024 - 2^970`. -/
def floatFits (lit : GoString) : Bool :=
  let body := match lit with | 45 :: r => r | _ => lit
  let intDigits := body.takeWhile isDigit
  let afterInt := body.dropWhile isDigit
  let fracDigits := match afterInt with | 46 :: r => r.takeWhile isDigit | _ => []
  let afterFrac := match afterInt with | 46 :: r => r.dropWhile isDigit | _ => afterInt
  let expDigits := match afterFrac with
    | _ :: 43 :: r => r
    | _ :: 45 :: r => r
    | _ :: r => r
    | [] => []
  let expNegative := match afterFrac with | _ :: 45 :: _ => true | _ => false
  let m := (intDigits ++ fracDigits).foldl (fun acc d => acc * 10 + (d - 48)) 0
  let e := expDigits.foldl (fun acc d => acc * 10 + (d - 48)) 0
  let limit := (1 <<< 1024) - (1 <<< 970)
  if expNegative then decide (m < limit * 10 ^ (e + fracDigits.length))
  else if fracDigits.length ≤ e then decide (m * 10 ^ (e - fracDigits.length) < limit)
  else decide (m < limit * 10 ^ (fracDigits.length - e))

/-- A runtime for evaluating examples: maps are visited in the order of first assignment,
numbers are compared with the range of `float64`, and text with a non-ASCII byte is left
unchanged by lower-casing. -/
def exampleRuntime : Runtime where
  mapOrder := id
  mapOrder_perm := fun _ => List.Perm.refl _
  floatInRange := floatFits
  lowerNonASCII := id

/-! ## Helpers of `util.go` -/

/-- Model of `strings.ToLower`: ASCII text is lowered byte by byte, other text goes through
`strings.Map(unicode.ToLower, s)`. -/
def toLower (rt : Runtime) (s : GoString) : GoString :=
  if s.all (fun c => c < 128) then s.map (fun c => if 65 ≤ c ∧ c ≤ 90 then c + 32 else c)
  else rt.lowerNonASCII s

/-- Model of `strings.Split` for a one-byte separator. -/
def splitByte (sep : Nat) : GoString → List GoString
  | [] => [[]]
  | b :: rest =>
    if b = sep then [] :: splitByte sep rest
    else
      match splitByte sep rest with
      | [] => [[b]]
      | seg :: segs => (b :: seg) :: segs

/-- Model of `strings.Cut` for a one-byte separator: the text before and after its first
occurrence (all of `s` and the empty string when it does not occur). -/
def cutByte (sep : Nat) (s : GoString) : GoString × GoString :=
  (s.takeWhile (fun c => c != sep), (s.dropWhile (fun c => c != sep)).drop 1)

/-- Embedding of `firstNonEmpty`. -/
def firstNonEmpty : List GoString → GoString
  | [] => []
  | v :: rest =>
    let s := trimSpace v
    if s ≠ [] then s else firstNonEmpty rest

/-- Embedding of `parseBool`. -/
def parseBool (rt : Runtime) (v : GoString) : Bool :=
  let s := toLower rt (trimSpace v)
  if s = bytes "1" ∨ s = bytes "true" ∨ s = bytes "yes" ∨ s = bytes "on" then true else false

/-- Embedding of `splitCSV`. -/
def splitCSV (raw : GoString) : List GoString :=
  let raw := trimSpace raw
  if raw = [] then []
  else ((splitByte 44 raw).map trimSpace).filter (fun part => part ≠ [])

/-! ## URLs -/

/-- The type `url.Userinfo`. -/
structure Userinfo where
  username : GoString
  password : GoString
  passwordSet : Bool
  deriving DecidableEq

/-- The fields of `url.URL` that the source reads. -/
structure URL where
  Scheme : GoString
  User : Option Userinfo
  Host : GoString
  RawQuery : GoString
  Fragment : GoString
  deriving DecidableEq

/-- Model of `(*Userinfo).Username`, which accepts a nil receiver. -/
def URL.Username (u : URL) : GoString :=
  match u.User with
  | none => []
  | some info => info.username

/-- Model of `validOptionalPort` of `net/url`. -/
def validOptionalPort (port : GoString) : Bool :=
  match port with
  | [] => true
  | c :: rest => c == 58 && rest.all isDigit

/-- Model of `strings.LastIndexByte`. -/
def lastIndexByte (s : GoString) (c : Nat) : Option Nat :=
  match s.reverse.indexOf? c with
  | none => none
  | some i => some (s.length - 1 - i)

/-- Model of `splitHostPort` of `net/url`. -/
def splitHostPort (hostPort : GoString) : GoString × GoString :=
  let hp : GoString × GoString :=
    match lastIndexByte hostPort 58 with
    | some colon =>
      if validOptionalPort (hostPort.drop colon) then
        (hostPort.take colon, hostPort.drop (colon + 1))
      else (hostPort, [])
    | none => (hostPort, [])
  let host := hp.1
  if startsWith host [91] && host.getLast? == some 93 then ((host.drop 1).dropLast, hp.2)
  else (host, hp.2)

/-- Model of `(*URL).Hostname`. -/
def URL.Hostname (u : URL) : GoString := (splitHostPort u.Host).1

/-- Model of `(*URL).Port`. -/
def URL.Port (u : URL) : GoString := (splitHostPort u.Host).2

/-- Model of `url.QueryUnescape`: `%XX` is decoded, `+` becomes a space; `none` is an
`EscapeError`. -/
def queryUnescape : GoString → Option GoString
  | [] => some []
  | b :: rest =>
    if b = 37 then
      match rest with
      | h :: l :: more =>
        if isHex h && isHex l then
          (queryUnescape more).map (fun t => (unhex h * 16 + unhex l) :: t)
        else none
      | _ => none
    else if b = 43 then (queryUnescape rest).map (fun t => 32 :: t)
    else (queryUnescape rest).map (fun t => b :: t)

/-- The type `url.Values`, as the list of its (key, value) pairs in the order of the query:
the values of one key keep their order. -/
abbrev Values := List (GoString × GoString)

/-- One `key=value` setting of a query, as `parseQuery` of `net/url` reads it: a setting
with a semicolon, an empty one and one that cannot be unescaped are skipped. -/
def parseSetting (setting : GoString) : Values :=
  if setting.contains 59 then []
  else if setting = [] then []
  else
    let kv := cutByte 61 setting
    match queryUnescape kv.1, queryUnescape kv.2 with
    | some key, some value => [(key, value)]
    | _, _ => []

/-- Model of `(*URL).Query`. -/
def URL.Query (u : URL) : Values := (splitByte 38 u.RawQuery).flatMap parseSetting

/-- Model of `Values.Get`: the first value of the key, or the empty string. -/
def Values.Get (v : Values) (key : GoString) : GoString :=
  match v.find? (fun kv => kv.1 == key) with
  | some kv => kv.2
  | none => []

/-- Model of `strconv.Atoi` on a 64-bit platform: `none` is a syntax or range error. -/
def atoi (s : GoString) : Option Int :=
  let neg := s.head? == some 45
  let ds := if s.head? == some 45 || s.head? == some 43 then s.drop 1 else s
  if ds = [] || !ds.all isDigit then none
  else
    let n : Nat := ds.foldl (fun acc d => acc * 10 + (d - 48)) 0
    if neg then (if n ≤ 2 ^ 63 then some (-(n : Int)) else none)
    else (if n < 2 ^ 63 then some (n : Int) else none)

/-! ## The descriptor

The source builds the descriptor as a `map[string]any`; each map is modelled by a structure
whose optional fields are the keys that may be absent. -/

/-- The map under the key `reality`. -/
structure Reality where
  enabled : Bool
  public_key : GoString
  short_id : Option GoString
  deriving DecidableEq

/-- The map under the key `utls`. -/
structure UTLS where
  enabled : Bool
  fingerprint : GoString
  deriving DecidableEq

/-- The map under the key `tls`. -/
structure TLSConfig where
  enabled : Bool
  server_name : Option GoString
  insecure : Option Bool
  alpn : Option (List GoString)
  utls : Option UTLS
  reality : Option Reality
  deriving DecidableEq

/-- The value under the key `host` of a transport: a string or a list of strings. -/
inductive HostValue where
  | one (host : GoString)
  | many (hosts : List GoString)
  deriving DecidableEq

/-- The map under the key `transport`; `headers` is the map with the single key `Host`. -/
structure Transport where
  type : GoString
  service_name : Option GoString
  authority : Option GoString
  path : Option GoString
  headers : Option GoString
  host : Option HostValue
  deriving DecidableEq

/-- The descriptor that `buildVLESSOutbound` returns. -/
structure Outbound where
  type : GoString
  tag : GoString
  server : GoString
  server_port : Int
  uuid : GoString
  flow : Option GoString
  tls : Option TLSConfig
  transport : Option Transport
  deriving DecidableEq

/-- The errors of `buildVLESSOutbound`, one for each `return nil, ...`. -/
inductive DecodeError where
  | emptyURL
  | unsupportedScheme (scheme : GoString)
  | missingUUID
  | missingServer
  | badPort (rawPort : GoString)
  | realityWithoutPbk
  | unsupportedTransport (transportType : GoString)
  deriving DecidableEq

/-- A string kept under its key only when it is not empty. -/
def nonEmpty (s : GoString) : Option GoString := if s ≠ [] then some s else none

/-- Lines 230-237 of `subscription.go`: the port, 443 when the URL has none. -/
def serverPortOf (uri : URL) : Except DecodeError Int :=
  let rawPort := trimSpace uri.Port
  if rawPort ≠ [] then
    match atoi rawPort with
    | none => .error (.badPort rawPort)
    | some port => if port < 1 ∨ port > 65535 then .error (.badPort rawPort) else .ok port
  else .ok 443

/-- Lines 252-287 of `subscription.go`: the `tls` entry of the descriptor, if any. -/
def tlsOf (rt : Runtime) (query : Values) : Except DecodeError (Option TLSConfig) :=
  let security := toLower rt (trimSpace (query.Get (bytes "security")))
  let publicKey := trimSpace (query.Get (bytes "pbk"))
  if security = bytes "tls" ∨ security = bytes "reality" ∨ publicKey ≠ [] then
    let serverName := firstNonEmpty
      [query.Get (bytes "sni"), query.Get (bytes "serverName"), query.Get (bytes "host")]
    let alpn := splitCSV (query.Get (bytes "alpn"))
    let fp := firstNonEmpty [query.Get (bytes "fp"), query.Get (bytes "fingerprint")]
    let tlsConfig : TLSConfig :=
      { enabled := true
        server_name := nonEmpty serverName
        insecure := if parseBool rt (query.Get (bytes "allowInsecure")) then some true else none
        alpn := if alpn.length > 0 then some alpn else none
        utls := if fp ≠ [] then some { enabled := true, fingerprint := fp } else none
        reality := none }
    if security = bytes "reality" ∨ publicKey ≠ [] then
      if publicKey = [] then .error .realityWithoutPbk
      else
        .ok (some { tlsConfig with
          reality := some
            { enabled := true
              public_key := publicKey
              short_id := nonEmpty (trimSpace (query.Get (bytes "sid"))) } })
    else .ok (some tlsConfig)
  else .ok none

/-- Model of `strings.TrimPrefix(s, "/")`. -/
def trimLeadingSlash (s : GoString) : GoString :=
  match s with
  | 47 :: rest => rest
  | _ => s

/-- A transport map with its `type` only. -/
def Transport.ofType (t : GoString) : Transport :=
  { type := t, service_name := none, authority := none, path := none, headers := none,
    host := none }

/-- Lines 289-330 of `subscription.go`: the `transport` entry of the descriptor, if any. -/
def transportOf (rt : Runtime) (query : Values) : Except DecodeError (Option Transport) :=
  let transportType := toLower rt
    (trimSpace (firstNonEmpty [query.Get (bytes "type"), query.Get (bytes "network")]))
  if transportType = [] ∨ transportType = bytes "tcp" then .ok none
  else if transportType = bytes "grpc" then
    .ok (some { Transport.ofType (bytes "grpc") with
      service_name := nonEmpty (trimLeadingSlash
        (firstNonEmpty [query.Get (bytes "serviceName"), query.Get (bytes "service_name")]))
      authority := nonEmpty (trimSpace (query.Get (bytes "authority"))) })
  else if transportType = bytes "ws" ∨ transportType = bytes "websocket" then
    .ok (some { Transport.ofType (bytes "ws") with
      path := nonEmpty (trimSpace (query.Get (bytes "path")))
      headers := nonEmpty (trimSpace (query.Get (bytes "host"))) })
  else if transportType = bytes "httpupgrade" then
    .ok (some { Transport.ofType (bytes "httpupgrade") with
      host := (nonEmpty (trimSpace (query.Get (bytes "host")))).map HostValue.one
      path := nonEmpty (trimSpace (query.Get (bytes "path"))) })
  else if transportType = bytes "http" ∨ transportType = bytes "h2" then
    let hosts := splitCSV (query.Get (bytes "host"))
    .ok (some { Transport.ofType (bytes "http") with
      path := nonEmpty (trimSpace (query.Get (bytes "path")))
      host := if hosts.length > 0 then some (HostValue.many hosts) else none })
  else .error (.unsupportedTransport transportType)

/-- Embedding of `buildVLESSOutbound`; `none` is the nil pointer. -/
def buildVLESSOutbound (rt : Runtime) (uri : Option URL) : Except DecodeError Outbound :=
  match uri with
  | none => .error .emptyURL
  | some uri =>
    if toLower rt uri.Scheme ≠ bytes "vless" then .error (.unsupportedScheme uri.Scheme)
    else
      let uuid := trimSpace uri.Username
      if uuid = [] then .error .missingUUID
      else
        let server := trimSpace uri.Hostname
        if server = [] then .error .missingServer
        else
          match serverPortOf uri with
          | .error e => .error e
          | .ok serverPort =>
            let query := uri.Query
            match tlsOf rt query with
            | .error e => .error e
            | .ok tls =>
              match transportOf rt query with
              | .error e => .error e
              | .ok transport =>
                .ok
                  { type := bytes "vless"
                    tag := bytes "proxy"
                    server := server
                    server_port := serverPort
                    uuid := uuid
                    flow := nonEmpty (trimSpace (query.Get (bytes "flow")))
                    tls := tls
                    transport := transport }

/-! ## Candidates and ranking (`subscription.go`, `selection.go`) -/

/-- The type `proxyEntry`; a `time.Duration` is a number of nanoseconds. -/
structure proxyEntry where
  raw : GoString
  name : GoString
  uri : Option URL
  tested : Bool
  latency : Int
  probeErr : GoString
  httpTested : Bool
  httpOK : Bool
  httpStatus : Int
  httpLatency : Int
  httpErr : GoString
  deriving DecidableEq

/-- The constant `time.Millisecond`. -/
def millisecond : Int := 1000000

/-- The constant `time.Second`. -/
def second : Int := 1000 * millisecond

/-- Embedding of `healthBucket`. -/
def healthBucket (entry : proxyEntry) : Int :=
  if entry.httpTested ∧ entry.httpOK then 0
  else if entry.tested ∧ entry.probeErr = [] then 1
  else 2

/-- Embedding of `probeLatencyOrMax`. -/
def probeLatencyOrMax (entry : proxyEntry) : Int :=
  if entry.tested ∧ entry.probeErr = [] then entry.latency
  else 10 * second

/-- The operator `<` of Go on strings: byte-wise lexicographic order. -/
def strLess : GoString → GoString → Bool
  | _, [] => false
  | [], _ :: _ => true
  | a :: s, b :: t => if a < b then true else if b < a then false else strLess s t

/-- The comparison function that `sortEntries` hands to `sort.SliceStable`. -/
def sortLess (rt : Runtime) (withHTTP : Bool) (a b : proxyEntry) : Bool :=
  let byLatencyAndName : Bool :=
    let al := probeLatencyOrMax a
    let bl := probeLatencyOrMax b
    if al ≠ bl then al < bl
    else strLess (toLower rt a.name) (toLower rt b.name)
  if withHTTP then
    let ab := healthBucket a
    let bb := healthBucket b
    if ab ≠ bb then ab < bb
    else if ab = 0 ∧ a.httpLatency ≠ b.httpLatency then a.httpLatency < b.httpLatency
    else byLatencyAndName
  else byLatencyAndName

/-- Inner loop of `insertionSort` of package `sort`: the new element is swapped to the left
as long as it is less than its left neighbour. `before` is the sorted part of the slice, the
nearest neighbour first. -/
def insertLeft {α : Type} (less : α → α → Bool) (x : α) : List α → List α
  | [] => [x]
  | y :: before => if less x y then y :: insertLeft less x before else x :: y :: before

/-- Outer loop of `insertionSort`: `sorted` is the part already sorted, last element
first. -/
def insertionSortFrom {α : Type} (less : α → α → Bool) : List α → List α → List α
  | sorted, [] => sorted.reverse
  | sorted, x :: rest => insertionSortFrom less (insertLeft less x sorted) rest

/-- Model of `sort.SliceStable`. Package `sort` runs `insertionSort` on blocks of 20 elements
and merges the blocks with `symMerge`, which keeps equal elements in order; a slice of at
most 20 elements is sorted by `insertionSort` alone. The model is `insertionSort` on the
whole slice: for a strict weak order the sorted and stable arrangement of a list is unique
(`stable_sorted_unique`), so every stable sort returns this list. -/
def sliceStable {α : Type} (less : α → α → Bool) (data : List α) : List α :=
  insertionSortFrom less [] data

/-- Embedding of `sortEntries`: the slice after the call. -/
def sortEntries (rt : Runtime) (entries : List proxyEntry) (withHTTP : Bool) :
    List proxyEntry :=
  sliceStable (sortLess rt withHTTP) entries

/-! ## Parsing a link (`util.go`, `net/url`)

The model of `url.Parse` follows `net/url` of Go 1.22. Of the parsed URL it keeps the fields
that the source reads (`Scheme`, `User`, `Host`, `RawQuery`, `Fragment`); the path is
unescaped only to decide whether parsing fails. -/

/-- The modes of `unescape` of `net/url`. -/
inductive encoding where
  | encodePath
  | encodeHost
  | encodeZone
  | encodeUserPassword
  | encodeQueryComponent
  | encodeFragment
  deriving DecidableEq

/-- Model of `shouldEscape(c, encodeHost)`: every byte but the letters, the digits, the
sub-delimiters of a host name with the colon, the brackets, the angle brackets and the
double quote (first list), and the unreserved marks (second list). -/
def shouldEscapeHost (c : Nat) : Bool :=
  !(isLetter c || isDigit c ||
    [33, 36, 38, 39, 40, 41, 42, 43, 44, 59, 61, 58, 91, 93, 60, 62, 34].contains c ||
    [45, 95, 46, 126].contains c)

/-- Model of `unescape` of `net/url`; `none` is an `EscapeError` or `InvalidHostError`. -/
def unescape (mode : encoding) : GoString → Option GoString
  | [] => some []
  | b :: rest =>
    if b = 37 then
      match rest with
      | h :: l :: more =>
        if isHex h && isHex l then
          if mode = .encodeHost ∧ unhex h < 8 ∧ ¬ (h = 50 ∧ l = 53) then none
          else if mode = .encodeZone ∧ ¬ (h = 50 ∧ l = 53) ∧ unhex h * 16 + unhex l ≠ 32 ∧
              shouldEscapeHost (unhex h * 16 + unhex l) then none
          else (unescape mode more).map (fun t => (unhex h * 16 + unhex l) :: t)
        else none
      | _ => none
    else if b = 43 then
      (unescape mode rest).map (fun t => (if mode = .encodeQueryComponent then 32 else 43) :: t)
    else if (mode = .encodeHost ∨ mode = .encodeZone) ∧ b < 128 ∧ shouldEscapeHost b then none
    else (unescape mode rest).map (fun t => b :: t)

/-- Loop of `getScheme`: `i` is the index of the first byte of the third argument. -/
def getSchemeFrom (rawURL : GoString) : Nat → GoString → Option (GoString × GoString)
  | _, [] => some ([], rawURL)
  | i, c :: rest =>
    if isLetter c then getSchemeFrom rawURL (i + 1) rest
    else if isDigit c ∨ c = 43 ∨ c = 45 ∨ c = 46 then
      if i = 0 then some ([], rawURL) else getSchemeFrom rawURL (i + 1) rest
    else if c = 58 then
      if i = 0 then none else some (rawURL.take i, rest)
    else some ([], rawURL)

/-- Model of `getScheme`: the scheme and the rest; `none` is "missing protocol scheme". -/
def getScheme (rawURL : GoString) : Option (GoString × GoString) :=
  getSchemeFrom rawURL 0 rawURL

/-- Model of `strings.Index`. -/
def indexSub (sub : GoString) : GoString → Option Nat
  | [] => if sub = [] then some 0 else none
  | c :: rest =>
    if sub.isPrefixOf (c :: rest) then some 0 else (indexSub sub rest).map (fun i => i + 1)

/-- Model of `parseHost`. -/
def parseHost (host : GoString) : Option GoString :=
  if startsWith host [91] then
    match lastIndexByte host 93 with
    | none => none
    | some i =>
      if !validOptionalPort (host.drop (i + 1)) then none
      else
        match indexSub (bytes "%25") (host.take i) with
        | some zone =>
          match unescape .encodeHost (host.take zone),
            unescape .encodeZone ((host.take i).drop zone),
            unescape .encodeHost (host.drop i) with
          | some host1, some host2, some host3 => some (host1 ++ host2 ++ host3)
          | _, _, _ => none
        | none => unescape .encodeHost host
  else
    match lastIndexByte host 58 with
    | some i =>
      if !validOptionalPort (host.drop i) then none else unescape .encodeHost host
    | none => unescape .encodeHost host

/-- Model of `validUserinfo`: letters, digits and the listed ASCII marks. -/
def validUserinfo (s : GoString) : Bool :=
  s.all (fun r => isLetter r || isDigit r ||
    [45, 46, 95, 58, 126, 33, 36, 38, 39, 40, 41, 42, 43, 44, 59, 61, 37, 64].contains r)

/-- Model of `parseAuthority`: the user and the host. -/
def parseAuthority (authority : GoString) : Option (Option Userinfo × GoString) :=
  match lastIndexByte authority 64 with
  | none => (parseHost authority).map (fun host => (none, host))
  | some i =>
    match parseHost (authority.drop (i + 1)) with
    | none => none
    | some host =>
      let userinfo := authority.take i
      if !validUserinfo userinfo then none
      else if !userinfo.contains 58 then
        (unescape .encodeUserPassword userinfo).map (fun username =>
          (some { username := username, password := [], passwordSet := false }, host))
      else
        let up := cutByte 58 userinfo
        match unescape .encodeUserPassword up.1, unescape .encodeUserPassword up.2 with
        | some username, some password =>
          some (some { username := username, password := password, passwordSet := true }, host)
        | _, _ => none

/-- Lower-casing of ASCII text, which is what `strings.ToLower` does to a scheme. -/
def lowerASCII (s : GoString) : GoString := s.map (fun c => if 65 ≤ c ∧ c ≤ 90 then c + 32 else c)

/-- Model of `parse(rawURL, false)` of `net/url`, the URL without its fragment. The query is
the text after the first `?` (the `ForceQuery` case gives the same `RawQuery`, the empty
string). -/
def parse (rawURL : GoString) : Option URL :=
  if rawURL.any (fun b => b < 32 || b == 127) then none
  else if rawURL = [42] then
    some { Scheme := [], User := none, Host := [], RawQuery := [], Fragment := [] }
  else
    match getScheme rawURL with
    | none => none
    | some (scheme, afterScheme) =>
      let scheme := lowerASCII scheme
      let rest := (cutByte 63 afterScheme).1
      let rawQuery := (cutByte 63 afterScheme).2
      if !startsWith rest [47] ∧ scheme ≠ [] then
        some { Scheme := scheme, User := none, Host := [], RawQuery := rawQuery, Fragment := [] }
      else if !startsWith rest [47] ∧ (cutByte 47 rest).1.contains 58 then none
      else if (scheme ≠ [] ∨ !startsWith rest [47, 47, 47]) ∧ startsWith rest [47, 47] then
        let authority := (rest.drop 2).takeWhile (fun c => c != 47)
        let path := (rest.drop 2).dropWhile (fun c => c != 47)
        match parseAuthority authority with
        | none => none
        | some (user, host) =>
          match unescape .encodePath path with
          | none => none
          | some _ =>
            some { Scheme := scheme, User := user, Host := host, RawQuery := rawQuery,
                   Fragment := [] }
      else
        match unescape .encodePath rest with
        | none => none
        | some _ =>
          some { Scheme := scheme, User := none, Host := [], RawQuery := rawQuery,
                 Fragment := [] }

/-- Model of `url.Parse`; `none` is an error. -/
def urlParse (rawURL : GoString) : Option URL :=
  let u := (cutByte 35 rawURL).1
  let frag := (cutByte 35 rawURL).2
  match parse u with
  | none => none
  | some url =>
    if frag = [] then some url
    else (unescape .encodeFragment frag).map (fun fragment => { url with Fragment := fragment })

/-- Embedding of `parseURL`. -/
def parseURL (raw : GoString) : Option URL := urlParse (trimSpace raw)

/-- Embedding of `buildDisplayName`; `none` is the nil pointer. -/
def buildDisplayName (uri : Option URL) : GoString :=
  match uri with
  | none => bytes "unknown"
  | some uri =>
    let fragment := trimSpace uri.Fragment
    if fragment ≠ [] then
      match queryUnescape fragment with
      | some decoded => if decoded ≠ [] then decoded else fragment
      | none => fragment
    else
      let host := uri.Hostname
      let port := if uri.Port = [] then bytes "443" else uri.Port
      host ++ bytes ":" ++ port

/-- The candidate that `fetchSubscription` appends: the fields it does not name have their
zero value. -/
def newEntry (raw name : GoString) (uri : Option URL) : proxyEntry :=
  { raw := raw, name := name, uri := uri, tested := false, latency := 0, probeErr := [],
    httpTested := false, httpOK := false, httpStatus := 0, httpLatency := 0, httpErr := [] }

/-- Lines 67-82 of `subscription.go`: the loop of `fetchSubscription` over the links. -/
def entriesOfLinks (rt : Runtime) : List GoString → List proxyEntry
  | [] => []
  | raw :: rest =>
    match parseURL raw with
    | none => entriesOfLinks rt rest
    | some uri =>
      if toLower rt uri.Scheme ≠ bytes "vless" then entriesOfLinks rt rest
      else
        match buildVLESSOutbound rt (some uri) with
        | .error _ => entriesOfLinks rt rest
        | .ok _ =>
          newEntry raw (buildDisplayName (some uri)) (some uri) :: entriesOfLinks rt rest

/-- Lines 60-83 of `subscription.go`: what `fetchSubscription` returns for a body that was
read; `none` is the error of a body without links. -/
def entriesOfBody (rt : Runtime) (body : GoString) : Option (List proxyEntry) :=
  let links := extractLinks rt body
  if links.length = 0 then none else some (entriesOfLinks rt links)

/-! ## Probes (`probe.go`, `selection.go`)

The probes talk to the network and start processes, and their workers run concurrently. What
the source does not decide is a parameter: the result of each dial, of each look-up of an
executable and of each call of `probeEntryHTTP`, and the order in which the workers deliver
their results. Every index is sent on the job channel once, the worker that takes it sends
one result, and the collecting loop receives as many results as there are entries: the
results arrive in an order that is a permutation of the indexes. A worker reads
`entries[idx]` before it sends the result for `idx`, and the collecting loop writes
`entries[idx]` only after it has received that result, so every job sees its entry as it was
when the stage began. -/

/-- A value of type `error`, as far as the source inspects it. -/
structure GoError where
  text : GoString
  netTimeout : Bool
  deadlineExceeded : Bool
  deriving DecidableEq

/-- Model of `errors.New`. -/
def errorsNew (text : GoString) : GoError :=
  { text := text, netTimeout := false, deadlineExceeded := false }

/-- The fields of `options` that the probes and the ranking read. -/
structure options where
  singBoxBinary : GoString
  probeTimeout : Int
  probeWorkers : Int
  healthCheck : Bool
  healthTimeout : Int
  healthWorkers : Int
  deriving DecidableEq

/-- What the environment decides during the probes. `dial idx address timeout` is the
result of `dialer.Dial` in job `idx` (the elapsed time or the error), `lookPath` tells
whether `exec.LookPath` finds a file, `httpProbe idx entry` is what `probeEntryHTTP` returns
in job `idx`, and `rttArrival workers n` and `httpArrival workers n` are the orders in which
the results of the `n` jobs reach the collecting loop. -/
structure Environment where
  dial : Nat → GoString → Int → Except GoError Int
  lookPath : GoString → Bool
  httpProbe : Nat → proxyEntry → Int × Int × Option GoError
  rttArrival : Nat → Nat → List Nat
  rttArrival_perm : ∀ workers n, (rttArrival workers n).Perm (List.range n)
  httpArrival : Nat → Nat → List Nat
  httpArrival_perm : ∀ workers n, (httpArrival workers n).Perm (List.range n)

/-- The type `probeOutcome`. -/
structure probeOutcome where
  index : Nat
  latency : Int
  err : Option GoError

/-- The type `httpProbeOutcome`. -/
structure httpProbeOutcome where
  index : Nat
  status : Int
  latency : Int
  err : Option GoError

/-- Embedding of `normalizeProbeError`. -/
def normalizeProbeError (err : GoError) : GoString :=
  if err.netTimeout then bytes "timeout" else bytes "fail"

/-- Embedding of `normalizeHTTPProbeError`; `none` is the nil error. -/
def normalizeHTTPProbeError (rt : Runtime) (err : Option GoError) : GoString :=
  match err with
  | none => []
  | some err =>
    let text := toLower rt (trimSpace err.text)
    if text = bytes "skip" then bytes "skip"
    else if err.netTimeout then bytes "timeout"
    else if err.deadlineExceeded ∨ containsSub text (bytes "deadline exceeded") then
      bytes "timeout"
    else bytes "fail"

/-- The number of workers that a stage starts for `n` entries. -/
def workerCount (workers : Int) (n : Nat) : Int :=
  let workers := if workers > n then (n : Int) else workers
  if workers < 1 then 1 else workers

/-- The assignment `entries[i] = f(entries[i])`. -/
def modifyAt {α : Type} (f : α → α) : Nat → List α → List α
  | _, [] => []
  | 0, x :: xs => f x :: xs
  | i + 1, x :: xs => x :: modifyAt f i xs

/-- Model of `net.JoinHostPort`. -/
def joinHostPort (host port : GoString) : GoString :=
  if host.contains 58 then bytes "[" ++ host ++ bytes "]:" ++ port
  else host ++ bytes ":" ++ port

/-- Embedding of `probeEntryRTT` in job `idx`: the latency and the error. -/
def probeEntryRTT (env : Environment) (idx : Nat) (entry : proxyEntry) (timeout : Int) :
    Int × Option GoError :=
  match entry.uri with
  | none => (0, some (errorsNew (bytes "bad uri")))
  | some uri =>
    let host := uri.Hostname
    if host = [] then (0, some (errorsNew (bytes "no host")))
    else
      let port := if uri.Port = [] then bytes "443" else uri.Port
      match env.dial idx (joinHostPort host port) timeout with
      | .error err => (0, some err)
      | .ok elapsed => (elapsed, none)

/-- What the collecting loop of `probeEntriesRTT` does to the entry of a result. -/
def setRTTOutcome (res : probeOutcome) (entry : proxyEntry) : proxyEntry :=
  let entry := { entry with tested := true, latency := res.latency }
  match res.err with
  | some err => { entry with probeErr := normalizeProbeError err }
  | none => entry

/-- The body of the collecting loop of `probeEntriesRTT`. -/
def recordRTT (entries : List proxyEntry) (res : probeOutcome) : List proxyEntry :=
  modifyAt (setRTTOutcome res) res.index entries

/-- Embedding of `probeEntriesRTT`: the slice after the call. The results are those of the
jobs in the order of their arrival. -/
def probeEntriesRTT (env : Environment) (entries : List proxyEntry) (timeout : Int)
    (workers : Int) : List proxyEntry :=
  if entries.length = 0 then entries
  else
    let workers := workerCount workers entries.length
    let results := (env.rttArrival workers.toNat entries.length).filterMap (fun idx =>
      entries[idx]?.map (fun entry =>
        ({ index := idx, latency := (probeEntryRTT env idx entry timeout).1,
           err := (probeEntryRTT env idx entry timeout).2 } : probeOutcome)))
    results.foldl recordRTT entries

/-- Embedding of `markHTTPProbeSkipped`. -/
def markHTTPProbeSkipped (entries : List proxyEntry) : List proxyEntry :=
  entries.map (fun entry => { entry with httpTested := true, httpErr := bytes "skip" })

/-- The body of the worker loop of `probeEntriesHTTP` for job `idx`: the result it sends,
and whether it called `probeEntryHTTP`. -/
def httpJob (env : Environment) (idx : Nat) (entry : proxyEntry) : httpProbeOutcome × Bool :=
  if entry.probeErr ≠ [] then
    ({ index := idx, status := 0, latency := 0, err := some (errorsNew (bytes "skip")) }, false)
  else
    ({ index := idx, status := (env.httpProbe idx entry).1,
       latency := (env.httpProbe idx entry).2.1, err := (env.httpProbe idx entry).2.2 }, true)

/-- What the collecting loop of `probeEntriesHTTP` does to the entry of a result. -/
def setHTTPOutcome (rt : Runtime) (res : httpProbeOutcome) (entry : proxyEntry) : proxyEntry :=
  let entry :=
    { entry with httpTested := true, httpLatency := res.latency, httpStatus := res.status }
  match res.err with
  | some err => { entry with httpErr := normalizeHTTPProbeError rt (some err) }
  | none => { entry with httpOK := true }

/-- The body of the collecting loop of `probeEntriesHTTP`. -/
def recordHTTP (rt : Runtime) (entries : List proxyEntry) (res : httpProbeOutcome) :
    List proxyEntry :=
  modifyAt (setHTTPOutcome rt res) res.index entries

/-- What a run of `probeEntriesHTTP` leaves: the slice, and the indexes of the entries for
which `probeEntryHTTP` was called. -/
structure HTTPRun where
  entries : List proxyEntry
  probed : List Nat

/-- Embedding of `probeEntriesHTTP`. -/
def probeEntriesHTTP (rt : Runtime) (env : Environment) (entries : List proxyEntry)
    (opts : options) : HTTPRun :=
  if entries.length = 0 then { entries := entries, probed := [] }
  else if !env.lookPath opts.singBoxBinary then
    { entries := markHTTPProbeSkipped entries, probed := [] }
  else if !env.lookPath (bytes "curl") then
    { entries := markHTTPProbeSkipped entries, probed := [] }
  else
    let workers := workerCount opts.healthWorkers entries.length
    let jobs := (env.httpArrival workers.toNat entries.length).filterMap (fun idx =>
      entries[idx]?.map (fun entry => httpJob env idx entry))
    { entries := (jobs.map (fun job => job.1)).foldl (recordHTTP rt) entries
      probed := (jobs.filter (fun job => job.2)).map (fun job => job.1.index) }

/-- Lines 25-31 of `selection.go`: the candidates after the reachability stage, as the
health stage receives them. -/
def reachabilityStage (env : Environment) (entries : List proxyEntry) (opts : options) :
    List proxyEntry :=
  probeEntriesRTT env entries opts.probeTimeout opts.probeWorkers

/-! ## The health probe of one candidate (`probe.go`, `process.go`)

One call of `probeEntryHTTP` is followed through the two resources it creates, the temporary
config file and the child process. What the operating system decides is a parameter
(`HealthWorld`). The system calls of the teardown are modelled by their documented effect:
`os.Remove` removes the named file, and `Process.Kill` causes the process to exit
immediately, without waiting for it; the source ignores the errors of both calls. The
content of the config file and the option `useTun` play no part. -/

/-- Embedding of `minDuration`. -/
def minDuration (a b : Int) : Int := if a < b then a else b

/-- Arithmetic of `time.Duration`, an `int64`: the result of an operation wraps around. -/
def wrapInt64 (x : Int) : Int := (x + 2 ^ 63) % 2 ^ 64 - 2 ^ 63

/-- Line 197 of `probe.go`: `totalTimeout := opts.healthTimeout + 4*time.Second`, the
deadline of the context of the child process. -/
def totalTimeout (healthTimeout : Int) : Int := wrapInt64 (healthTimeout + 4 * second)

/-- Lines 214-217 of `probe.go`: the time that `waitForProxyReady` is given. -/
def startTimeout (healthTimeout : Int) : Int :=
  let startTimeout := minDuration (3 * second) healthTimeout
  if startTimeout < 500 * millisecond then 500 * millisecond else startTimeout

/-- Line 239 of `probe.go`: the pause between the two attempts of the request. -/
def retryBackoff : Int := 200 * millisecond

/-- The child process of one health probe. -/
inductive Child where
  | notStarted
  | running
  | exited
  | killed
  deriving DecidableEq

/-- What `waitForProxyReady` finds: the proxy accepts a connection, the child has ended (the
result of `cmd.Wait` was received, with its error if any), or the time is over. -/
inductive Readiness where
  | ready
  | exited (cause : Option GoError)
  | timedOut
  deriving DecidableEq

/-- What `writeConfig(config, "", false)` meets: `os.CreateTemp` fails, `file.Write` or
`file.Close` fails after the file was created, or the file is written. -/
inductive ConfigWrite where
  | createFailed (err : GoError)
  | writeFailed (path : GoString) (err : GoError)
  | closeFailed (path : GoString) (err : GoError)
  | written (path : GoString)
  deriving DecidableEq

/-- What the operating system decides during one call of `probeEntryHTTP`: the result of
`reserveLocalPort`, of writing the config, of `cmd.Start`, of `waitForProxyReady` and of
each call of `doProxyHTTPCheckWithCurl` (status, latency, error), whether the child ends
while the requests run (by itself, or killed at the deadline of its context), and whether
it ends within 300 ms of the interrupt. -/
structure HealthWorld where
  reserveLocalPort : Except GoError Int
  configWrite : ConfigWrite
  start : Option GoError
  readiness : Readiness
  request : Nat → Int × Int × Option GoError
  endsDuringRequests : Bool
  endsOnInterrupt : Bool

/-- A system call of the teardown. -/
inductive TeardownCall where
  | interrupt
  | kill
  | cancel
  | remove (path : GoString)
  deriving DecidableEq

/-- The resources of one health probe: the temporary config file that exists, the child,
whether the result of `cmd.Wait` lies in `waitCh`, whether the context was cancelled, and
the calls of the teardown so far. -/
structure HealthState where
  configFile : Option GoString
  child : Child
  exitPending : Bool
  cancelled : Bool
  calls : List TeardownCall
  deriving DecidableEq

/-- The errors that `probeEntryHTTP` returns. -/
inductive HealthError where
  | decode (e : DecodeError)
  | os (err : GoError)
  | exitedBeforeReady (cause : Option GoError)
  | readyTimeout
  deriving DecidableEq

/-- What a call of `probeEntryHTTP` returns, and the resources it leaves. -/
structure HealthRun where
  status : Int
  latency : Int
  err : Option HealthError
  final : HealthState
  deriving DecidableEq

/-- A deferred call of `probeEntryHTTP`. -/
inductive Deferred where
  | cleanupConfig (path : GoString)
  | cancel
  | stopProbeProcess
  deriving DecidableEq

/-- Lines 26-46 of `process.go` for an empty `explicitPath`: the temporary file is created,
written and closed. A failure of `file.Write` or `file.Close` returns the error and leaves
the file. -/
def writeConfig (w : HealthWorld) (s : HealthState) : HealthState × Except GoError GoString :=
  match w.configWrite with
  | .createFailed err => (s, .error err)
  | .writeFailed path err => ({ s with configFile := some path }, .error err)
  | .closeFailed path err => ({ s with configFile := some path }, .error err)
  | .written path => ({ s with configFile := some path }, .ok path)

/-- The closure `cleanup` that `writeConfig` returns for `keep = false`: `os.Remove(path)`. -/
def cleanupConfig (path : GoString) (s : HealthState) : HealthState :=
  { s with
    configFile := if s.configFile = some path then none else s.configFile
    calls := s.calls ++ [TeardownCall.remove path] }

/-- The function `cancel` of the context: `exec.CommandContext` kills a child that still runs
when its context is done. -/
def cancelContext (s : HealthState) : HealthState :=
  { s with
    cancelled := true
    child := if s.child = Child.running then Child.killed else s.child
    calls := s.calls ++ [TeardownCall.cancel] }

/-- Embedding of `stopProbeProcess`: interrupt, wait up to 300 ms for the result of
`cmd.Wait`, kill, wait up to 300 ms again. -/
def stopProbeProcess (w : HealthWorld) (s : HealthState) : HealthState :=
  if s.child = Child.notStarted then s
  else
    let s := { s with calls := s.calls ++ [TeardownCall.interrupt] }
    let s :=
      if s.child = Child.running ∧ w.endsOnInterrupt then
        { s with child := Child.exited, exitPending := true }
      else s
    if s.exitPending then { s with exitPending := false }
    else
      let s := { s with calls := s.calls ++ [TeardownCall.kill] }
      if s.child = Child.running then { s with child := Child.killed } else s

/-- One deferred call. -/
def runDeferred (w : HealthWorld) (s : HealthState) : Deferred → HealthState
  | .cleanupConfig path => cleanupConfig path s
  | .cancel => cancelContext s
  | .stopProbeProcess => stopProbeProcess w s

/-- A `return` of `probeEntryHTTP`: the deferred calls run, the last deferred first. -/
def finish (w : HealthWorld) (deferred : List Deferred) (status latency : Int)
    (err : Option HealthError) (s : HealthState) : HealthRun :=
  { status := status, latency := latency, err := err,
    final := deferred.foldl (runDeferred w) s }

/-- Lines 228-247 of `probe.go`: the request and its one retry. -/
def requestLoop (w : HealthWorld) (deferred : List Deferred) (s : HealthState) : HealthRun :=
  let first := w.request 0
  match first.2.2 with
  | none => finish w deferred first.1 first.2.1 none s
  | some _ =>
    let second := w.request 1
    match second.2.2 with
    | none => finish w deferred second.1 second.2.1 none s
    | some lastErr => finish w deferred 0 second.2.1 (some (.os lastErr)) s

/-- Embedding of `probeEntryHTTP`. The list `deferred` holds the deferred calls, the last
deferred first. In the model of the stage the status, the latency and the error of a call
are given by `Environment.httpProbe`. -/
def probeEntryHTTP (rt : Runtime) (w : HealthWorld) (entry : proxyEntry) : HealthRun :=
  let s : HealthState :=
    { configFile := none, child := Child.notStarted, exitPending := false, cancelled := false,
      calls := [] }
  match buildVLESSOutbound rt entry.uri with
  | .error e => finish w [] 0 0 (some (.decode e)) s
  | .ok _ =>
    match w.reserveLocalPort with
    | .error err => finish w [] 0 0 (some (.os err)) s
    | .ok _ =>
      match writeConfig w s with
      | (s, .error err) => finish w [] 0 0 (some (.os err)) s
      | (s, .ok configPath) =>
        let deferred := [Deferred.cancel, Deferred.cleanupConfig configPath]
        match w.start with
        | some err => finish w deferred 0 0 (some (.os err)) s
        | none =>
          let s := { s with child := Child.running }
          let deferred := Deferred.stopProbeProcess :: deferred
          match w.readiness with
          | .exited cause =>
            finish w deferred 0 0 (some (.exitedBeforeReady cause)) { s with child := Child.exited }
          | .timedOut => finish w deferred 0 0 (some .readyTimeout) s
          | .ready =>
            requestLoop w deferred
              (if w.endsDuringRequests then { s with child := Child.exited, exitPending := true }
               else s)

/-! ## Reference definitions of the specification -/

/-- Reference for deduplication: every item is kept at its first occurrence only. -/
def keepFirst : List GoString → List GoString
  | [] => []
  | x :: rest => x :: (keepFirst rest).filter (fun y => y ≠ x)

/-- Reference definition of `uniqueNonEmpty`. -/
def uniqueNonEmptySpec (items : List GoString) : List GoString :=
  keepFirst ((items.map trimSpace).filter (fun item => item ≠ []))

/-- A string has no white space at either end: no white-space rune starts or ends it. -/
def NoOuterSpace (s : GoString) : Prop :=
  ∀ e ∈ spaceRunes, ¬ e <+: s ∧ ¬ e <:+ s

/-- A string begins with a URI scheme prefix: a letter, then letters, digits, `+`, `.` or
`-`, then `://`. -/
def HasSchemePrefix (s : GoString) : Prop :=
  ∃ b tail rest, s = b :: tail ++ bytes "://" ++ rest ∧ isLetter b = true ∧
    ∀ c ∈ tail, isSchemeChar c = true

/-- What every scan appends: a trimmed string that matches the scheme pattern. -/
def IsTrimmedLink (x : GoString) : Prop := schemePattern x = true ∧ NoOuterSpace x

/-- Decimal value of a string of digits. -/
def decimalValue (ds : GoString) : Nat := ds.foldl (fun acc d => acc * 10 + (d - 48)) 0

/-- A URL built from ASCII constants, for examples. -/
def exampleURL (scheme user host query : String) : URL :=
  { Scheme := bytes scheme
    User := some { username := bytes user, password := [], passwordSet := false }
    Host := bytes host
    RawQuery := bytes query
    Fragment := [] }

/-- The descriptor of the link `vless://id@example.org:8443?security=reality&pbk=KEY`. -/
def exampleOutbound : Outbound :=
  { type := bytes "vless"
    tag := bytes "proxy"
    server := bytes "example.org"
    server_port := 8443
    uuid := bytes "id"
    flow := none
    tls := some
      { enabled := true, server_name := none, insecure := none, alpn := none, utls := none,
        reality := some { enabled := true, public_key := bytes "KEY", short_id := none } }
    transport := none }

/-- Printable ASCII other than the space. -/
def isGraphic (b : Nat) : Bool := 33 ≤ b && b ≤ 126

/-- A JSON object in which the key `a` occurs twice. -/
def duplicateKeyPayload : GoString := bytes "\x7b\"a\":\"vless://h\",\"a\":\"x\"\x7d"

/-- A line of 65536 letters `a`, a line break and a link. -/
def longLinePayload : GoString :=
  List.replicate 65536 97 ++ 10 :: bytes "vless://id@example.org:443"

/-- Model of `strings.Join(lines, "\n")`. -/
def joinLines : List GoString → GoString
  | [] => []
  | [l] => l
  | l :: rest => l ++ 10 :: joinLines rest

/-- The bytes that `collapseWhitespace` removes: line feed, carriage return, tab, space. -/
def isBlank (b : Nat) : Bool := b == 10 || b == 13 || b == 9 || b == 32

/-- A link of 65538 bytes. -/
def longLink : GoString := bytes "a://" ++ List.replicate 65534 97

/-- The lexer is outside a string literal and does not await a slash. -/
def LexMode.outsideString : LexMode → Prop
  | .idle => True
  | .inNum _ => True
  | .inLit rest _ => 47 ∉ rest
  | .inStr _ _ => False

/-- The text of lines that each end with a line break. -/
def terminated (lines : List GoString) : GoString := (lines.map (fun l => l ++ [10])).flatten

/-! ## Reference definitions for the ranking, the display name and the probes -/

/-- The transport type as the specification names it: the trimmed, lower-cased value of
`type`, or of `network` when `type` is blank. -/
def transportTypeSpec (rt : Runtime) (query : Values) : GoString :=
  if trimSpace (query.Get (bytes "type")) ≠ [] then
    toLower rt (trimSpace (query.Get (bytes "type")))
  else toLower rt (trimSpace (query.Get (bytes "network")))

/-- The transport types that `buildVLESSOutbound` accepts. -/
def knownTransportTypes : List GoString :=
  [[], bytes "tcp", bytes "grpc", bytes "ws", bytes "websocket", bytes "httpupgrade",
    bytes "http", bytes "h2"]

/-- A URL decodes as far as everything but the transport is concerned. -/
def DecodableButTransport (rt : Runtime) (uri : URL) : Prop :=
  toLower rt uri.Scheme = bytes "vless" ∧ trimSpace uri.Username ≠ [] ∧
    trimSpace uri.Hostname ≠ [] ∧ (∃ port, serverPortOf uri = .ok port) ∧
    ∃ tls, tlsOf rt uri.Query = .ok tls

/-- The ordering key of a candidate: health bucket and health latency where they are
consulted (0 where they are not), reachability latency or sentinel, lower-cased name. -/
structure SortKey where
  bucket : Int
  healthLatency : Int
  latency : Int
  name : GoString
  deriving DecidableEq

/-- The ordering key of the specification. -/
def sortKey (rt : Runtime) (healthEnabled : Bool) (entry : proxyEntry) : SortKey :=
  { bucket := if healthEnabled then healthBucket entry else 0
    healthLatency := if healthEnabled ∧ healthBucket entry = 0 then entry.httpLatency else 0
    latency := probeLatencyOrMax entry
    name := toLower rt entry.name }

/-- Lexicographic comparison of ordering keys: `a` is smaller than `b`. -/
def SortKey.less (a b : SortKey) : Bool :=
  decide (a.bucket < b.bucket) || (decide (a.bucket = b.bucket) &&
    (decide (a.healthLatency < b.healthLatency) || (decide (a.healthLatency = b.healthLatency) &&
      (decide (a.latency < b.latency) || (decide (a.latency = b.latency) &&
        strLess a.name b.name)))))

/-- The health probe of a candidate succeeded. -/
def healthSucceeded (entry : proxyEntry) : Bool := entry.httpTested && entry.httpOK

/-- The reachability probe of a candidate gave a measurement. -/
def measured (entry : proxyEntry) : Bool := entry.tested && decide (entry.probeErr = [])

/-- A candidate for examples. -/
def exampleEntry (name : String) (tested : Bool) (latency : Int) (probeErr : String)
    (httpTested httpOK : Bool) (httpStatus httpLatency : Int) (httpErr : String) :
    proxyEntry :=
  { raw := [], name := bytes name, uri := none, tested := tested, latency := latency,
    probeErr := bytes probeErr, httpTested := httpTested, httpOK := httpOK,
    httpStatus := httpStatus, httpLatency := httpLatency, httpErr := bytes httpErr }

/-- Two candidates agree on the display name and on the reachability fields. -/
def sameForRanking (a b : proxyEntry) : Prop :=
  a.name = b.name ∧ a.tested = b.tested ∧ a.latency = b.latency ∧ a.probeErr = b.probeErr

/-- Candidate A of the ranking scenario: health `ok(200, 50ms)`, reachability measured. -/
def candidateA : proxyEntry :=
  exampleEntry "b" true (300 * millisecond) "" true true 200 (50 * millisecond) ""

/-- Candidate B of the ranking scenario: health `failed(timeout)`, reachability measured. -/
def candidateB : proxyEntry :=
  exampleEntry "a" true (10 * millisecond) "" true false 0 0 "timeout"

/-- A candidate whose reachability probe took 12 seconds. -/
def slowCandidate : proxyEntry :=
  exampleEntry "slow" true (12 * second) "" false false 0 0 ""

/-- A candidate whose reachability probe failed. -/
def failedCandidate : proxyEntry :=
  exampleEntry "failed" true 0 "fail" false false 0 0 ""

/-- Percent-decoding as the specification names it: every `%XX` is replaced by its byte,
every other byte is kept; `none` when a `%` is not followed by two hexadecimal digits. -/
def percentDecode : GoString → Option GoString
  | [] => some []
  | b :: rest =>
    if b = 37 then
      match rest with
      | h :: l :: more =>
        if isHex h && isHex l then
          (percentDecode more).map (fun t => (unhex h * 16 + unhex l) :: t)
        else none
      | _ => none
    else (percentDecode rest).map (fun t => b :: t)

/-- The fragment of a link as it is written: the text after the first `#` of the trimmed
link. -/
def writtenFragment (raw : GoString) : GoString := (cutByte 35 (trimSpace raw)).2

/-- The text `host:port` of a parsed link, with 443 for an absent port. -/
def hostPortName (uri : URL) : GoString :=
  uri.Hostname ++ bytes ":" ++ (if uri.Port = [] then bytes "443" else uri.Port)

/-- A link is accepted as a candidate: it parses as a URL, has the scheme `vless` and
decodes without error. -/
def acceptedLink (rt : Runtime) (raw : GoString) : Bool :=
  match parseURL raw with
  | none => false
  | some uri =>
    decide (uri.Scheme = bytes "vless") &&
      (match buildVLESSOutbound rt (some uri) with
        | .ok _ => true
        | .error _ => false)

/-- The candidate of a link as the pipeline first sees it: both probes untested. -/
def freshEntry (raw : GoString) : proxyEntry :=
  { raw := raw, name := buildDisplayName (parseURL raw), uri := parseURL raw,
    tested := false, latency := 0, probeErr := [], httpTested := false, httpOK := false,
    httpStatus := 0, httpLatency := 0, httpErr := [] }

/-- An environment for examples: every dial fails with a time-out, the executables are
found, every health request succeeds with status 204 after 50 ms, and the results arrive
last job first. -/
def exampleEnvironment : Environment where
  dial := fun _ _ _ =>
    .error { text := bytes "i/o timeout", netTimeout := true, deadlineExceeded := false }
  lookPath := fun _ => true
  httpProbe := fun _ _ => (204, 50 * millisecond, none)
  rttArrival := fun _ n => (List.range n).reverse
  rttArrival_perm := fun _ n => List.reverse_perm (List.range n)
  httpArrival := fun _ n => (List.range n).reverse
  httpArrival_perm := fun _ n => List.reverse_perm (List.range n)

/-- Options for examples: the defaults of the flags. -/
def exampleOptions : options :=
  { singBoxBinary := bytes "sing-box", probeTimeout := 1500 * millisecond, probeWorkers := 12,
    healthCheck := true, healthTimeout := 8 * second, healthWorkers := 3 }

/-! ## Reference definitions for the probes, the deadline and the extraction order -/

/-- The function clamp of the specification: `x` limited to the interval from `lo` to `hi`. -/
def clamp (x lo hi : Int) : Int := max lo (min x hi)

/-- The list of `f i x` for the elements `x` of a list and their indexes `i`, counted from
`start`. -/
def mapFrom {α β : Type} (f : Nat → α → β) : Nat → List α → List β
  | _, [] => []
  | start, x :: xs => f start x :: mapFrom f (start + 1) xs

/-- The result that a worker of `probeEntriesRTT` sends for job `idx`. -/
def rttResult (env : Environment) (timeout : Int) (idx : Nat) (entry : proxyEntry) :
    probeOutcome :=
  { index := idx, latency := (probeEntryRTT env idx entry timeout).1,
    err := (probeEntryRTT env idx entry timeout).2 }

/-- The results that the collecting loop of `probeEntriesRTT` receives, in the order of
their arrival. -/
def rttResults (env : Environment) (entries : List proxyEntry) (timeout workers : Int) :
    List probeOutcome :=
  (env.rttArrival (workerCount workers entries.length).toNat entries.length).filterMap
    (fun idx => entries[idx]?.map (fun entry => rttResult env timeout idx entry))

/-- The results that the collecting loop of `probeEntriesHTTP` receives, in the order of
their arrival. -/
def httpResults (env : Environment) (entries : List proxyEntry) (opts : options) :
    List httpProbeOutcome :=
  ((env.httpArrival (workerCount opts.healthWorkers entries.length).toNat
    entries.length).filterMap
      (fun idx => entries[idx]?.map (fun entry => httpJob env idx entry))).map
    (fun job => job.1)

/-- A freshly created candidate: every field of both probes has its zero value. -/
def isFresh (e : proxyEntry) : Prop :=
  e.tested = false ∧ e.latency = 0 ∧ e.probeErr = [] ∧ e.httpTested = false ∧
    e.httpOK = false ∧ e.httpStatus = 0 ∧ e.httpLatency = 0 ∧ e.httpErr = []

/-- The health state `success` of the specification. -/
def healthSuccess (e : proxyEntry) : Prop := e.httpOK = true ∧ e.httpErr = []

/-- The health state `failure` of the specification. -/
def healthFailure (e : proxyEntry) : Prop :=
  e.httpOK = false ∧ e.httpErr ∈ [bytes "timeout", bytes "fail", bytes "skip"]

/-- The longest that the health request may take with its one retry, in the words of the
specification: two attempts of at most `h` each and the 200 ms backoff between them. -/
def longestHealthRequest (h : Int) : Int := h + 200 * millisecond + h

/-- A runtime in which `range` visits the entries of a map in the reverse order. -/
def reversedRuntime : Runtime where
  mapOrder := List.reverse
  mapOrder_perm := fun m => List.reverse_perm m
  floatInRange := floatFits
  lowerNonASCII := id

/-- A JSON object with two link-valued members. -/
def orderPayload : GoString :=
  bytes "\x7b\"a\":\"vless://a@h:1\",\"b\":\"vless://b@h:2\"\x7d"

/-- A world for examples: everything succeeds, the health request answers 204 after 50 ms,
and the child ends on the interrupt. -/
def exampleWorld : HealthWorld where
  reserveLocalPort := .ok 40000
  configWrite := .written (bytes "/tmp/subbox-1.json")
  start := none
  readiness := .ready
  request := fun _ => (204, 50 * millisecond, none)
  endsDuringRequests := false
  endsOnInterrupt := true

/-- A world in which the proxy never accepts a connection and the child ignores the
interrupt. -/
def stuckWorld : HealthWorld :=
  { exampleWorld with readiness := Readiness.timedOut, endsOnInterrupt := false }

/-! ## Theorems -/

theorem mem_keepFirst (l : List GoString) (x : GoString) : x ∈ keepFirst l ↔ x ∈ l := by
  induction l with
  | nil => simp [keepFirst]
  | cons a rest ih =>
    simp only [keepFirst, List.mem_cons, List.mem_filter, ih]
    by_cases h : x = a <;> simp [h]

theorem keepFirst_nodup (l : List GoString) : (keepFirst l).Nodup := by
  induction l with
  | nil => simp [keepFirst]
  | cons a rest ih =>
    simp only [keepFirst, List.nodup_cons, List.mem_filter]
    exact ⟨by simp, ih.filter _⟩

theorem uniqueNonEmptySpec_cons (i : GoString) (rest : List GoString) :
    uniqueNonEmptySpec (i :: rest) =
      if trimSpace i = [] then uniqueNonEmptySpec rest
      else trimSpace i :: (uniqueNonEmptySpec rest).filter (fun y => y ≠ trimSpace i) := by
  by_cases h : trimSpace i = [] <;> simp [uniqueNonEmptySpec, List.filter_cons, h, keepFirst]

theorem uniqueLoop_eq (items seen : List GoString) :
    uniqueLoop items seen = (uniqueNonEmptySpec items).filter (fun x => x ∉ seen) := by
  induction items generalizing seen with
  | nil => simp [uniqueLoop, uniqueNonEmptySpec, keepFirst]
  | cons i rest ih =>
    unfold uniqueLoop
    rw [uniqueNonEmptySpec_cons]
    by_cases h1 : trimSpace i = []
    · simp [h1, ih]
    · by_cases h2 : trimSpace i ∈ seen
      · simp only [h1, h2, if_true, if_false, ih, List.filter_cons, decide_True, decide_False,
          not_true_eq_false, not_false_eq_true, List.filter_filter]
        apply List.filter_congr
        intro x _
        by_cases hx : x ∈ seen
        · simp [hx]
        · have : x ≠ trimSpace i := fun e => hx (e ▸ h2)
          simp [hx, this]
      · simp only [h1, h2, if_true, if_false, ih, List.filter_cons, decide_True, decide_False,
          not_true_eq_false, not_false_eq_true, List.filter_filter]
        congr 1
        apply List.filter_congr
        intro x _
        simp [List.mem_cons, not_or, and_comm]

theorem uniqueNonEmpty_eq_spec (items : List GoString) :
    uniqueNonEmpty items = uniqueNonEmptySpec items := by
  simp [uniqueNonEmpty, uniqueLoop_eq]

theorem mem_uniqueNonEmpty (items : List GoString) (x : GoString) :
    x ∈ uniqueNonEmpty items ↔ x ≠ [] ∧ ∃ i ∈ items, trimSpace i = x := by
  rw [uniqueNonEmpty_eq_spec, uniqueNonEmptySpec, mem_keepFirst]
  simp only [List.mem_filter, List.mem_map, decide_eq_true_eq]
  tauto

theorem spaceLen_nil (encs : List GoString) : spaceLen encs [] = 0 := by
  unfold spaceLen
  cases h : encs.find? (fun e => e.isPrefixOf []) with
  | none => rfl
  | some e =>
    have := List.find?_some h
    cases e with
    | nil => rfl
    | cons a t => simp [List.isPrefixOf] at this

theorem spaceLen_dropSpaces (encs : List GoString) (k : Nat) (s : GoString) :
    spaceLen encs (dropSpaces encs k s) = 0 := by
  induction s generalizing k with
  | nil => simp [dropSpaces, spaceLen_nil]
  | cons b rest ih =>
    cases k with
    | succ k => simpa [dropSpaces] using ih k
    | zero =>
      unfold dropSpaces
      split
      · assumption
      · exact ih _

theorem dropSpaces_suffix (encs : List GoString) (k : Nat) (s : GoString) :
    dropSpaces encs k s <:+ s := by
  induction s generalizing k with
  | nil => simp [dropSpaces]
  | cons b rest ih =>
    cases k with
    | succ k => simpa [dropSpaces] using (ih k).trans (List.suffix_cons b rest)
    | zero =>
      unfold dropSpaces
      split
      · exact List.suffix_refl _
      · exact (ih _).trans (List.suffix_cons b rest)

theorem dropSpaces_of_spaceLen_zero (encs : List GoString) (s : GoString)
    (h : spaceLen encs s = 0) : dropSpaces encs 0 s = s := by
  cases s with
  | nil => rfl
  | cons b rest => unfold dropSpaces; rw [h]

/-- No encoding of `encs` (all non-empty) starts a string whose `spaceLen` is zero. -/
theorem no_start_of_spaceLen_zero (encs : List GoString) (hne : ∀ e ∈ encs, e ≠ [])
    (s : GoString) (h : spaceLen encs s = 0) : ∀ e ∈ encs, ¬ e <+: s := by
  intro e he hp
  unfold spaceLen at h
  cases hf : encs.find? (fun e => e.isPrefixOf s) with
  | none =>
    rw [List.find?_eq_none] at hf
    exact hf e he (by simpa using hp)
  | some e1 =>
    rw [hf] at h
    have hm := List.mem_of_find?_eq_some hf
    exact hne e1 hm (List.length_eq_zero.mp h)

theorem spaceLen_zero_of_no_start (encs : List GoString) (s : GoString)
    (h : ∀ e ∈ encs, ¬ e <+: s) : spaceLen encs s = 0 := by
  unfold spaceLen
  cases hf : encs.find? (fun e => e.isPrefixOf s) with
  | none => rfl
  | some e1 =>
    have hm := List.mem_of_find?_eq_some hf
    have := List.find?_some hf
    exact absurd (by simpa using this) (h e1 hm)

theorem spaceRunes_ne_nil : ∀ e ∈ spaceRunes, e ≠ [] := by decide

theorem spaceRunes_rev_ne_nil : ∀ e ∈ spaceRunes.map List.reverse, e ≠ [] := by decide

theorem trimLeft_no_leading (s : GoString) : ∀ e ∈ spaceRunes, ¬ e <+: trimLeft s :=
  no_start_of_spaceLen_zero _ spaceRunes_ne_nil _ (spaceLen_dropSpaces _ _ _)

theorem trimRight_no_suffix (s : GoString) : ∀ e ∈ spaceRunes, ¬ e <:+ trimRight s := by
  intro e he hs
  have h0 := spaceLen_dropSpaces (spaceRunes.map List.reverse) 0 s.reverse
  have := no_start_of_spaceLen_zero _ spaceRunes_rev_ne_nil _ h0 e.reverse
    (List.mem_map_of_mem _ he)
  apply this
  rw [← List.reverse_suffix]
  simpa [trimRight] using hs

theorem trimRight_initial (s : GoString) : trimRight s <+: s := by
  have := dropSpaces_suffix (spaceRunes.map List.reverse) 0 s.reverse
  rw [← List.reverse_prefix] at this
  simpa [trimRight] using this

theorem trimLeft_suffix (s : GoString) : trimLeft s <:+ s := dropSpaces_suffix _ _ _

theorem trimLeft_eq_self (s : GoString) (h : ∀ e ∈ spaceRunes, ¬ e <+: s) : trimLeft s = s :=
  dropSpaces_of_spaceLen_zero _ _ (spaceLen_zero_of_no_start _ _ h)

theorem trimRight_eq_self (s : GoString) (h : ∀ e ∈ spaceRunes, ¬ e <:+ s) :
    trimRight s = s := by
  unfold trimRight
  rw [dropSpaces_of_spaceLen_zero, List.reverse_reverse]
  apply spaceLen_zero_of_no_start
  intro e he hp
  obtain ⟨e0, he0, rfl⟩ := List.mem_map.mp he
  exact h e0 he0 (List.reverse_prefix.mp hp)

theorem trimSpace_noOuterSpace (s : GoString) : NoOuterSpace (trimSpace s) := by
  intro e he
  refine ⟨fun hp => ?_, trimRight_no_suffix _ e he⟩
  exact trimLeft_no_leading s e he (hp.trans (trimRight_initial _))

theorem trimSpace_eq_self (s : GoString) (h : NoOuterSpace s) : trimSpace s = s := by
  unfold trimSpace
  rw [trimLeft_eq_self s (fun e he => (h e he).1), trimRight_eq_self s (fun e he => (h e he).2)]

theorem trimSpace_idem (s : GoString) : trimSpace (trimSpace s) = trimSpace s :=
  trimSpace_eq_self _ (trimSpace_noOuterSpace s)

theorem hasSchemePrefix_of_schemePattern (s : GoString) (h : schemePattern s = true) :
    HasSchemePrefix s := by
  cases s with
  | nil => simp [schemePattern] at h
  | cons b rest =>
    simp only [schemePattern, Bool.and_eq_true, beq_iff_eq] at h
    refine ⟨b, rest.takeWhile isSchemeChar, (rest.dropWhile isSchemeChar).drop 3, ?_, h.1, ?_⟩
    · have h3 : bytes "://" = [58, 47, 47] := by decide
      rw [h3, ← h.2]
      simp only [List.cons_append, List.append_assoc, List.take_append_drop,
        List.takeWhile_append_dropWhile]
    · intro c hc
      exact (List.mem_takeWhile_imp hc)

theorem schemePattern_of_hasSchemePrefix (s : GoString) (h : HasSchemePrefix s) :
    schemePattern s = true := by
  obtain ⟨b, tail, rest, rfl, hb, ht⟩ := h
  have h3 : bytes "://" = [58, 47, 47] := by decide
  simp only [schemePattern, List.cons_append, hb, Bool.true_and, h3, List.append_assoc,
    beq_iff_eq]
  have : ∀ (tail : GoString), (∀ c ∈ tail, isSchemeChar c = true) →
      (tail ++ (58 :: 47 :: 47 :: rest)).dropWhile isSchemeChar = 58 :: 47 :: 47 :: rest := by
    intro tail
    induction tail with
    | nil => intro _; rfl
    | cons a t ih =>
      intro ha
      simp only [List.cons_append, List.dropWhile_cons, ha a (List.mem_cons_self _ _), if_true]
      exact ih (fun c hc => ha c (List.mem_cons_of_mem _ hc))
  simp [this tail ht]

theorem schemePattern_ne_nil (s : GoString) (h : schemePattern s = true) : s ≠ [] := by
  rintro rfl; simp [schemePattern] at h

mutual
theorem walk_eq (v : JValue) :
    walk v = ((stringValues v).map trimSpace).filter schemePattern := by
  cases v with
  | str t =>
    simp only [walk, stringValues, List.map_cons, List.map_nil]
    by_cases h : schemePattern (trimSpace t) = true <;> simp [h]
  | arr items => simp only [walk, stringValues]; exact walkItems_eq items
  | obj ms => simp only [walk, stringValues]; exact walkMembers_eq ms
  | null => simp [walk, stringValues]
  | bool b => simp [walk, stringValues]
  | number l => simp [walk, stringValues]
theorem walkItems_eq (items : List JValue) :
    walkItems items = ((stringValuesOfItems items).map trimSpace).filter schemePattern := by
  cases items with
  | nil => simp [walkItems, stringValuesOfItems]
  | cons v rest =>
    simp only [walkItems, stringValuesOfItems, List.map_append, List.filter_append]
    rw [walk_eq v, walkItems_eq rest]
theorem walkMembers_eq (ms : List (GoString × JValue)) :
    walkMembers ms = ((stringValuesOfMembers ms).map trimSpace).filter schemePattern := by
  cases ms with
  | nil => simp [walkMembers, stringValuesOfMembers]
  | cons m rest =>
    obtain ⟨k, v⟩ := m
    simp only [walkMembers, stringValuesOfMembers, List.map_append, List.filter_append]
    rw [walk_eq v, walkMembers_eq rest]
end

theorem plainLine_isLink (text x : GoString) (h : x ∈ plainLine text) : IsTrimmedLink x := by
  unfold plainLine at h
  simp only at h
  split at h
  · simp at h
  · split at h
    · simp at h
    · rename_i h2
      simp only [List.mem_singleton] at h
      subst h
      exact ⟨by simpa using h2, trimSpace_noOuterSpace _⟩

theorem plainText_isLink (content x : GoString) (h : x ∈ extractLinksFromPlainText content) :
    IsTrimmedLink x := by
  simp only [extractLinksFromPlainText, List.mem_flatMap] at h
  obtain ⟨l, _, hx⟩ := h
  exact plainLine_isLink l x hx

theorem walk_isLink (v : JValue) (x : GoString) (h : x ∈ walk v) : IsTrimmedLink x := by
  rw [walk_eq, List.mem_filter, List.mem_map] at h
  obtain ⟨⟨t, _, rfl⟩, hm⟩ := h
  exact ⟨hm, trimSpace_noOuterSpace _⟩

theorem json_isLink (rt : Runtime) (body x : GoString) (h : x ∈ extractLinksFromJSON rt body) :
    IsTrimmedLink x := by
  unfold extractLinksFromJSON at h
  split at h
  · simp at h
  · exact walk_isLink _ x h

theorem base64_isLink (rt : Runtime) (content x : GoString)
    (h : x ∈ extractLinksFromBase64 rt content) : IsTrimmedLink x := by
  unfold extractLinksFromBase64 at h
  simp only at h
  split at h
  · simp at h
  · split at h
    · simp at h
    · rw [List.mem_append] at h
      rcases h with h | h
      · split at h
        · exact json_isLink rt _ x h
        · simp at h
      · exact plainText_isLink _ x h

/-- The list that `extractLinks` hands to `uniqueNonEmpty`. -/
theorem scans_isLink (rt : Runtime) (body x : GoString)
    (h : x ∈ (if jsonValid body then extractLinksFromJSON rt body else [])
      ++ extractLinksFromPlainText body ++ extractLinksFromBase64 rt body) :
    IsTrimmedLink x := by
  simp only [List.mem_append] at h
  rcases h with (h | h) | h
  · split at h
    · exact json_isLink rt _ x h
    · simp at h
  · exact plainText_isLink _ x h
  · exact base64_isLink rt _ x h

theorem json_scan_guard (rt : Runtime) (body : GoString) :
    (if jsonValid body then extractLinksFromJSON rt body else []) = extractLinksFromJSON rt body := by
  by_cases h : jsonValid body = true
  · simp [h]
  · simp [h, extractLinksFromJSON, jsonUnmarshal]

theorem mem_extractLinks (rt : Runtime) (body x : GoString) :
    x ∈ extractLinks rt body ↔
      x ∈ extractLinksFromJSON rt body ++ extractLinksFromPlainText body
        ++ extractLinksFromBase64 rt body := by
  unfold extractLinks
  rw [mem_uniqueNonEmpty, json_scan_guard]
  constructor
  · rintro ⟨_, i, hi, rfl⟩
    have := scans_isLink rt body i (by rw [json_scan_guard]; exact hi)
    rw [trimSpace_eq_self i this.2]
    exact hi
  · intro hx
    have := scans_isLink rt body x (by rw [json_scan_guard]; exact hx)
    exact ⟨schemePattern_ne_nil x this.1, x, hx, trimSpace_eq_self x this.2⟩

/-- C4: every string that `extractLinks` returns is non-empty, has no white space at either
end and begins with a URI scheme prefix; when the three scans find nothing the result is the
empty list, and so it is for the empty payload. -/
theorem extractLinks_literal (rt : Runtime) (payload : GoString) :
    (∀ link ∈ extractLinks rt payload,
        link ≠ [] ∧ NoOuterSpace link ∧ HasSchemePrefix link) ∧
      (extractLinksFromJSON rt payload = [] → extractLinksFromPlainText payload = [] →
        extractLinksFromBase64 rt payload = [] → extractLinks rt payload = []) ∧
      extractLinks rt [] = [] := by
  refine ⟨?_, ?_, ?_⟩
  · intro link h
    rw [mem_extractLinks, ← json_scan_guard] at h
    have := scans_isLink rt payload link h
    exact ⟨schemePattern_ne_nil _ this.1, this.2, hasSchemePrefix_of_schemePattern _ this.1⟩
  · intro h1 h2 h3
    apply List.eq_nil_iff_forall_not_mem.mpr
    intro x hx
    rw [mem_extractLinks, h1, h2, h3] at hx
    simp at hx
  · apply List.eq_nil_iff_forall_not_mem.mpr
    intro x hx
    rw [mem_extractLinks] at hx
    have h1 : extractLinksFromJSON rt [] = [] := by
      simp [extractLinksFromJSON, jsonUnmarshal, jsonValid, jsonDocument, jsonTokens, lexEnd,
        parseTokens]
    have h2 : extractLinksFromPlainText [] = [] := by decide
    have h3 : extractLinksFromBase64 rt [] = [] := by
      simp [extractLinksFromBase64, collapseWhitespace, collapseFrom]
    rw [h1, h2, h3] at hx
    simp at hx

theorem extractLinks_literal_witness :
    bytes "ss://x" ∈ extractLinks exampleRuntime (bytes " ss://x \n# c\nhello") ∧
      (bytes "ss://x" ≠ [] ∧ NoOuterSpace (bytes "ss://x") ∧ HasSchemePrefix (bytes "ss://x")) ∧
      extractLinks exampleRuntime (bytes "# c\nhello") = [] :=
  ⟨by decide,
    (extractLinks_literal exampleRuntime (bytes " ss://x \n# c\nhello")).1 _ (by decide),
    (extractLinks_literal exampleRuntime (bytes "# c\nhello")).2.1 (by decide) (by decide)
      (by decide)⟩

/-- C5: `extractLinks` returns the concatenation of the JSON scan, the plain-text scan and
the base64 scan with every item trimmed, empty items dropped and each item kept at its first
occurrence only; the result holds no string twice; and `uniqueNonEmpty` equals this reference
definition on every list. -/
theorem extractLinks_dedup_first_seen (rt : Runtime) (payload : GoString) :
    extractLinks rt payload =
        uniqueNonEmptySpec (extractLinksFromJSON rt payload ++ extractLinksFromPlainText payload
          ++ extractLinksFromBase64 rt payload) ∧
      (extractLinks rt payload).Nodup ∧
      ∀ items, uniqueNonEmpty items = uniqueNonEmptySpec items := by
  refine ⟨?_, ?_, uniqueNonEmpty_eq_spec⟩
  · rw [extractLinks, json_scan_guard, uniqueNonEmpty_eq_spec]
  · rw [extractLinks, uniqueNonEmpty_eq_spec]
    exact keepFirst_nodup _

/-- When `buildVLESSOutbound` succeeds, and with which descriptor. -/
theorem buildVLESSOutbound_ok_iff (rt : Runtime) (uri : URL) (out : Outbound) :
    buildVLESSOutbound rt (some uri) = .ok out ↔
      toLower rt uri.Scheme = bytes "vless" ∧ trimSpace uri.Username ≠ [] ∧
      trimSpace uri.Hostname ≠ [] ∧
      ∃ port tls transport, serverPortOf uri = .ok port ∧ tlsOf rt uri.Query = .ok tls ∧
        transportOf rt uri.Query = .ok transport ∧
        out = { type := bytes "vless", tag := bytes "proxy", server := trimSpace uri.Hostname,
                server_port := port, uuid := trimSpace uri.Username,
                flow := nonEmpty (trimSpace (uri.Query.Get (bytes "flow"))),
                tls := tls, transport := transport } := by
  unfold buildVLESSOutbound
  simp only
  by_cases h1 : toLower rt uri.Scheme = bytes "vless"
  · by_cases h2 : trimSpace uri.Username = []
    · simp [h1, h2]
    · by_cases h3 : trimSpace uri.Hostname = []
      · simp [h1, h2, h3]
      · simp only [h1, h2, h3, ne_eq, not_true_eq_false, not_false_eq_true, if_false, true_and]
        cases hp : serverPortOf uri with
        | error e => simp
        | ok port =>
          cases ht : tlsOf rt uri.Query with
          | error e => simp
          | ok tls =>
            cases hr : transportOf rt uri.Query with
            | error e => simp
            | ok transport =>
              simp only [Except.ok.injEq, exists_and_left, exists_eq_left']
              constructor
              · intro h; exact h.symm
              · intro h; exact h.symm
  · simp [h1]

theorem serverPortOf_range (uri : URL) (port : Int) (h : serverPortOf uri = .ok port) :
    1 ≤ port ∧ port ≤ 65535 := by
  unfold serverPortOf at h
  simp only at h
  split at h
  · split at h
    · simp at h
    · split at h
      · simp at h
      · rename_i hr
        simp only [Except.ok.injEq] at h
        subst h
        omega
  · simp only [Except.ok.injEq] at h
    omega

theorem tlsOf_reality (rt : Runtime) (query : Values) (tls : TLSConfig) (r : Reality)
    (h : tlsOf rt query = .ok (some tls)) (hr : tls.reality = some r) :
    r.public_key ≠ [] ∧ r.public_key = trimSpace (query.Get (bytes "pbk")) := by
  unfold tlsOf at h
  simp only at h
  split at h
  · split at h
    · split at h
      · simp at h
      · rename_i hk
        simp only [Except.ok.injEq, Option.some.injEq] at h
        subst h
        simp only [Option.some.injEq] at hr
        subst hr
        exact ⟨hk, rfl⟩
    · simp only [Except.ok.injEq, Option.some.injEq] at h
      subst h
      simp at hr
  · simp at h

/-- C6: a URI whose scheme, lower-cased, is not `vless` is rejected with an error and no
descriptor, and so is the nil URI. -/
theorem buildVLESSOutbound_rejects_scheme (rt : Runtime) (uri : URL) :
    (toLower rt uri.Scheme ≠ bytes "vless" →
        buildVLESSOutbound rt (some uri) = .error (.unsupportedScheme uri.Scheme)) ∧
      buildVLESSOutbound rt none = .error .emptyURL := by
  refine ⟨fun h => ?_, rfl⟩
  simp [buildVLESSOutbound, h]

theorem buildVLESSOutbound_rejects_scheme_witness :
    toLower exampleRuntime (exampleURL "Trojan" "u" "h:1" "").Scheme ≠ bytes "vless" ∧
      buildVLESSOutbound exampleRuntime (some (exampleURL "Trojan" "u" "h:1" ""))
        = .error (.unsupportedScheme (bytes "Trojan")) :=
  ⟨by decide,
    (buildVLESSOutbound_rejects_scheme exampleRuntime (exampleURL "Trojan" "u" "h:1" "")).1
      (by decide)⟩

/-- C7: a descriptor returned without error has a port in [1, 65535], a non-empty uuid, a
non-empty server, and a non-empty public key in its reality block if it has one. -/
theorem buildVLESSOutbound_invariant (rt : Runtime) (uri : Option URL) (out : Outbound)
    (h : buildVLESSOutbound rt uri = .ok out) :
    (1 ≤ out.server_port ∧ out.server_port ≤ 65535) ∧ out.uuid ≠ [] ∧ out.server ≠ [] ∧
      ∀ tls r, out.tls = some tls → tls.reality = some r → r.public_key ≠ [] := by
  cases uri with
  | none => simp [buildVLESSOutbound] at h
  | some uri =>
    rw [buildVLESSOutbound_ok_iff] at h
    obtain ⟨_, h2, h3, port, tls, transport, hp, ht, _, rfl⟩ := h
    refine ⟨serverPortOf_range uri port hp, h2, h3, ?_⟩
    intro tls1 r h1 hr
    simp only at h1
    subst h1
    exact (tlsOf_reality rt _ tls1 r ht hr).1

theorem buildVLESSOutbound_invariant_witness :
    buildVLESSOutbound exampleRuntime
        (some (exampleURL "vless" "id" "example.org:8443" "security=reality&pbk=KEY"))
        = .ok exampleOutbound ∧
      (1 ≤ exampleOutbound.server_port ∧ exampleOutbound.server_port ≤ 65535) ∧
      exampleOutbound.uuid ≠ [] ∧ exampleOutbound.server ≠ [] ∧
      ∀ tls r, exampleOutbound.tls = some tls → tls.reality = some r → r.public_key ≠ [] :=
  ⟨rfl,
    buildVLESSOutbound_invariant exampleRuntime
      (some (exampleURL "vless" "id" "example.org:8443" "security=reality&pbk=KEY"))
      exampleOutbound rfl⟩

theorem spaceRunes_not_graphic : ∀ e ∈ spaceRunes, ∃ a ∈ e, isGraphic a = false := by decide

theorem noOuterSpace_of_graphic (s : GoString) (h : ∀ b ∈ s, isGraphic b = true) :
    NoOuterSpace s := by
  intro e he
  obtain ⟨a, ha, hg⟩ := spaceRunes_not_graphic e he
  constructor
  · intro hp
    rw [h a (hp.subset ha)] at hg
    exact Bool.noConfusion hg
  · intro hp
    rw [h a (hp.subset ha)] at hg
    exact Bool.noConfusion hg

theorem isGraphic_of_isDigit (b : Nat) (h : isDigit b = true) : isGraphic b = true := by
  simp only [isDigit, isGraphic, Bool.and_eq_true, decide_eq_true_eq] at *
  omega

theorem trimSpace_digits (ds : GoString) (h : ds.all isDigit = true) : trimSpace ds = ds := by
  apply trimSpace_eq_self
  apply noOuterSpace_of_graphic
  intro b hb
  exact isGraphic_of_isDigit b (List.all_eq_true.mp h b hb)

theorem port_digits (host : GoString) : (splitHostPort host).2.all isDigit = true := by
  unfold splitHostPort
  have key : (match lastIndexByte host 58 with
      | some colon =>
        if validOptionalPort (host.drop colon) then (host.take colon, host.drop (colon + 1))
        else (host, [])
      | none => (host, ([] : GoString))).2.all isDigit = true := by
    cases lastIndexByte host 58 with
    | none => rfl
    | some colon =>
      simp only
      by_cases hv : validOptionalPort (host.drop colon) = true
      · rw [if_pos hv]
        have hd : host.drop (colon + 1) = (host.drop colon).drop 1 := by
          rw [List.drop_drop, Nat.add_comm]
        simp only [hd]
        cases hh : host.drop colon with
        | nil => rfl
        | cons c rest =>
          rw [hh] at hv
          simp only [validOptionalPort, Bool.and_eq_true] at hv
          simpa using hv.2
      · rw [if_neg hv]; rfl
  simp only
  split <;> exact key

theorem atoi_digits (ds : GoString) (hne : ds ≠ []) (h : ds.all isDigit = true) :
    atoi ds = if decimalValue ds < 2 ^ 63 then some (decimalValue ds : Int) else none := by
  cases ds with
  | nil => exact absurd rfl hne
  | cons d rest =>
    have hd : isDigit d = true := (List.all_eq_true.mp h) d (List.mem_cons_self _ _)
    have h45 : d ≠ 45 := by rintro rfl; simp [isDigit] at hd
    have h43 : d ≠ 43 := by rintro rfl; simp [isDigit] at hd
    have e1 : (some d == some 45) = false := by simp [h45]
    have e2 : (some d == some 43) = false := by simp [h43]
    unfold atoi
    simp only [List.head?_cons, e1, e2, Bool.or_self, Bool.false_eq_true, if_false, h,
      Bool.not_true, Bool.or_false, decimalValue, List.cons_ne_nil, decide_False, reduceCtorEq]

/-- The port of the descriptor in terms of the decimal value of the port of the URL. -/
theorem serverPortOf_eq (uri : URL) :
    serverPortOf uri =
      if uri.Port = [] then .ok 443
      else if 1 ≤ decimalValue uri.Port ∧ decimalValue uri.Port ≤ 65535 then
        .ok (decimalValue uri.Port : Int)
      else .error (.badPort uri.Port) := by
  have hd : uri.Port.all isDigit = true := port_digits uri.Host
  unfold serverPortOf
  simp only [trimSpace_digits _ hd]
  by_cases hne : uri.Port = []
  · simp [hne]
  · simp only [ne_eq, hne, not_false_eq_true, if_true, if_false, atoi_digits _ hne hd]
    by_cases h63 : decimalValue uri.Port < 2 ^ 63
    · simp only [h63, if_true]
      by_cases hr : 1 ≤ decimalValue uri.Port ∧ decimalValue uri.Port ≤ 65535
      · rw [if_pos hr, if_neg]; omega
      · rw [if_neg hr, if_pos]; omega
    · simp only [h63, if_false]
      rw [if_neg]; omega

/-- C8: a decoded URI without a port gets port 443, one with a port gets the value of that
port, which lies in [1, 65535]; a URI whose port is 0 or above 65535 fails to decode. -/
theorem buildVLESSOutbound_port (rt : Runtime) (uri : URL) :
    (∀ out, buildVLESSOutbound rt (some uri) = .ok out →
        (uri.Port = [] → out.server_port = 443) ∧
        (uri.Port ≠ [] → out.server_port = (decimalValue uri.Port : Int) ∧
          1 ≤ decimalValue uri.Port ∧ decimalValue uri.Port ≤ 65535)) ∧
      (uri.Port ≠ [] → (decimalValue uri.Port = 0 ∨ 65535 < decimalValue uri.Port) →
        ∃ e, buildVLESSOutbound rt (some uri) = .error e) := by
  constructor
  · intro out h
    rw [buildVLESSOutbound_ok_iff] at h
    obtain ⟨_, _, _, port, tls, transport, hp, _, _, rfl⟩ := h
    rw [serverPortOf_eq] at hp
    constructor
    · intro h0
      rw [if_pos h0] at hp
      simp only [Except.ok.injEq] at hp
      exact hp.symm
    · intro h0
      rw [if_neg h0] at hp
      split at hp
      · rename_i hr
        simp only [Except.ok.injEq] at hp
        exact ⟨hp.symm, hr⟩
      · simp at hp
  · intro h0 hbad
    cases hb : buildVLESSOutbound rt (some uri) with
    | error e => exact ⟨e, rfl⟩
    | ok out =>
      rw [buildVLESSOutbound_ok_iff] at hb
      obtain ⟨_, _, _, port, tls, transport, hp, _, _, _⟩ := hb
      rw [serverPortOf_eq, if_neg h0, if_neg (by omega)] at hp
      simp at hp

theorem buildVLESSOutbound_port_witness :
    (buildVLESSOutbound exampleRuntime
        (some (exampleURL "vless" "id" "example.org:8443" "security=reality&pbk=KEY"))
        = .ok exampleOutbound ∧
      (exampleURL "vless" "id" "example.org:8443" "security=reality&pbk=KEY").Port ≠ [] ∧
      exampleOutbound.server_port = 8443) ∧
      ∃ e, buildVLESSOutbound exampleRuntime (some (exampleURL "vless" "id" "example.org:0" ""))
        = .error e :=
  ⟨⟨rfl, by decide,
      (((buildVLESSOutbound_port exampleRuntime
        (exampleURL "vless" "id" "example.org:8443" "security=reality&pbk=KEY")).1
          exampleOutbound rfl).2 (by decide)).1⟩,
    (buildVLESSOutbound_port exampleRuntime (exampleURL "vless" "id" "example.org:0" "")).2
      (by decide) (Or.inl (by decide))⟩

/-- The outcome of lines 252-287 in terms of the security parameter and the trimmed `pbk`. -/
theorem tlsOf_spec (rt : Runtime) (query : Values) :
    (toLower rt (trimSpace (query.Get (bytes "security"))) = bytes "reality" →
        trimSpace (query.Get (bytes "pbk")) = [] → tlsOf rt query = .error .realityWithoutPbk) ∧
      ∀ tls, tlsOf rt query = .ok tls →
        (tls.isSome = true ↔
          (toLower rt (trimSpace (query.Get (bytes "security"))) = bytes "tls" ∨
            toLower rt (trimSpace (query.Get (bytes "security"))) = bytes "reality" ∨
            trimSpace (query.Get (bytes "pbk")) ≠ [])) ∧
        (∀ t, tls = some t → t.enabled = true ∧
          (trimSpace (query.Get (bytes "pbk")) ≠ [] →
            ∃ r, t.reality = some r ∧ r.enabled = true ∧
              r.public_key = trimSpace (query.Get (bytes "pbk"))) ∧
          (trimSpace (query.Get (bytes "pbk")) = [] → t.reality = none)) := by
  constructor
  · intro hs hk
    simp [tlsOf, hs, hk]
  · intro tls h
    unfold tlsOf at h
    simp only at h
    split at h
    · rename_i hc
      split at h
      · rename_i hc2
        split at h
        · simp at h
        · rename_i hk
          simp only [Except.ok.injEq] at h
          subst h
          refine ⟨by simpa using hc, ?_⟩
          intro t ht
          simp only [Option.some.injEq] at ht
          subst ht
          exact ⟨rfl, fun _ => ⟨_, rfl, rfl, rfl⟩, fun h0 => absurd h0 hk⟩
      · rename_i hc2
        simp only [Except.ok.injEq] at h
        subst h
        refine ⟨by simpa using hc, ?_⟩
        intro t ht
        simp only [Option.some.injEq] at ht
        subst ht
        refine ⟨rfl, fun h0 => absurd (Or.inr h0) hc2, fun _ => rfl⟩
    · rename_i hc
      simp only [Except.ok.injEq] at h
      subst h
      refine ⟨by simpa using hc, ?_⟩
      intro t ht
      simp at ht

/-- C9: a URI whose security parameter is `reality` and whose `pbk` is absent, empty or
blank is never decoded: `buildVLESSOutbound` returns an error and no descriptor. -/
theorem buildVLESSOutbound_reality_needs_pbk (rt : Runtime) (uri : URL)
    (hs : toLower rt (trimSpace (uri.Query.Get (bytes "security"))) = bytes "reality")
    (hk : trimSpace (uri.Query.Get (bytes "pbk")) = []) :
    (∃ e, buildVLESSOutbound rt (some uri) = .error e) ∧
      tlsOf rt uri.Query = .error .realityWithoutPbk := by
  have ht := (tlsOf_spec rt uri.Query).1 hs hk
  refine ⟨?_, ht⟩
  cases hb : buildVLESSOutbound rt (some uri) with
  | error e => exact ⟨e, rfl⟩
  | ok out =>
    rw [buildVLESSOutbound_ok_iff] at hb
    obtain ⟨_, _, _, port, tls, transport, _, htls, _, _⟩ := hb
    rw [ht] at htls
    simp at htls

theorem buildVLESSOutbound_reality_needs_pbk_witness :
    buildVLESSOutbound exampleRuntime
        (some (exampleURL "vless" "id" "example.org:443" "security=Reality&pbk=%20&sni=a.b"))
        = .error .realityWithoutPbk ∧
      ∃ e, buildVLESSOutbound exampleRuntime
        (some (exampleURL "vless" "id" "example.org:443" "security=Reality&pbk=%20&sni=a.b"))
        = .error e :=
  ⟨rfl,
    (buildVLESSOutbound_reality_needs_pbk exampleRuntime
      (exampleURL "vless" "id" "example.org:443" "security=Reality&pbk=%20&sni=a.b")
      (by decide) (by decide)).1⟩

/-- C10 as stated fails: the link `vless://id@example.org?pbk=%20` decodes, its `pbk`
parameter is the non-empty string of one space, and the descriptor has no tls block. -/
theorem tls_iff_pbk_nonempty_counterexample :
    ∃ out, buildVLESSOutbound exampleRuntime
        (some (exampleURL "vless" "id" "example.org" "pbk=%20")) = .ok out ∧
      (exampleURL "vless" "id" "example.org" "pbk=%20").Query.Get (bytes "pbk") = [32] ∧
      ¬ (out.tls.isSome = true ↔
          (toLower exampleRuntime (trimSpace
              ((exampleURL "vless" "id" "example.org" "pbk=%20").Query.Get (bytes "security")))
              = bytes "tls" ∨
            toLower exampleRuntime (trimSpace
              ((exampleURL "vless" "id" "example.org" "pbk=%20").Query.Get (bytes "security")))
              = bytes "reality" ∨
            (exampleURL "vless" "id" "example.org" "pbk=%20").Query.Get (bytes "pbk") ≠ [])) :=
  ⟨{ type := bytes "vless", tag := bytes "proxy", server := bytes "example.org",
     server_port := 443, uuid := bytes "id", flow := none, tls := none, transport := none },
    rfl, by decide, by decide⟩

/-- C10, amended: a decoded descriptor has a tls block, with `enabled = true`, if and only
if the security parameter (trimmed, lower-cased) is `tls` or `reality` or the trimmed `pbk`
parameter is non-empty; with a non-blank `pbk` the tls block has a reality block with that
key, whatever the security parameter; with neither there is no tls block. -/
theorem buildVLESSOutbound_tls_iff (rt : Runtime) (uri : URL) (out : Outbound)
    (h : buildVLESSOutbound rt (some uri) = .ok out) :
    (out.tls.isSome = true ↔
        (toLower rt (trimSpace (uri.Query.Get (bytes "security"))) = bytes "tls" ∨
          toLower rt (trimSpace (uri.Query.Get (bytes "security"))) = bytes "reality" ∨
          trimSpace (uri.Query.Get (bytes "pbk")) ≠ [])) ∧
      (∀ t, out.tls = some t → t.enabled = true) ∧
      (trimSpace (uri.Query.Get (bytes "pbk")) ≠ [] →
        ∃ t r, out.tls = some t ∧ t.enabled = true ∧ t.reality = some r ∧
          r.public_key = trimSpace (uri.Query.Get (bytes "pbk"))) ∧
      (toLower rt (trimSpace (uri.Query.Get (bytes "security"))) ≠ bytes "tls" →
        toLower rt (trimSpace (uri.Query.Get (bytes "security"))) ≠ bytes "reality" →
        trimSpace (uri.Query.Get (bytes "pbk")) = [] → out.tls = none) := by
  rw [buildVLESSOutbound_ok_iff] at h
  obtain ⟨_, _, _, port, tls, transport, _, htls, _, rfl⟩ := h
  obtain ⟨hiff, hblock⟩ := (tlsOf_spec rt uri.Query).2 tls htls
  refine ⟨hiff, fun t ht => (hblock t ht).1, ?_, ?_⟩
  · intro hk
    have hsome : tls.isSome = true := hiff.mpr (Or.inr (Or.inr hk))
    obtain ⟨t, rfl⟩ := Option.isSome_iff_exists.mp hsome
    obtain ⟨he, hr, _⟩ := hblock t rfl
    obtain ⟨r, hr1, _, hr2⟩ := hr hk
    exact ⟨t, r, rfl, he, hr1, hr2⟩
  · intro h1 h2 h3
    cases tls with
    | none => rfl
    | some t =>
      have := hiff.mp rfl
      rcases this with h | h | h
      · exact absurd h h1
      · exact absurd h h2
      · exact absurd h3 h

theorem buildVLESSOutbound_tls_iff_witness :
    buildVLESSOutbound exampleRuntime
        (some (exampleURL "vless" "id" "example.org:8443" "security=none&pbk=KEY"))
        = .ok exampleOutbound ∧
      ∃ t r, exampleOutbound.tls = some t ∧ t.enabled = true ∧ t.reality = some r ∧
        r.public_key = trimSpace
          ((exampleURL "vless" "id" "example.org:8443" "security=none&pbk=KEY").Query.Get
            (bytes "pbk")) :=
  ⟨rfl,
    (buildVLESSOutbound_tls_iff exampleRuntime
      (exampleURL "vless" "id" "example.org:8443" "security=none&pbk=KEY") exampleOutbound
      rfl).2.2.1 (by decide)⟩

theorem extractLinksFromJSON_eq (rt : Runtime) (body : GoString) :
    extractLinksFromJSON rt body =
      match jsonUnmarshal rt body with
      | some v => ((stringValues v).map trimSpace).filter schemePattern
      | none => [] := by
  unfold extractLinksFromJSON
  cases jsonUnmarshal rt body with
  | none => rfl
  | some v => exact walk_eq v

theorem mem_extractLinksFromJSON (rt : Runtime) (body : GoString) (v : JValue)
    (h : jsonUnmarshal rt body = some v) (s : GoString) (hs : s ∈ stringValues v)
    (hm : schemePattern (trimSpace s) = true) : trimSpace s ∈ extractLinksFromJSON rt body := by
  rw [extractLinksFromJSON_eq, h]
  exact List.mem_filter.mpr ⟨List.mem_map_of_mem _ hs, hm⟩

theorem jsonValid_of_unmarshal (rt : Runtime) (body : GoString) (v : JValue)
    (h : jsonUnmarshal rt body = some v) : jsonValid body = true := by
  unfold jsonUnmarshal at h
  by_cases hv : jsonValid body = true
  · exact hv
  · simp [hv] at h

theorem list_induction4 {α : Type} (P : List α → Prop) (h0 : P [])
    (h1 : ∀ a, P [a]) (h2 : ∀ a b, P [a, b]) (h3 : ∀ a b c, P [a, b, c])
    (h4 : ∀ a b c d t, P t → P (a :: b :: c :: d :: t)) : ∀ l, P l
  | [] => h0
  | [a] => h1 a
  | [a, b] => h2 a b
  | [a, b, c] => h3 a b c
  | a :: b :: c :: d :: t => h4 a b c d t (list_induction4 P h0 h1 h2 h3 h4 t)

/-- A successful decode has read alphabet characters and padding only. -/
theorem decodeQuanta_chars (enc : Encoding) :
    ∀ s out, decodeQuanta enc s = some out → ∀ c ∈ s, (sextet enc c).isSome = true ∨ c = 61 := by
  intro s
  induction s using list_induction4 with
  | h0 => intro out _ c hc; simp at hc
  | h1 a => intro out h; simp [decodeQuanta] at h
  | h2 a b =>
    intro out h c hc
    unfold decodeQuanta at h
    split at h
    · rename_i ha hb
      simp only [List.mem_cons, List.mem_singleton, List.not_mem_nil, or_false] at hc
      rcases hc with rfl | rfl
      · simp [ha]
      · simp [hb]
    · simp at h
  | h3 a b c0 =>
    intro out h c hc
    unfold decodeQuanta at h
    split at h
    · rename_i ha hb
      simp only at h
      split at h
      · rename_i hc0
        simp only [List.mem_cons, List.mem_singleton, List.not_mem_nil, or_false] at hc
        rcases hc with rfl | rfl | rfl
        · simp [ha]
        · simp [hb]
        · simp [hc0]
      · simp at h
    · simp at h
  | h4 a b c0 d t ih =>
    intro out h c hc
    unfold decodeQuanta at h
    split at h
    · rename_i ha hb
      simp only at h
      split at h
      · rename_i hc0
        split at h
        · rename_i hd
          simp only [Option.map_eq_some'] at h
          obtain ⟨o, ho, _⟩ := h
          simp only [List.mem_cons] at hc
          rcases hc with rfl | rfl | rfl | rfl | hc
          · simp [ha]
          · simp [hb]
          · simp [hc0]
          · simp [hd]
          · exact ih o ho c hc
        · rename_i hd
          split at h
          · rename_i hp
            simp only [Bool.and_eq_true, beq_iff_eq, List.isEmpty_iff] at hp
            obtain ⟨⟨_, rfl⟩, rfl⟩ := hp
            simp only [List.mem_cons, List.mem_singleton, List.not_mem_nil, or_false] at hc
            rcases hc with rfl | rfl | rfl | rfl
            · simp [ha]
            · simp [hb]
            · simp [hc0]
            · simp
          · simp at h
      · rename_i hc0
        split at h
        · rename_i hp
          simp only [Bool.and_eq_true, beq_iff_eq] at hp
          obtain ⟨⟨_, rfl⟩, hp⟩ := hp
          simp only [List.cons.injEq] at hp
          obtain ⟨rfl, rfl⟩ := hp
          simp only [List.mem_cons, List.mem_singleton, List.not_mem_nil, or_false] at hc
          rcases hc with rfl | rfl | rfl | rfl
          · simp [ha]
          · simp [hb]
          · simp
          · simp
        · simp at h
    · simp at h

theorem sextet_colon (enc : Encoding) : sextet enc 58 = none := by
  obtain ⟨u, p⟩ := enc
  cases u <;> rfl

theorem base64Decode_colon (enc : Encoding) (s : GoString) (h : 58 ∈ s) :
    base64Decode enc s = none := by
  unfold base64Decode
  cases hd : decodeQuanta enc (s.filter (fun c => c != 10 && c != 13)) with
  | none => rfl
  | some out =>
    have := decodeQuanta_chars enc _ out hd 58 (List.mem_filter.mpr ⟨h, by decide⟩)
    rw [sextet_colon] at this
    simp at this

theorem mem_of_containsSub (s sub : GoString) (c : Nat) (hc : c ∈ sub)
    (h : containsSub s sub = true) : c ∈ s := by
  simp only [containsSub, List.any_eq_true, List.mem_tails] at h
  obtain ⟨t, ht, hp⟩ := h
  have hp1 : sub <+: t := by simpa using hp
  exact ht.subset (hp1.subset hc)

theorem decodeFirst_eq_nil_of_colon (n : GoString) (h : 58 ∈ n) : decodeFirst n = [] := by
  have hp : 58 ∈ padBase64 n := by
    unfold padBase64
    simp only
    split
    · exact List.mem_append_left _ h
    · exact h
  simp [decodeFirst, decoders, List.findSome?, base64Decode_colon _ _ hp]

/-- The guards of `extractLinksFromBase64` follow from a non-empty decode: the result is the
JSON scan and the plain-text scan of the decoded bytes. -/
theorem extractLinksFromBase64_eq (rt : Runtime) (content : GoString) :
    extractLinksFromBase64 rt content =
      extractLinksFromJSON rt (decodeFirst (collapseWhitespace content))
        ++ extractLinksFromPlainText (decodeFirst (collapseWhitespace content)) := by
  unfold extractLinksFromBase64
  simp only [json_scan_guard]
  have hnil : extractLinksFromJSON rt [] ++ extractLinksFromPlainText [] = [] := by
    have h1 : extractLinksFromJSON rt [] = [] := by
      simp [extractLinksFromJSON, jsonUnmarshal, jsonValid, jsonDocument, jsonTokens, lexEnd,
        parseTokens]
    rw [h1]; rfl
  by_cases h1 : collapseWhitespace content = []
  · simp only [h1, decide_True, Bool.true_or, if_true]
    have : decodeFirst [] = [] := by decide
    rw [this, hnil]
  · by_cases h2 : containsSub (collapseWhitespace content) [58, 47, 47] = true
    · have := decodeFirst_eq_nil_of_colon _
        (mem_of_containsSub _ _ 58 (by decide) h2)
      simp only [h2, Bool.or_true, if_true, this, hnil]
    · simp only [h1, h2, decide_False, Bool.or_self, Bool.false_eq_true, if_false]
      by_cases h3 : (decodeFirst (collapseWhitespace content)).length = 0
      · rw [if_pos h3, List.length_eq_zero.mp h3, hnil]
      · rw [if_neg h3]

/-- C3 as stated fails: in the valid JSON payload `{"a":"vless://h","a":"x"}` the string
value `vless://h` of the first member matches the scheme pattern, and `extractLinks` returns
no link at all, whatever the runtime: decoding into a map keeps the last member of a key. -/
theorem json_string_values_counterexample :
    ∃ doc, jsonDocument duplicateKeyPayload = some doc ∧
      bytes "vless://h" ∈ stringValues doc ∧
      schemePattern (trimSpace (bytes "vless://h")) = true ∧
      ∀ rt, trimSpace (bytes "vless://h") ∉ extractLinks rt duplicateKeyPayload := by
  refine ⟨.obj [(bytes "a", .str (bytes "vless://h")), (bytes "a", .str (bytes "x"))],
    rfl, by decide, by decide, ?_⟩
  intro rt
  have h1 : jsonUnmarshal rt duplicateKeyPayload
      = some (.obj (rt.mapOrder [(bytes "a", .str (bytes "x"))])) := rfl
  have h2 : rt.mapOrder [(bytes "a", JValue.str (bytes "x"))] = [(bytes "a", .str (bytes "x"))] :=
    List.perm_singleton.mp (rt.mapOrder_perm _)
  have hj : extractLinksFromJSON rt duplicateKeyPayload = [] := by
    rw [extractLinksFromJSON, h1, h2]; rfl
  have hp : extractLinksFromPlainText duplicateKeyPayload = [] := by decide
  have hb : extractLinksFromBase64 rt duplicateKeyPayload = [] := rfl
  rw [mem_extractLinks, hj, hp, hb]
  simp

/-- C3, amended: when `json.Unmarshal` decodes the payload, or the bytes that the base64
scan decodes from it, into a tree without error, every string value of that tree (of an
object: of the members the map keeps) whose trimmed text matches the scheme pattern has its
trimmed text in `extractLinks`; and the JSON scan collects these trimmed texts and nothing
else, so that other strings, keys, numbers, booleans and nulls contribute nothing. -/
theorem extractLinks_json_string_values (rt : Runtime) (payload : GoString) :
    (∀ v, jsonUnmarshal rt payload = some v → ∀ s ∈ stringValues v,
        schemePattern (trimSpace s) = true → trimSpace s ∈ extractLinks rt payload) ∧
      (∀ v, jsonUnmarshal rt (decodeFirst (collapseWhitespace payload)) = some v →
        ∀ s ∈ stringValues v,
          schemePattern (trimSpace s) = true → trimSpace s ∈ extractLinks rt payload) ∧
      (∀ body, extractLinksFromJSON rt body =
        match jsonUnmarshal rt body with
        | some v => ((stringValues v).map trimSpace).filter schemePattern
        | none => []) := by
  refine ⟨?_, ?_, extractLinksFromJSON_eq rt⟩
  · intro v hv s hs hm
    rw [mem_extractLinks]
    exact List.mem_append_left _
      (List.mem_append_left _ (mem_extractLinksFromJSON rt payload v hv s hs hm))
  · intro v hv s hs hm
    rw [mem_extractLinks, extractLinksFromBase64_eq]
    exact List.mem_append_right _
      (List.mem_append_left _ (mem_extractLinksFromJSON rt _ v hv s hs hm))

theorem extractLinks_json_string_values_witness :
    jsonUnmarshal exampleRuntime (bytes "\x7b\"k\":[\" ss://x \",1,\"no\"],\"t://y\":null\x7d")
        = some (.obj [(bytes "k", .arr [.str (bytes " ss://x "), .number (bytes "1"),
            .str (bytes "no")]), (bytes "t://y", .null)]) ∧
      trimSpace (bytes " ss://x ") ∈
        extractLinks exampleRuntime (bytes "\x7b\"k\":[\" ss://x \",1,\"no\"],\"t://y\":null\x7d") ∧
      extractLinks exampleRuntime (bytes "\x7b\"k\":[\" ss://x \",1,\"no\"],\"t://y\":null\x7d")
        = [bytes "ss://x"] :=
  ⟨rfl,
    (extractLinks_json_string_values exampleRuntime
      (bytes "\x7b\"k\":[\" ss://x \",1,\"no\"],\"t://y\":null\x7d")).1 _ rfl (bytes " ss://x ")
      (by decide) (by decide),
    by decide⟩

theorem extractLinks_json_base64_example :
    jsonUnmarshal exampleRuntime
        (decodeFirst (collapseWhitespace (bytes "WyJzczov\nL3giLDFd")))
        = some (.arr [.str (bytes "ss://x"), .number (bytes "1")]) ∧
      extractLinks exampleRuntime (bytes "WyJzczov\nL3giLDFd") = [bytes "ss://x"] :=
  ⟨rfl, by decide⟩

theorem scanLinesFrom_too_long (c : Nat) (hc : c ≠ 10) (k : Nat) (rest cur : GoString)
    (h1 : cur.length < maxScanTokenSize) (h2 : maxScanTokenSize ≤ cur.length + k) :
    scanLinesFrom (List.replicate k c ++ rest) cur = [] := by
  induction k generalizing cur with
  | zero => omega
  | succ k ih =>
    rw [List.replicate_succ, List.cons_append, scanLinesFrom, if_neg hc]
    by_cases h : maxScanTokenSize ≤ cur.length + 1
    · rw [if_pos h]
    · rw [if_neg h]
      apply ih
      · simp only [List.length_cons]; omega
      · simp only [List.length_cons]; omega

theorem collapseFrom_replicate (c : Nat) (hc : isGraphic c = true) (k : Nat) (rest : GoString) :
    collapseFrom 0 (List.replicate k c ++ rest) = List.replicate k c ++ collapseFrom 0 rest := by
  have hr : 33 ≤ c ∧ c ≤ 126 := by simpa [isGraphic] using hc
  induction k with
  | zero => rfl
  | succ k ih =>
    rw [List.replicate_succ, List.cons_append, collapseFrom, if_neg (by omega)]
    have hw : runeWidth (c :: (List.replicate k c ++ rest)) = 1 := by
      simp only [runeWidth]
      rw [if_pos (by omega)]
    rw [hw]
    simp only [List.cons_append, ih]

theorem containsSub_append_left (a t sub : GoString) (h : containsSub t sub = true) :
    containsSub (a ++ t) sub = true := by
  simp only [containsSub, List.any_eq_true, List.mem_tails] at h ⊢
  obtain ⟨x, hx, hp⟩ := h
  exact ⟨x, hx.trans (List.suffix_append a t), hp⟩

/-- C1 fails on the code: the second line of `longLinePayload` is a link (its trimmed text is
itself, it does not start with `#` and it matches the scheme pattern), and `extractLinks`
returns nothing, because the scanner gives up on the first line of 65536 bytes. -/
theorem extractLinks_long_line :
    trimSpace (bytes "vless://id@example.org:443") = bytes "vless://id@example.org:443" ∧
      schemePattern (bytes "vless://id@example.org:443") = true ∧
      startsWith (bytes "vless://id@example.org:443") [35] = false ∧
      ∀ rt, extractLinks rt longLinePayload = [] := by
  refine ⟨by decide, by decide, by decide, ?_⟩
  intro rt
  have hcons : longLinePayload
      = 97 :: (List.replicate 65535 97 ++ 10 :: bytes "vless://id@example.org:443") := by
    unfold longLinePayload
    rw [show (65536 : Nat) = 65535 + 1 from rfl, List.replicate_succ, List.cons_append]
  have hj : extractLinksFromJSON rt longLinePayload = [] := by
    have : jsonTokens longLinePayload = none := by
      rw [hcons, jsonTokens, List.foldlM_cons]
      rfl
    simp [extractLinksFromJSON, jsonUnmarshal, jsonValid, jsonDocument, this]
  have hp : extractLinksFromPlainText longLinePayload = [] := by
    unfold extractLinksFromPlainText scanLines longLinePayload
    rw [scanLinesFrom_too_long 97 (by decide) 65536 _ [] (by decide) (by decide)]
    rfl
  have hb : extractLinksFromBase64 rt longLinePayload = [] := by
    have hc : collapseWhitespace longLinePayload
        = List.replicate 65536 97 ++ bytes "vless://id@example.org:443" := by
      unfold collapseWhitespace longLinePayload
      rw [collapseFrom_replicate 97 (by decide)]
      congr 1
    have hs : containsSub (collapseWhitespace longLinePayload) [58, 47, 47] = true := by
      rw [hc]
      exact containsSub_append_left _ _ _ (by decide)
    unfold extractLinksFromBase64
    simp only [hs, Bool.or_true, if_true]
  apply List.eq_nil_iff_forall_not_mem.mpr
  intro x hx
  rw [mem_extractLinks, hj, hp, hb] at hx
  simp at hx

theorem list_induction3 {α : Type} (P : List α → Prop) (h0 : P [])
    (h1 : ∀ a, P [a]) (h2 : ∀ a b, P [a, b])
    (h3 : ∀ a b c t, P t → P (a :: b :: c :: t)) : ∀ l, P l
  | [] => h0
  | [a] => h1 a
  | [a, b] => h2 a b
  | a :: b :: c :: t => h3 a b c t (list_induction3 P h0 h1 h2 h3 t)

theorem sextet_padded_irrelevant (u p : Bool) (c : Nat) :
    sextet ⟨u, p⟩ c = sextet ⟨u, true⟩ c := rfl

theorem sextetChar_padded_irrelevant (u p : Bool) (i : Nat) :
    sextetChar ⟨u, p⟩ i = sextetChar ⟨u, true⟩ i := rfl

theorem sextet_sextetChar_aux :
    ∀ u1 u2 : Bool, ∀ i < 64,
      (sextet ⟨u1, true⟩ (sextetChar ⟨u2, true⟩ i) = some i ∨
        (u1 ≠ u2 ∧ sextet ⟨u1, true⟩ (sextetChar ⟨u2, true⟩ i) = none)) ∧
      isGraphic (sextetChar ⟨u2, true⟩ i) = true ∧ sextetChar ⟨u2, true⟩ i ≠ 61 ∧
      sextetChar ⟨u2, true⟩ i ≠ 58 ∧ sextetChar ⟨u2, true⟩ i ≠ 34 := by
  decide

/-- Decoding a character of either alphabet gives its six-bit value, or fails when the
character belongs to the other alphabet only. -/
theorem sextet_sextetChar (e1 e2 : Encoding) (i : Nat) (h : i < 64) :
    sextet e1 (sextetChar e2 i) = some i ∨
      (e1.url ≠ e2.url ∧ sextet e1 (sextetChar e2 i) = none) := by
  obtain ⟨u1, p1⟩ := e1
  obtain ⟨u2, p2⟩ := e2
  rw [sextet_padded_irrelevant, sextetChar_padded_irrelevant]
  exact (sextet_sextetChar_aux u1 u2 i h).1

theorem sextet_sextetChar_same (e1 e2 : Encoding) (hu : e1.url = e2.url) (i : Nat)
    (h : i < 64) : sextet e1 (sextetChar e2 i) = some i := by
  rcases sextet_sextetChar e1 e2 i h with h1 | h1
  · exact h1
  · exact absurd hu h1.1

theorem sextetChar_props (enc : Encoding) (i : Nat) (h : i < 64) :
    isGraphic (sextetChar enc i) = true ∧ sextetChar enc i ≠ 61 ∧ sextetChar enc i ≠ 58 ∧
      sextetChar enc i ≠ 34 := by
  obtain ⟨u, p⟩ := enc
  rw [sextetChar_padded_irrelevant]
  exact (sextet_sextetChar_aux u u i h).2

theorem sextet_pad (enc : Encoding) : sextet enc 61 = none := by
  obtain ⟨u, p⟩ := enc
  cases u <;> rfl

theorem decodeQuanta_quantum (enc : Encoding) (c0 c1 c2 c3 : Nat) (t : GoString)
    (hc2 : c2 ≠ 61) (hc3 : c3 ≠ 61) :
    decodeQuanta enc (c0 :: c1 :: c2 :: c3 :: t) =
      match sextet enc c0, sextet enc c1, sextet enc c2, sextet enc c3 with
      | some d0, some d1, some d2, some d3 =>
        (decodeQuanta enc t).map (fun out =>
          (d0 * 4 + d1 / 16) % 256 :: ((d1 % 16) * 16 + d2 / 4) :: ((d2 % 4) * 64 + d3) :: out)
      | _, _, _, _ => none := by
  conv_lhs => rw [decodeQuanta]
  cases h0 : sextet enc c0 <;> cases h1 : sextet enc c1 <;> cases h2 : sextet enc c2 <;>
    cases h3 : sextet enc c3 <;> simp [hc2, hc3, h2, h3]

theorem decodeQuanta_tail1 (enc : Encoding) (c0 c1 : Nat) :
    decodeQuanta enc [c0, c1, 61, 61] =
      match sextet enc c0, sextet enc c1 with
      | some d0, some d1 => if enc.padded then some [(d0 * 4 + d1 / 16) % 256] else none
      | _, _ => none := by
  conv_lhs => rw [decodeQuanta]
  cases h0 : sextet enc c0 <;> cases h1 : sextet enc c1 <;> simp [sextet_pad]

theorem decodeQuanta_tail2 (enc : Encoding) (c0 c1 c2 : Nat) (hc2 : c2 ≠ 61) :
    decodeQuanta enc [c0, c1, c2, 61] =
      match sextet enc c0, sextet enc c1, sextet enc c2 with
      | some d0, some d1, some d2 =>
        if enc.padded then some [(d0 * 4 + d1 / 16) % 256, (d1 % 16) * 16 + d2 / 4] else none
      | _, _, _ => none := by
  conv_lhs => rw [decodeQuanta]
  cases h0 : sextet enc c0 <;> cases h1 : sextet enc c1 <;> cases h2 : sextet enc c2 <;>
    simp [sextet_pad, hc2, h2]

/-- Decoding the padded encoding of `d` with any of the four decoders gives `d` or an
error, and it gives `d` with the padded decoder of the same alphabet. -/
theorem decodeQuanta_encode (e1 : Encoding) (u2 : Bool) :
    ∀ d : GoString, (∀ b ∈ d, b < 256) →
      (decodeQuanta e1 (base64Encode ⟨u2, true⟩ d) = some d ∨
        decodeQuanta e1 (base64Encode ⟨u2, true⟩ d) = none) ∧
      (e1.url = u2 → e1.padded = true →
        decodeQuanta e1 (base64Encode ⟨u2, true⟩ d) = some d) := by
  intro d
  induction d using list_induction3 with
  | h0 => intro _; simp [base64Encode, decodeQuanta]
  | h1 a =>
    intro hb
    have ha : a < 256 := hb a (by simp)
    have k0 := sextet_sextetChar e1 ⟨u2, true⟩ (a / 4) (by omega)
    have k1 := sextet_sextetChar e1 ⟨u2, true⟩ (a % 4 * 16) (by omega)
    have e : (a / 4 * 4 + a % 4 * 16 / 16) % 256 = a := by omega
    simp only [base64Encode, if_true, List.cons_append, List.nil_append, decodeQuanta_tail1]
    constructor
    · rcases k0 with k0 | ⟨_, k0⟩ <;> rcases k1 with k1 | ⟨_, k1⟩ <;>
        cases hp : e1.padded <;> simp [k0, k1]
      all_goals omega
    · intro hu hp
      rcases k0 with k0 | ⟨h, _⟩
      · rcases k1 with k1 | ⟨h, _⟩
        · simp [k0, k1, hp]; omega
        · exact absurd hu h
      · exact absurd hu h
  | h2 a b =>
    intro hb
    have ha : a < 256 := hb a (by simp)
    have hb1 : b < 256 := hb b (by simp)
    have k0 := sextet_sextetChar e1 ⟨u2, true⟩ (a / 4) (by omega)
    have k1 := sextet_sextetChar e1 ⟨u2, true⟩ (a % 4 * 16 + b / 16) (by omega)
    have k2 := sextet_sextetChar e1 ⟨u2, true⟩ (b % 16 * 4) (by omega)
    have n2 := (sextetChar_props ⟨u2, true⟩ (b % 16 * 4) (by omega)).2.1
    have e0 : (a / 4 * 4 + (a % 4 * 16 + b / 16) / 16) % 256 = a := by omega
    have e1' : (a % 4 * 16 + b / 16) % 16 * 16 + b % 16 * 4 / 4 = b := by omega
    simp only [base64Encode, if_true, List.cons_append, List.nil_append,
      decodeQuanta_tail2 _ _ _ _ n2]
    constructor
    · rcases k0 with k0 | ⟨_, k0⟩ <;> rcases k1 with k1 | ⟨_, k1⟩ <;>
        rcases k2 with k2 | ⟨_, k2⟩ <;> cases hp : e1.padded <;> simp [k0, k1, k2]
      all_goals omega
    · intro hu hp
      rcases k0 with k0 | ⟨h, _⟩
      · rcases k1 with k1 | ⟨h, _⟩
        · rcases k2 with k2 | ⟨h, _⟩
          · simp [k0, k1, k2, hp]; omega
          · exact absurd hu h
        · exact absurd hu h
      · exact absurd hu h
  | h3 a b c t ih =>
    intro hb
    have ha : a < 256 := hb a (by simp)
    have hb1 : b < 256 := hb b (by simp)
    have hc : c < 256 := hb c (by simp)
    have iht := ih (fun x hx => hb x (by simp [hx]))
    have k0 := sextet_sextetChar e1 ⟨u2, true⟩ (a / 4) (by omega)
    have k1 := sextet_sextetChar e1 ⟨u2, true⟩ (a % 4 * 16 + b / 16) (by omega)
    have k2 := sextet_sextetChar e1 ⟨u2, true⟩ (b % 16 * 4 + c / 64) (by omega)
    have k3 := sextet_sextetChar e1 ⟨u2, true⟩ (c % 64) (by omega)
    have n2 := (sextetChar_props ⟨u2, true⟩ (b % 16 * 4 + c / 64) (by omega)).2.1
    have n3 := (sextetChar_props ⟨u2, true⟩ (c % 64) (by omega)).2.1
    have e0 : (a / 4 * 4 + (a % 4 * 16 + b / 16) / 16) % 256 = a := by omega
    have e1' : (a % 4 * 16 + b / 16) % 16 * 16 + (b % 16 * 4 + c / 64) / 4 = b := by omega
    have e2 : (b % 16 * 4 + c / 64) % 4 * 64 + c % 64 = c := by omega
    simp only [base64Encode, decodeQuanta_quantum _ _ _ _ _ _ n2 n3]
    constructor
    · rcases k0 with k0 | ⟨_, k0⟩ <;> rcases k1 with k1 | ⟨_, k1⟩ <;>
        rcases k2 with k2 | ⟨_, k2⟩ <;> rcases k3 with k3 | ⟨_, k3⟩ <;>
        rcases iht.1 with h | h <;> simp [k0, k1, k2, k3, h]
      all_goals omega
    · intro hu hp
      rcases k0 with k0 | ⟨h, _⟩
      · rcases k1 with k1 | ⟨h, _⟩
        · rcases k2 with k2 | ⟨h, _⟩
          · rcases k3 with k3 | ⟨h, _⟩
            · simp [k0, k1, k2, k3, iht.2 hu hp]; omega
            · exact absurd hu h
          · exact absurd hu h
        · exact absurd hu h
      · exact absurd hu h

theorem padBase64_encode (u p : Bool) :
    ∀ d : GoString, padBase64 (base64Encode ⟨u, p⟩ d) = base64Encode ⟨u, true⟩ d ∧
      (base64Encode ⟨u, true⟩ d).length % 4 = 0 := by
  intro d
  induction d using list_induction3 with
  | h0 => exact ⟨rfl, rfl⟩
  | h1 a => cases p <;> simp [padBase64, base64Encode, sextetChar_padded_irrelevant u false]
  | h2 a b => cases p <;> simp [padBase64, base64Encode, sextetChar_padded_irrelevant u false]
  | h3 a b c t ih =>
    constructor
    · have h := ih.1
      unfold padBase64 at h ⊢
      simp only [base64Encode, List.length_cons] at h ⊢
      have e : ((base64Encode ⟨u, p⟩ t).length + 1 + 1 + 1 + 1) % 4
          = (base64Encode ⟨u, p⟩ t).length % 4 := by omega
      rw [e]
      split
      · rename_i hm
        rw [if_pos hm] at h
        simp only [List.cons_append, h]
        rfl
      · rename_i hm
        rw [if_neg hm] at h
        simp only [h]
        rfl
    · simp only [base64Encode, List.length_cons]
      have := ih.2
      omega

theorem base64Encode_chars (enc : Encoding) :
    ∀ d : GoString, (∀ b ∈ d, b < 256) → ∀ c ∈ base64Encode enc d,
      isGraphic c = true ∧ c ≠ 58 ∧ c ≠ 34 := by
  intro d
  induction d using list_induction3 with
  | h0 => intro _ c hc; simp [base64Encode] at hc
  | h1 a =>
    intro hb c hc
    have ha : a < 256 := hb a (by simp)
    have p0 := sextetChar_props enc (a / 4) (by omega)
    have p1 := sextetChar_props enc (a % 4 * 16) (by omega)
    simp only [base64Encode, List.cons_append, List.nil_append, List.mem_cons] at hc
    rcases hc with rfl | rfl | hc
    · exact ⟨p0.1, p0.2.2⟩
    · exact ⟨p1.1, p1.2.2⟩
    · split at hc
      · simp only [List.mem_cons, List.mem_singleton, List.not_mem_nil, or_false, or_self] at hc
        subst hc; decide
      · simp at hc
  | h2 a b =>
    intro hb c hc
    have ha : a < 256 := hb a (by simp)
    have hb1 : b < 256 := hb b (by simp)
    have p0 := sextetChar_props enc (a / 4) (by omega)
    have p1 := sextetChar_props enc (a % 4 * 16 + b / 16) (by omega)
    have p2 := sextetChar_props enc (b % 16 * 4) (by omega)
    simp only [base64Encode, List.cons_append, List.nil_append, List.mem_cons] at hc
    rcases hc with rfl | rfl | rfl | hc
    · exact ⟨p0.1, p0.2.2⟩
    · exact ⟨p1.1, p1.2.2⟩
    · exact ⟨p2.1, p2.2.2⟩
    · split at hc
      · simp only [List.mem_singleton] at hc
        subst hc; decide
      · simp at hc
  | h3 a b c0 t ih =>
    intro hb c hc
    have ha : a < 256 := hb a (by simp)
    have hb1 : b < 256 := hb b (by simp)
    have hc1 : c0 < 256 := hb c0 (by simp)
    have p0 := sextetChar_props enc (a / 4) (by omega)
    have p1 := sextetChar_props enc (a % 4 * 16 + b / 16) (by omega)
    have p2 := sextetChar_props enc (b % 16 * 4 + c0 / 64) (by omega)
    have p3 := sextetChar_props enc (c0 % 64) (by omega)
    simp only [base64Encode, List.mem_cons] at hc
    rcases hc with rfl | rfl | rfl | rfl | hc
    · exact ⟨p0.1, p0.2.2⟩
    · exact ⟨p1.1, p1.2.2⟩
    · exact ⟨p2.1, p2.2.2⟩
    · exact ⟨p3.1, p3.2.2⟩
    · exact ih (fun x hx => hb x (by simp [hx])) c hc

theorem findSome_of_agree {α β : Type} (f : α → Option β) (d : β) :
    ∀ l : List α, (∀ x ∈ l, f x = some d ∨ f x = none) → (∃ x ∈ l, f x = some d) →
      l.findSome? f = some d := by
  intro l
  induction l with
  | nil => intro _ h; simp at h
  | cons a t ih =>
    intro h1 h2
    rw [List.findSome?_cons]
    rcases h1 a (List.mem_cons_self _ _) with h | h
    · rw [h]
    · rw [h]
      apply ih (fun x hx => h1 x (List.mem_cons_of_mem _ hx))
      obtain ⟨x, hx, hfx⟩ := h2
      rcases List.mem_cons.mp hx with rfl | hx
      · rw [h] at hfx; exact absurd hfx (by simp)
      · exact ⟨x, hx, hfx⟩

/-- The decoding loop recovers `d` from each of its four encodings. -/
theorem decodeFirst_encode (enc : Encoding) (d : GoString) (hd : ∀ b ∈ d, b < 256) :
    decodeFirst (base64Encode enc d) = d := by
  obtain ⟨u, p⟩ := enc
  have hfilter : (base64Encode ⟨u, true⟩ d).filter (fun c => c != 10 && c != 13)
      = base64Encode ⟨u, true⟩ d := by
    apply List.filter_eq_self.mpr
    intro c hc
    have := (base64Encode_chars ⟨u, true⟩ d hd c hc).1
    simp only [isGraphic, Bool.and_eq_true, decide_eq_true_eq] at this
    simp only [bne_iff_ne, ne_eq, Bool.and_eq_true]
    omega
  unfold decodeFirst
  rw [(padBase64_encode u p d).1]
  rw [findSome_of_agree _ d]
  · intro e1 _
    simp only [base64Decode, hfilter]
    exact (decodeQuanta_encode e1 u d hd).1
  · refine ⟨⟨u, true⟩, ?_, ?_⟩
    · cases u <;> decide
    · simp only [base64Decode, hfilter]
      exact (decodeQuanta_encode ⟨u, true⟩ u d hd).2 rfl rfl

theorem collapseFrom_ascii (s : GoString) (h : ∀ b ∈ s, b < 128) :
    collapseFrom 0 s = s.filter (fun b => !isBlank b) := by
  induction s with
  | nil => rfl
  | cons b rest ih =>
    have hb : b < 128 := h b (List.mem_cons_self _ _)
    have ih1 := ih (fun x hx => h x (List.mem_cons_of_mem _ hx))
    rw [collapseFrom]
    by_cases hw : b = 10 ∨ b = 13 ∨ b = 9 ∨ b = 32
    · rw [if_pos hw, ih1, List.filter_cons]
      have : isBlank b = true := by
        simp only [isBlank, Bool.or_eq_true, beq_iff_eq]; tauto
      simp [this]
    · rw [if_neg hw]
      have hwid : runeWidth (b :: rest) = 1 := by
        simp only [runeWidth]; rw [if_pos hb]
      rw [hwid]
      simp only [ih1, List.filter_cons]
      have : isBlank b = false := by
        simp only [isBlank, Bool.or_eq_false_iff, beq_eq_false_iff_ne, ne_eq]
        tauto
      simp [this]

/-- White space inserted into base64 text is removed again by `collapseWhitespace`. -/
theorem collapseWhitespace_inserted (enc : Encoding) (d payload : GoString)
    (hd : ∀ b ∈ d, b < 256)
    (hp : payload.filter (fun b => !isBlank b) = base64Encode enc d) :
    collapseWhitespace payload = base64Encode enc d := by
  unfold collapseWhitespace
  rw [collapseFrom_ascii, hp]
  intro b hb
  by_cases hw : isBlank b = true
  · simp only [isBlank, Bool.or_eq_true, beq_iff_eq] at hw
    omega
  · have hm : b ∈ base64Encode enc d := by
      rw [← hp]
      exact List.mem_filter.mpr ⟨hb, by simpa using hw⟩
    have := (base64Encode_chars enc d hd b hm).1
    simp only [isGraphic, Bool.and_eq_true, decide_eq_true_eq] at this
    omega

theorem lexIdle_none (toks : List Token) (c : Nat) (h : lexIdle [] c = none) :
    lexIdle toks c = none := by
  unfold lexIdle at h ⊢
  by_cases h1 : c = 32 ∨ c = 9 ∨ c = 13 ∨ c = 10
  · rw [if_pos h1] at h; simp at h
  · rw [if_neg h1] at h ⊢
    cases hp : punctuation c with
    | some t => rw [hp] at h; simp at h
    | none =>
      rw [hp] at h
      simp only at h ⊢
      by_cases h2 : c = 34
      · rw [if_pos h2] at h; simp at h
      · rw [if_neg h2] at h ⊢
        by_cases h3 : c = 45 ∨ isDigit c = true
        · rw [if_pos h3] at h; simp at h
        · rw [if_neg h3] at h ⊢
          cases hl : literalStart c with
          | some rt => rw [hl] at h; simp at h
          | none => rfl

theorem literalStart_no_slash (c : Nat) (rest : GoString) (tok : Token)
    (h : literalStart c = some (rest, tok)) : 47 ∉ rest := by
  unfold literalStart at h
  split_ifs at h <;> simp only [Option.some.injEq, Prod.mk.injEq, reduceCtorEq] at h <;>
    (obtain ⟨rfl, _⟩ := h; decide)

theorem lexIdle_outside (toks : List Token) (c : Nat) (hc : c ≠ 34)
    (st : List Token × LexMode) (h : lexIdle toks c = some st) : st.2.outsideString := by
  unfold lexIdle at h
  by_cases h1 : c = 32 ∨ c = 9 ∨ c = 13 ∨ c = 10
  · rw [if_pos h1] at h
    cases h; simp [LexMode.outsideString]
  · rw [if_neg h1] at h
    cases hp : punctuation c with
    | some t => rw [hp] at h; cases h; simp [LexMode.outsideString]
    | none =>
      rw [hp] at h
      simp only [if_neg hc] at h
      by_cases h3 : c = 45 ∨ isDigit c = true
      · rw [if_pos h3] at h; cases h; simp [LexMode.outsideString]
      · rw [if_neg h3] at h
        cases hl : literalStart c with
        | none => rw [hl] at h; simp at h
        | some rt =>
          obtain ⟨rest, tok⟩ := rt
          rw [hl] at h
          cases h
          exact literalStart_no_slash c rest tok hl

theorem lexIdle_slash (toks : List Token) : lexIdle toks 47 = none :=
  lexIdle_none toks 47 rfl

theorem lexStep_outside (toks : List Token) (m : LexMode) (c : Nat) (hm : m.outsideString)
    (hc : c ≠ 34) (st : List Token × LexMode) (h : lexStep (toks, m) c = some st) :
    st.2.outsideString := by
  cases m with
  | idle => exact lexIdle_outside toks c hc st h
  | inStr raw esc => exact absurd hm (by simp [LexMode.outsideString])
  | inNum lit =>
    simp only [lexStep] at h
    split_ifs at h
    · simp only [Option.some.injEq] at h; subst h; simp [LexMode.outsideString]
    · exact lexIdle_outside _ c hc st h
  | inLit rest tok =>
    simp only [lexStep] at h
    cases rest with
    | nil => simp at h
    | cons r more =>
      simp only at h
      split_ifs at h
      · simp only [Option.some.injEq] at h; subst h; simp [LexMode.outsideString]
      · simp only [Option.some.injEq] at h; subst h
        simp only [LexMode.outsideString, List.mem_cons, not_or] at hm ⊢
        exact hm.2

theorem lexStep_slash (toks : List Token) (m : LexMode) (hm : m.outsideString) :
    lexStep (toks, m) 47 = none := by
  cases m with
  | idle => exact lexIdle_slash toks
  | inStr raw esc => exact absurd hm (by simp [LexMode.outsideString])
  | inNum lit =>
    simp only [lexStep]
    split_ifs with h1 h2
    · simp [isNumChar, isDigit] at h1
    · exact lexIdle_slash _
    · rfl
  | inLit rest tok =>
    simp only [lexStep]
    cases rest with
    | nil => rfl
    | cons r more =>
      simp only [LexMode.outsideString, List.mem_cons, not_or] at hm
      simp only
      rw [if_neg hm.1]

theorem lexFold_outside (pre : GoString) (h34 : 34 ∉ pre) :
    ∀ (st st1 : List Token × LexMode), st.2.outsideString →
      List.foldlM lexStep st pre = some st1 → st1.2.outsideString := by
  induction pre with
  | nil =>
    intro st st1 hm h
    simp only [List.foldlM_nil, pure, Option.some.injEq] at h
    exact h ▸ hm
  | cons c rest ih =>
    intro st st1 hm h
    rw [List.foldlM_cons] at h
    cases hs : lexStep st c with
    | none => rw [hs] at h; simp at h
    | some st2 =>
      rw [hs] at h
      simp only [Option.some_bind, Option.bind_eq_bind] at h
      have h2 := lexStep_outside st.1 st.2 c hm (fun e => h34 (e ▸ List.mem_cons_self _ _)) st2 hs
      exact ih (fun hx => h34 (List.mem_cons_of_mem _ hx)) st2 st1 h2 h

/-- A slash that no quotation mark precedes is a syntax error. -/
theorem jsonTokens_slash (pre rest : GoString) (h34 : 34 ∉ pre) :
    jsonTokens (pre ++ 47 :: rest) = none := by
  unfold jsonTokens
  rw [List.foldlM_append]
  cases hs : List.foldlM lexStep ([], LexMode.idle) pre with
  | none => rfl
  | some st =>
    have hm := lexFold_outside pre h34 ([], LexMode.idle) st (by simp [LexMode.outsideString]) hs
    simp only [Option.some_bind, Option.bind_eq_bind, List.foldlM_cons]
    obtain ⟨toks, m⟩ := st
    rw [lexStep_slash toks m hm]
    rfl

theorem extractLinksFromJSON_of_tokens_none (rt : Runtime) (body : GoString)
    (h : jsonTokens body = none) : extractLinksFromJSON rt body = [] := by
  simp [extractLinksFromJSON, jsonUnmarshal, jsonValid, jsonDocument, h]

/-- Text that begins with a URI scheme prefix is not JSON. -/
theorem extractLinksFromJSON_of_scheme (rt : Runtime) (body rest : GoString)
    (h : schemePattern body = true) : extractLinksFromJSON rt (body ++ rest) = [] := by
  apply extractLinksFromJSON_of_tokens_none
  obtain ⟨b, tail, r, rfl, hb, ht⟩ := hasSchemePrefix_of_schemePattern body h
  have h3 : bytes "://" = [58, 47, 47] := by decide
  have : b :: tail ++ bytes "://" ++ r ++ rest = (b :: tail ++ [58]) ++ 47 :: (47 :: (r ++ rest)) := by
    rw [h3]; simp
  rw [this]
  apply jsonTokens_slash
  intro hm
  simp only [List.cons_append, List.mem_cons, List.mem_append, List.mem_singleton,
    List.not_mem_nil, or_false] at hm
  rcases hm with rfl | hm | hm
  · simp [isLetter] at hb
  · have := ht 34 hm
    simp [isSchemeChar, isLetter] at this
  · omega

theorem lexFold_leading_blanks (c : Nat) (hc : lexIdle [] c = none) :
    ∀ (p : GoString) (toks : List Token),
      (p.filter (fun b => !isBlank b)).head? = some c →
      List.foldlM lexStep (toks, LexMode.idle) p = none := by
  intro p
  induction p with
  | nil => intro toks h; simp at h
  | cons b rest ih =>
    intro toks h
    rw [List.foldlM_cons]
    by_cases hb : isBlank b = true
    · have hstep : lexStep (toks, LexMode.idle) b = some (toks, LexMode.idle) := by
        simp only [isBlank, Bool.or_eq_true, beq_iff_eq] at hb
        simp only [lexStep, lexIdle]
        rw [if_pos (by tauto)]
      rw [hstep]
      simp only [Option.some_bind, Option.bind_eq_bind]
      apply ih
      simpa [List.filter_cons, hb] using h
    · have hbc : b = c := by
        simp only [List.filter_cons, hb, Bool.not_false, if_true, List.head?_cons,
          Option.some.injEq, Bool.false_eq_true, not_false_eq_true] at h
        simpa using h
      subst hbc
      have : lexStep (toks, LexMode.idle) b = none := lexIdle_none toks b hc
      rw [this]
      rfl

theorem base64Encode_head_aux :
    ∀ u : Bool, ∀ a < 128, isLetter a = true →
      (lexIdle [] (sextetChar ⟨u, true⟩ (a / 4))).isNone = true := by
  decide

theorem base64Encode_head (enc : Encoding) (a : Nat) (t : GoString) :
    (base64Encode enc (a :: t)).head? = some (sextetChar enc (a / 4)) := by
  match t with
  | [] => rfl
  | [_] => rfl
  | _ :: _ :: _ => rfl

/-- Base64 text of bytes that begin with a letter, with white space inserted, is not JSON. -/
theorem extractLinksFromJSON_of_base64 (rt : Runtime) (enc : Encoding) (a : Nat)
    (t payload : GoString) (ha : isLetter a = true)
    (hp : payload.filter (fun b => !isBlank b) = base64Encode enc (a :: t)) :
    extractLinksFromJSON rt payload = [] := by
  apply extractLinksFromJSON_of_tokens_none
  unfold jsonTokens
  have ha128 : a < 128 := by
    simp only [isLetter, Bool.or_eq_true, Bool.and_eq_true, decide_eq_true_eq] at ha
    omega
  rw [lexFold_leading_blanks (sextetChar enc (a / 4)) _ payload []]
  · rfl
  · rw [hp, base64Encode_head]
  · obtain ⟨u, p⟩ := enc
    rw [sextetChar_padded_irrelevant]
    exact Option.isNone_iff_eq_none.mp (base64Encode_head_aux u a ha128 ha)

theorem mem_dropCR (l : GoString) (b : Nat) (h : b ∈ dropCR l) : b ∈ l := by
  unfold dropCR at h
  split at h
  · exact List.mem_of_mem_dropLast h
  · exact h

theorem mem_scanLinesFrom (p : GoString) :
    ∀ (cur l : GoString), l ∈ scanLinesFrom p cur → ∀ b ∈ l, b ∈ cur ∨ b ∈ p := by
  induction p with
  | nil =>
    intro cur l hl b hb
    unfold scanLinesFrom at hl
    split at hl
    · simp at hl
    · simp only [List.mem_singleton] at hl
      subst hl
      left
      simpa using mem_dropCR _ b hb
  | cons c rest ih =>
    intro cur l hl b hb
    unfold scanLinesFrom at hl
    split at hl
    · rcases List.mem_cons.mp hl with rfl | hl
      · left; simpa using mem_dropCR _ b hb
      · rcases ih [] l hl b hb with h | h
        · simp at h
        · right; exact List.mem_cons_of_mem _ h
    · split at hl
      · simp at hl
      · rcases ih (c :: cur) l hl b hb with h | h
        · rcases List.mem_cons.mp h with rfl | h
          · right; exact List.mem_cons_self _ _
          · left; exact h
        · right; exact List.mem_cons_of_mem _ h

theorem mem_of_mem_trimSpace (s : GoString) (b : Nat) (h : b ∈ trimSpace s) : b ∈ s :=
  (trimLeft_suffix s).subset ((trimRight_initial _).subset h)

theorem colon_mem_of_schemePattern (s : GoString) (h : schemePattern s = true) : 58 ∈ s := by
  obtain ⟨b, tail, r, rfl, _, _⟩ := hasSchemePrefix_of_schemePattern s h
  have h3 : bytes "://" = [58, 47, 47] := by decide
  rw [h3]; simp

/-- Text without a colon holds no link. -/
theorem extractLinksFromPlainText_no_colon (content : GoString) (h : 58 ∉ content) :
    extractLinksFromPlainText content = [] := by
  apply List.eq_nil_iff_forall_not_mem.mpr
  intro x hx
  simp only [extractLinksFromPlainText, List.mem_flatMap] at hx
  obtain ⟨l, hl, hxl⟩ := hx
  have hlink := plainLine_isLink l x hxl
  have h58 := colon_mem_of_schemePattern x hlink.1
  unfold plainLine at hxl
  simp only at hxl
  split at hxl
  · simp at hxl
  · split at hxl
    · simp at hxl
    · simp only [List.mem_singleton] at hxl
      subst hxl
      have := mem_of_mem_trimSpace l 58 h58
      rcases mem_scanLinesFrom content [] l hl 58 this with h1 | h1
      · simp at h1
      · exact h h1

theorem isLetter_head_of_schemePattern (d : GoString) (h : schemePattern d = true) :
    ∃ a t, d = a :: t ∧ isLetter a = true := by
  cases d with
  | nil => simp [schemePattern] at h
  | cons a t =>
    simp only [schemePattern, Bool.and_eq_true] at h
    exact ⟨a, t, rfl, h.1⟩

/-- The payload is base64 text of `d`, with white space inserted, and `d` begins with a URI
scheme prefix: the links are those of the plain-text scan of `d`. -/
theorem extractLinks_of_base64 (rt : Runtime) (enc : Encoding) (d payload : GoString)
    (hd : ∀ b ∈ d, b < 256) (hs : schemePattern d = true)
    (hp : payload.filter (fun b => !isBlank b) = base64Encode enc d) :
    extractLinks rt payload = uniqueNonEmpty (extractLinksFromPlainText d) := by
  obtain ⟨a, t, rfl, ha⟩ := isLetter_head_of_schemePattern d hs
  have hj : extractLinksFromJSON rt payload = [] :=
    extractLinksFromJSON_of_base64 rt enc a t payload ha hp
  have h58 : 58 ∉ payload := by
    intro hm
    have : 58 ∈ payload.filter (fun b => !isBlank b) := List.mem_filter.mpr ⟨hm, by decide⟩
    rw [hp] at this
    exact (base64Encode_chars enc _ hd 58 this).2.1 rfl
  have hpl : extractLinksFromPlainText payload = [] :=
    extractLinksFromPlainText_no_colon payload h58
  have hdec : decodeFirst (collapseWhitespace payload) = a :: t := by
    rw [collapseWhitespace_inserted enc _ payload hd hp, decodeFirst_encode enc _ hd]
  have hjd : extractLinksFromJSON rt (a :: t) = [] := by
    have := extractLinksFromJSON_of_scheme rt (a :: t) [] hs
    simpa using this
  unfold extractLinks
  rw [json_scan_guard, hj, hpl, extractLinksFromBase64_eq, hdec, hjd]
  simp

/-- A line that ends within the buffer is returned, and the scan goes on behind it. -/
theorem scanLinesFrom_line (l : GoString) (h10 : 10 ∉ l) :
    ∀ (cur rest : GoString), cur.length + l.length < maxScanTokenSize →
      scanLinesFrom (l ++ 10 :: rest) cur
        = dropCR (cur.reverse ++ l) :: scanLinesFrom rest [] := by
  induction l with
  | nil =>
    intro cur rest _
    simp [scanLinesFrom]
  | cons b t ih =>
    intro cur rest hlen
    have hb : b ≠ 10 := fun e => h10 (e ▸ List.mem_cons_self _ _)
    simp only [List.length_cons] at hlen
    rw [List.cons_append, scanLinesFrom, if_neg hb, if_neg (by omega),
      ih (fun hx => h10 (List.mem_cons_of_mem _ hx)) (b :: cur) rest
        (by simp only [List.length_cons]; omega)]
    simp

/-- The last line needs no line break. -/
theorem scanLinesFrom_last (l : GoString) (h10 : 10 ∉ l) :
    ∀ (cur : GoString), cur.length + l.length < maxScanTokenSize →
      scanLinesFrom l cur
        = if cur.reverse ++ l = [] then [] else [dropCR (cur.reverse ++ l)] := by
  induction l with
  | nil =>
    intro cur _
    simp [scanLinesFrom]
  | cons b t ih =>
    intro cur hlen
    have hb : b ≠ 10 := fun e => h10 (e ▸ List.mem_cons_self _ _)
    simp only [List.length_cons] at hlen
    rw [scanLinesFrom, if_neg hb, if_neg (by omega),
      ih (fun hx => h10 (List.mem_cons_of_mem _ hx)) (b :: cur)
        (by simp only [List.length_cons]; omega)]
    simp

theorem scanLines_joinLines (lines : List GoString)
    (h : ∀ l ∈ lines, l ≠ [] ∧ 10 ∉ l ∧ l.length < maxScanTokenSize) :
    scanLines (joinLines lines) = lines.map dropCR := by
  induction lines with
  | nil => rfl
  | cons l rest ih =>
    obtain ⟨hne, h10, hlen⟩ := h l (List.mem_cons_self _ _)
    cases rest with
    | nil =>
      simp only [joinLines, scanLines, List.map_cons, List.map_nil]
      rw [scanLinesFrom_last l h10 [] (by simpa using hlen)]
      simp [hne]
    | cons l2 rest2 =>
      have ih1 := ih (fun x hx => h x (List.mem_cons_of_mem _ hx))
      simp only [joinLines, scanLines, List.map_cons] at ih1 ⊢
      rw [scanLinesFrom_line l h10 [] _ (by simpa using hlen), ih1]
      simp

theorem dropCR_eq_self (l : GoString) (h : 13 ∉ l) : dropCR l = l := by
  unfold dropCR
  rw [if_neg]
  intro hl
  exact h (List.mem_of_getLast?_eq_some hl)

theorem hash_not_letter (x : GoString) (h : schemePattern x = true) :
    startsWith x [35] = false := by
  obtain ⟨a, t, rfl, ha⟩ := isLetter_head_of_schemePattern x h
  have : a ≠ 35 := by rintro rfl; simp [isLetter] at ha
  simp [startsWith, List.isPrefixOf, this.symm]

theorem plainLine_link (x : GoString) (hm : schemePattern x = true) (hs : NoOuterSpace x) :
    plainLine x = [x] := by
  unfold plainLine
  simp only [trimSpace_eq_self x hs, hash_not_letter x hm, hm, schemePattern_ne_nil x hm,
    decide_False, Bool.or_self, Bool.false_eq_true, if_false, Bool.not_true]

/-- No white-space rune occurs anywhere in the string. -/
theorem noSpace_facts (x : GoString) (h : ∀ e ∈ spaceRunes, ¬ e <:+: x) :
    10 ∉ x ∧ 13 ∉ x ∧ NoOuterSpace x := by
  refine ⟨?_, ?_, ?_⟩
  · intro hm
    obtain ⟨s, t, rfl⟩ := List.append_of_mem hm
    exact h [10] (by decide) ⟨s, t, by simp⟩
  · intro hm
    obtain ⟨s, t, rfl⟩ := List.append_of_mem hm
    exact h [13] (by decide) ⟨s, t, by simp⟩
  · intro e he
    exact ⟨fun hp => h e he hp.isInfix, fun hp => h e he hp.isInfix⟩

theorem extractLinksFromPlainText_joinLines (links : List GoString)
    (h : ∀ l ∈ links, schemePattern l = true ∧ (∀ e ∈ spaceRunes, ¬ e <:+: l) ∧
      l.length < maxScanTokenSize) :
    extractLinksFromPlainText (joinLines links) = links := by
  unfold extractLinksFromPlainText
  rw [scanLines_joinLines links (fun l hl =>
    ⟨schemePattern_ne_nil l (h l hl).1, (noSpace_facts l (h l hl).2.1).1, (h l hl).2.2⟩)]
  induction links with
  | nil => rfl
  | cons l rest ih =>
    obtain ⟨hm, hs, _⟩ := h l (List.mem_cons_self _ _)
    obtain ⟨_, h13, hno⟩ := noSpace_facts l hs
    simp only [List.map_cons, List.flatMap_cons, dropCR_eq_self l h13, plainLine_link l hm hno,
      List.singleton_append]
    rw [ih (fun x hx => h x (List.mem_cons_of_mem _ hx))]

theorem schemePattern_append (s t : GoString) (h : schemePattern s = true) :
    schemePattern (s ++ t) = true := by
  apply schemePattern_of_hasSchemePrefix
  obtain ⟨b, tail, r, rfl, hb, ht⟩ := hasSchemePrefix_of_schemePattern s h
  exact ⟨b, tail, r ++ t, by simp, hb, ht⟩

theorem schemePattern_joinLines (l : GoString) (rest : List GoString)
    (h : schemePattern l = true) : schemePattern (joinLines (l :: rest)) = true := by
  cases rest with
  | nil => exact h
  | cons l2 r => exact schemePattern_append l _ h

theorem bytes_joinLines (links : List GoString) (h : ∀ l ∈ links, ∀ b ∈ l, b < 256) :
    ∀ b ∈ joinLines links, b < 256 := by
  induction links with
  | nil => intro b hb; simp [joinLines] at hb
  | cons l rest ih =>
    intro b hb
    cases rest with
    | nil => exact h l (List.mem_cons_self _ _) b hb
    | cons l2 r =>
      simp only [joinLines, List.mem_append, List.mem_cons] at hb
      rcases hb with hb | rfl | hb
      · exact h l (List.mem_cons_self _ _) b hb
      · omega
      · exact ih (fun x hx => h x (List.mem_cons_of_mem _ hx)) b hb

theorem uniqueNonEmpty_links (links : List GoString)
    (h : ∀ l ∈ links, schemePattern l = true ∧ NoOuterSpace l) :
    uniqueNonEmpty links = keepFirst links := by
  rw [uniqueNonEmpty_eq_spec, uniqueNonEmptySpec]
  have h1 : links.map trimSpace = links := by
    conv_rhs => rw [← List.map_id links]
    apply List.map_congr_left
    intro l hl
    exact trimSpace_eq_self l (h l hl).2
  rw [h1, List.filter_eq_self.mpr]
  intro l hl
  simpa using schemePattern_ne_nil l (h l hl).1

/-- Base64 wrapping is undone for links that fit the line buffer of the scanner: for links
that match the scheme pattern, hold no white space and are shorter than 65536 bytes, joined
by line breaks and encoded in any of the four encodings, with spaces, tabs and line breaks
inserted at will, `extractLinks` returns the links in their order, each at its first
occurrence. -/
theorem extractLinks_base64_short_links (rt : Runtime) (enc : Encoding)
    (links : List GoString) (payload : GoString) (hne : links ≠ [])
    (hl : ∀ l ∈ links, schemePattern l = true ∧ (∀ e ∈ spaceRunes, ¬ e <:+: l) ∧
      (∀ b ∈ l, b < 256) ∧ l.length < maxScanTokenSize)
    (hp : payload.filter (fun b => !isBlank b) = base64Encode enc (joinLines links)) :
    extractLinks rt payload = keepFirst links := by
  obtain ⟨l, rest, rfl⟩ := List.exists_cons_of_ne_nil hne
  rw [extractLinks_of_base64 rt enc (joinLines (l :: rest)) payload
    (bytes_joinLines _ (fun x hx => (hl x hx).2.2.1))
    (schemePattern_joinLines l rest (hl l (List.mem_cons_self _ _)).1) hp]
  rw [extractLinksFromPlainText_joinLines _ (fun x hx => ⟨(hl x hx).1, (hl x hx).2.1, (hl x hx).2.2.2⟩)]
  exact uniqueNonEmpty_links _ (fun x hx => ⟨(hl x hx).1, (noSpace_facts x (hl x hx).2.1).2.2⟩)

theorem scanLinesFrom_overlong (l : GoString) (h10 : 10 ∉ l) :
    ∀ (cur rest : GoString), cur.length < maxScanTokenSize →
      maxScanTokenSize ≤ cur.length + l.length → scanLinesFrom (l ++ rest) cur = [] := by
  induction l with
  | nil => intro cur rest h1 h2; simp at h2; omega
  | cons b t ih =>
    intro cur rest h1 h2
    have hb : b ≠ 10 := fun e => h10 (e ▸ List.mem_cons_self _ _)
    simp only [List.length_cons] at h2
    rw [List.cons_append, scanLinesFrom, if_neg hb]
    by_cases h : maxScanTokenSize ≤ cur.length + 1
    · rw [if_pos h]
    · rw [if_neg h]
      exact ih (fun hx => h10 (List.mem_cons_of_mem _ hx)) (b :: cur) rest
        (by simp only [List.length_cons]; omega) (by simp only [List.length_cons]; omega)

/-- C2 fails on the code: `longLink` matches the scheme pattern, holds no white space and
consists of bytes, and from its standard padded base64 encoding `extractLinks` returns
nothing, because the scanner gives up on the decoded line of 65538 bytes. -/
theorem extractLinks_base64_long_link :
    schemePattern longLink = true ∧ (∀ e ∈ spaceRunes, ¬ e <:+: longLink) ∧
      (∀ b ∈ longLink, b < 256) ∧
      ∀ rt, extractLinks rt (base64Encode ⟨false, true⟩ longLink) = [] := by
  have hmem : ∀ b ∈ longLink, b = 97 ∨ b = 58 ∨ b = 47 := by
    intro b hb
    unfold longLink at hb
    rcases List.mem_append.mp hb with h | h
    · have : bytes "a://" = [97, 58, 47, 47] := by decide
      rw [this] at h
      simp only [List.mem_cons, List.mem_singleton, List.not_mem_nil, or_false] at h
      omega
    · exact Or.inl (List.eq_of_mem_replicate h)
  have hs : schemePattern longLink = true :=
    schemePattern_append (bytes "a://") _ (by decide)
  refine ⟨hs, ?_, ?_, ?_⟩
  · intro e he hinf
    obtain ⟨a, ha, hg⟩ := spaceRunes_not_graphic e he
    have := hmem a (hinf.subset ha)
    rcases this with rfl | rfl | rfl <;> simp [isGraphic] at hg
  · intro b hb
    have := hmem b hb
    omega
  · intro rt
    have hbytes : ∀ b ∈ longLink, b < 256 := fun b hb => by have := hmem b hb; omega
    have hfil : (base64Encode ⟨false, true⟩ longLink).filter (fun b => !isBlank b)
        = base64Encode ⟨false, true⟩ longLink := by
      apply List.filter_eq_self.mpr
      intro c hc
      have := (base64Encode_chars _ longLink hbytes c hc).1
      simp only [isGraphic, Bool.and_eq_true, decide_eq_true_eq] at this
      simp only [isBlank, Bool.not_eq_true', Bool.or_eq_false_iff, beq_eq_false_iff_ne, ne_eq]
      omega
    rw [extractLinks_of_base64 rt ⟨false, true⟩ longLink _ hbytes hs hfil]
    have hplain : extractLinksFromPlainText longLink = [] := by
      unfold extractLinksFromPlainText scanLines
      have h10 : 10 ∉ longLink := fun hm => by have := hmem 10 hm; omega
      have hlen : longLink.length = 65538 := by
        have h4 : (bytes "a://").length = 4 := by decide
        rw [longLink, List.length_append, List.length_replicate, h4]
      have := scanLinesFrom_overlong longLink h10 [] [] (by decide)
        (by rw [hlen]; decide)
      rw [List.append_nil] at this
      rw [this]
      rfl
    rw [hplain]
    rfl

theorem isPrefixOf_append_cr (t : GoString) (h13 : 13 ∉ t) :
    ∀ s : GoString, t.isPrefixOf (s ++ [13]) = t.isPrefixOf s := by
  induction t with
  | nil => intro s; simp [List.isPrefixOf]
  | cons x t ih =>
    intro s
    have hx : x ≠ 13 := fun e => h13 (e ▸ List.mem_cons_self _ _)
    cases s with
    | nil => simp [List.isPrefixOf, hx]
    | cons y s =>
      simp only [List.cons_append, List.isPrefixOf, List.append_eq]
      rw [ih (fun hm => h13 (List.mem_cons_of_mem _ hm))]

theorem spaceRunes_tail_no_cr : ∀ e ∈ spaceRunes, 13 ∉ e.tail := by decide

theorem find_congr {α : Type} (p q : α → Bool) :
    ∀ l : List α, (∀ x ∈ l, p x = q x) → l.find? p = l.find? q := by
  intro l
  induction l with
  | nil => intro _; rfl
  | cons a t ih =>
    intro h
    simp only [List.find?_cons, h a (List.mem_cons_self _ _)]
    rw [ih (fun x hx => h x (List.mem_cons_of_mem _ hx))]

theorem spaceLen_append_cr (b : Nat) (r : GoString) :
    spaceLen spaceRunes (b :: r ++ [13]) = spaceLen spaceRunes (b :: r) := by
  unfold spaceLen
  rw [find_congr _ (fun e => e.isPrefixOf (b :: r)) spaceRunes]
  intro e he
  cases e with
  | nil => rfl
  | cons a t =>
    have := spaceRunes_tail_no_cr _ he
    simp only [List.tail_cons] at this
    simp only [List.cons_append, List.isPrefixOf, List.append_eq]
    rw [isPrefixOf_append_cr t this]

theorem dropSpaces_append_cr (s : GoString) :
    ∀ k, dropSpaces spaceRunes k (s ++ [13]) = dropSpaces spaceRunes k s ++ [13] ∨
      (dropSpaces spaceRunes k s = [] ∧ dropSpaces spaceRunes k (s ++ [13]) = []) := by
  induction s with
  | nil =>
    intro k
    right
    cases k with
    | zero => exact ⟨rfl, by decide⟩
    | succ k => exact ⟨rfl, by simp [dropSpaces]⟩
  | cons b r ih =>
    intro k
    cases k with
    | succ k => simpa [dropSpaces] using ih k
    | zero =>
      have hs := spaceLen_append_cr b r
      simp only [List.cons_append] at hs ⊢
      unfold dropSpaces
      rw [hs]
      cases spaceLen spaceRunes (b :: r) with
      | zero => left; rfl
      | succ n => exact ih n

theorem trimRight_append_cr (x : GoString) : trimRight (x ++ [13]) = trimRight x := by
  unfold trimRight
  rw [List.reverse_append, List.reverse_singleton, List.singleton_append]
  congr 1
  have : spaceLen (spaceRunes.map List.reverse) (13 :: x.reverse) = 1 := by
    simp [spaceLen, spaceRunes, List.find?, List.isPrefixOf]
  rw [dropSpaces, this]

theorem trimSpace_append_cr (x : GoString) : trimSpace (x ++ [13]) = trimSpace x := by
  unfold trimSpace trimLeft
  rcases dropSpaces_append_cr x 0 with h | ⟨h1, h2⟩
  · rw [h, trimRight_append_cr]
  · rw [h1, h2]

theorem trimSpace_dropCR (l : GoString) : trimSpace (dropCR l) = trimSpace l := by
  unfold dropCR
  split
  · rename_i h
    obtain ⟨ys, hys⟩ := List.getLast?_eq_some_iff.mp h
    rw [hys, List.dropLast_concat, trimSpace_append_cr]
  · rfl

theorem scanLines_terminated (before : List GoString)
    (h : ∀ l ∈ before, 10 ∉ l ∧ l.length < maxScanTokenSize) (rest : GoString) :
    scanLines (terminated before ++ rest) = before.map dropCR ++ scanLines rest := by
  induction before with
  | nil => rfl
  | cons l more ih =>
    obtain ⟨h10, hlen⟩ := h l (List.mem_cons_self _ _)
    have ih1 := ih (fun x hx => h x (List.mem_cons_of_mem _ hx))
    simp only [terminated, List.map_cons, List.flatten_cons, List.append_assoc,
      List.singleton_append, List.cons_append, scanLines] at ih1 ⊢
    rw [scanLinesFrom_line l h10 [] _ (by simpa using hlen)]
    simp only [List.nil_append, List.reverse_nil, ih1]

/-- The plain-text scan finds every link line that the scanner reaches: when the lines in
front of it and the line itself are shorter than 65536 bytes, a line whose trimmed text
matches the scheme pattern (so that it is neither empty nor a comment) has its trimmed text
in `extractLinks`, whatever follows. -/
theorem extractLinks_short_lines (rt : Runtime) (before : List GoString)
    (line after : GoString)
    (hb : ∀ l ∈ before, 10 ∉ l ∧ l.length < maxScanTokenSize)
    (hl : 10 ∉ line ∧ line.length < maxScanTokenSize)
    (ha : after = [] ∨ ∃ t, after = 10 :: t)
    (hm : schemePattern (trimSpace line) = true) :
    trimSpace line ∈ extractLinks rt (terminated before ++ (line ++ after)) := by
  rw [mem_extractLinks]
  apply List.mem_append_left
  apply List.mem_append_right
  have hne : line ≠ [] := by
    rintro rfl
    exact schemePattern_ne_nil _ hm (by decide)
  have hscan : dropCR line ∈ scanLines (terminated before ++ (line ++ after)) := by
    rw [scanLines_terminated before hb]
    apply List.mem_append_right
    rcases ha with rfl | ⟨t, rfl⟩
    · rw [List.append_nil, scanLines, scanLinesFrom_last line hl.1 [] (by simpa using hl.2)]
      simp [hne]
    · rw [scanLines, scanLinesFrom_line line hl.1 [] t (by simpa using hl.2)]
      simp
  simp only [extractLinksFromPlainText, List.mem_flatMap]
  refine ⟨dropCR line, hscan, ?_⟩
  have hlink : plainLine (trimSpace line) = [trimSpace line] :=
    plainLine_link _ hm (trimSpace_noOuterSpace line)
  unfold plainLine at hlink ⊢
  rw [trimSpace_idem] at hlink
  rw [trimSpace_dropCR]
  rw [hlink]
  exact List.mem_singleton_self _

theorem extractLinks_short_lines_example :
    bytes "vless://id@example.org:443" ∈
      extractLinks exampleRuntime
        (terminated [bytes "# comment\r", bytes "ss://x"]
          ++ (bytes "  vless://id@example.org:443 \r" ++ bytes "\nrest")) :=
  extractLinks_short_lines exampleRuntime [bytes "# comment\r", bytes "ss://x"]
    (bytes "  vless://id@example.org:443 \r") (bytes "\nrest") (by decide) (by decide)
    (Or.inr ⟨bytes "rest", by decide⟩) (by decide)

theorem extractLinks_base64_short_links_example :
    extractLinks exampleRuntime (bytes "dmxlc3M6 Ly9hQGI6\r\nMQpzczov\tL3gKdmxlc3M6Ly9hQGI6MQ")
      = [bytes "vless://a@b:1", bytes "ss://x"] :=
  extractLinks_base64_short_links exampleRuntime ⟨false, false⟩
    [bytes "vless://a@b:1", bytes "ss://x", bytes "vless://a@b:1"]
    (bytes "dmxlc3M6 Ly9hQGI6\r\nMQpzczov\tL3gKdmxlc3M6Ly9hQGI6MQ") (by decide) (by decide)
    (by decide)

/-- A number outside `float64` makes `json.Unmarshal` fail, and the JSON scan then returns
nothing although the payload is valid JSON with a matching string value. -/
theorem json_number_range_example (rt : Runtime)
    (h : rt.floatInRange (bytes "1e999") = false) :
    jsonValid (bytes "[\"vless://h\",1e999]") = true ∧
      extractLinks rt (bytes "[\"vless://h\",1e999]") = [] := by
  refine ⟨by decide, ?_⟩
  have ht : jsonTokens (bytes "[\"vless://h\",1e999]")
      = some [.lbracket, .str (bytes "vless://h"), .comma, .num (bytes "1e999"), .rbracket] := by
    decide
  have hj : extractLinksFromJSON rt (bytes "[\"vless://h\",1e999]") = [] := by
    simp [extractLinksFromJSON, jsonUnmarshal, ht, numbersInRange, h]
  have hp : extractLinksFromPlainText (bytes "[\"vless://h\",1e999]") = [] := by decide
  have hb : extractLinksFromBase64 rt (bytes "[\"vless://h\",1e999]") = [] := rfl
  apply List.eq_nil_iff_forall_not_mem.mpr
  intro x hx
  rw [mem_extractLinks, hj, hp, hb] at hx
  simp at hx

theorem transportType_eq_spec (rt : Runtime) (query : Values) :
    toLower rt (trimSpace (firstNonEmpty [query.Get (bytes "type"), query.Get (bytes "network")]))
      = transportTypeSpec rt query := by
  unfold transportTypeSpec
  simp only [firstNonEmpty]
  by_cases h1 : trimSpace (query.Get (bytes "type")) = []
  · by_cases h2 : trimSpace (query.Get (bytes "network")) = []
    · simp [h1, h2]
      rfl
    · simp [h1, h2, trimSpace_idem]
  · simp [h1, trimSpace_idem]

theorem transportOf_spec (rt : Runtime) (query : Values) :
    (transportTypeSpec rt query ∉ knownTransportTypes →
        transportOf rt query = .error (.unsupportedTransport (transportTypeSpec rt query))) ∧
    ((transportTypeSpec rt query = [] ∨ transportTypeSpec rt query = bytes "tcp") →
        transportOf rt query = .ok none) ∧
    (transportTypeSpec rt query = bytes "grpc" →
        ∃ tr, transportOf rt query = .ok (some tr) ∧ tr.type = bytes "grpc") ∧
    ((transportTypeSpec rt query = bytes "ws" ∨ transportTypeSpec rt query = bytes "websocket") →
        ∃ tr, transportOf rt query = .ok (some tr) ∧ tr.type = bytes "ws") ∧
    (transportTypeSpec rt query = bytes "httpupgrade" →
        ∃ tr, transportOf rt query = .ok (some tr) ∧ tr.type = bytes "httpupgrade") ∧
    ((transportTypeSpec rt query = bytes "http" ∨ transportTypeSpec rt query = bytes "h2") →
        ∃ tr, transportOf rt query = .ok (some tr) ∧ tr.type = bytes "http") := by
  unfold transportOf
  simp only [transportType_eq_spec]
  generalize transportTypeSpec rt query = t
  refine ⟨?_, ?_, ?_, ?_, ?_, ?_⟩
  · intro h
    simp only [knownTransportTypes, List.mem_cons, List.mem_singleton, not_or, List.not_mem_nil,
      or_false] at h
    obtain ⟨h1, h2, h3, h4, h5, h6, h7, h8⟩ := h
    simp [h1, h2, h3, h4, h5, h6, h7, h8]
  · intro h
    simp [h]
  · intro h
    subst h
    exact ⟨_, by simp [show bytes "grpc" ≠ [] by decide, show bytes "grpc" ≠ bytes "tcp" by decide]; rfl, rfl⟩
  · intro h
    rcases h with h | h <;> subst h
    · exact ⟨_, by simp [show bytes "ws" ≠ [] by decide, show bytes "ws" ≠ bytes "tcp" by decide, show bytes "ws" ≠ bytes "grpc" by decide]; rfl, rfl⟩
    · exact ⟨_, by simp [show bytes "websocket" ≠ [] by decide, show bytes "websocket" ≠ bytes "tcp" by decide, show bytes "websocket" ≠ bytes "grpc" by decide]; rfl, rfl⟩
  · intro h
    subst h
    exact ⟨_, by simp [show bytes "httpupgrade" ≠ [] by decide, show bytes "httpupgrade" ≠ bytes "tcp" by decide, show bytes "httpupgrade" ≠ bytes "grpc" by decide, show bytes "httpupgrade" ≠ bytes "ws" by decide, show bytes "httpupgrade" ≠ bytes "websocket" by decide]; rfl, rfl⟩
  · intro h
    rcases h with h | h <;> subst h
    · exact ⟨_, by simp [show bytes "http" ≠ [] by decide, show bytes "http" ≠ bytes "tcp" by decide, show bytes "http" ≠ bytes "grpc" by decide, show bytes "http" ≠ bytes "ws" by decide, show bytes "http" ≠ bytes "websocket" by decide, show bytes "http" ≠ bytes "httpupgrade" by decide]; rfl, rfl⟩
    · exact ⟨_, by simp [show bytes "h2" ≠ [] by decide, show bytes "h2" ≠ bytes "tcp" by decide, show bytes "h2" ≠ bytes "grpc" by decide, show bytes "h2" ≠ bytes "ws" by decide, show bytes "h2" ≠ bytes "websocket" by decide, show bytes "h2" ≠ bytes "httpupgrade" by decide, show bytes "h2" ≠ bytes "http" by decide]; rfl, rfl⟩

/-- C11: with t the trimmed, lower-cased value of `type`, or of `network` when `type` is
blank: decoding fails when t is not one of the eight known values; a URL that decodes in
every other respect decodes when t is known; and a decoded descriptor has no transport block
when t is empty or `tcp`, and otherwise a transport block of type `grpc`, `ws` (for `ws` and
`websocket`), `httpupgrade` or `http` (for `http` and `h2`). -/
theorem buildVLESSOutbound_transport_table (rt : Runtime) (uri : URL) :
    (transportTypeSpec rt uri.Query ∉ knownTransportTypes →
        ∃ e, buildVLESSOutbound rt (some uri) = .error e) ∧
    (DecodableButTransport rt uri → transportTypeSpec rt uri.Query ∈ knownTransportTypes →
        ∃ out, buildVLESSOutbound rt (some uri) = .ok out) ∧
    ∀ out, buildVLESSOutbound rt (some uri) = .ok out →
      ((transportTypeSpec rt uri.Query = [] ∨ transportTypeSpec rt uri.Query = bytes "tcp") →
          out.transport = none) ∧
      (transportTypeSpec rt uri.Query = bytes "grpc" →
          ∃ tr, out.transport = some tr ∧ tr.type = bytes "grpc") ∧
      ((transportTypeSpec rt uri.Query = bytes "ws" ∨
          transportTypeSpec rt uri.Query = bytes "websocket") →
          ∃ tr, out.transport = some tr ∧ tr.type = bytes "ws") ∧
      (transportTypeSpec rt uri.Query = bytes "httpupgrade" →
          ∃ tr, out.transport = some tr ∧ tr.type = bytes "httpupgrade") ∧
      ((transportTypeSpec rt uri.Query = bytes "http" ∨
          transportTypeSpec rt uri.Query = bytes "h2") →
          ∃ tr, out.transport = some tr ∧ tr.type = bytes "http") := by
  obtain ⟨hbad, htcp, hgrpc, hws, hup, hhttp⟩ := transportOf_spec rt uri.Query
  refine ⟨?_, ?_, ?_⟩
  · intro h
    cases hb : buildVLESSOutbound rt (some uri) with
    | error e => exact ⟨e, rfl⟩
    | ok out =>
      rw [buildVLESSOutbound_ok_iff] at hb
      obtain ⟨_, _, _, _, _, transport, _, _, ht, _⟩ := hb
      rw [hbad h] at ht
      exact absurd ht (by simp)
  · rintro ⟨h1, h2, h3, ⟨port, hp⟩, ⟨tls, htls⟩⟩ hk
    have htr : ∃ transport, transportOf rt uri.Query = .ok transport := by
      simp only [knownTransportTypes, List.mem_cons, List.mem_singleton, List.not_mem_nil,
        or_false] at hk
      rcases hk with h | h | h | h | h | h | h | h
      · exact ⟨none, htcp (Or.inl h)⟩
      · exact ⟨none, htcp (Or.inr h)⟩
      · obtain ⟨tr, e, _⟩ := hgrpc h
        exact ⟨_, e⟩
      · obtain ⟨tr, e, _⟩ := hws (Or.inl h)
        exact ⟨_, e⟩
      · obtain ⟨tr, e, _⟩ := hws (Or.inr h)
        exact ⟨_, e⟩
      · obtain ⟨tr, e, _⟩ := hup h
        exact ⟨_, e⟩
      · obtain ⟨tr, e, _⟩ := hhttp (Or.inl h)
        exact ⟨_, e⟩
      · obtain ⟨tr, e, _⟩ := hhttp (Or.inr h)
        exact ⟨_, e⟩
    obtain ⟨transport, htr⟩ := htr
    exact ⟨_, (buildVLESSOutbound_ok_iff rt uri _).mpr
      ⟨h1, h2, h3, port, tls, transport, hp, htls, htr, rfl⟩⟩
  · intro out hb
    rw [buildVLESSOutbound_ok_iff] at hb
    obtain ⟨_, _, _, port, tls, transport, _, _, ht, rfl⟩ := hb
    have key : ∀ tr ty, transportOf rt uri.Query = .ok (some tr) ∧ tr.type = ty →
        ∃ tr1, transport = some tr1 ∧ tr1.type = ty := by
      rintro tr ty ⟨e, hty⟩
      rw [e] at ht
      cases ht
      exact ⟨tr, rfl, hty⟩
    refine ⟨?_, ?_, ?_, ?_, ?_⟩
    · intro h
      rw [htcp h] at ht
      cases ht
      rfl
    · intro h
      obtain ⟨tr, e⟩ := hgrpc h
      exact key tr _ e
    · intro h
      obtain ⟨tr, e⟩ := hws h
      exact key tr _ e
    · intro h
      obtain ⟨tr, e⟩ := hup h
      exact key tr _ e
    · intro h
      obtain ⟨tr, e⟩ := hhttp h
      exact key tr _ e

theorem buildVLESSOutbound_transport_table_witness :
    (∃ e, buildVLESSOutbound exampleRuntime
        (some (exampleURL "vless" "id" "example.org" "type=quic")) = .error e) ∧
    (∃ out, buildVLESSOutbound exampleRuntime
        (some (exampleURL "vless" "id" "example.org" "type=+&network=H2")) = .ok out) ∧
    ∃ tr, ({ exampleOutbound with
        server_port := 443, tls := none,
        transport := some { Transport.ofType (bytes "http") with
          path := some (bytes "/p") } } : Outbound).transport = some tr ∧
      tr.type = bytes "http" :=
  ⟨(buildVLESSOutbound_transport_table exampleRuntime
      (exampleURL "vless" "id" "example.org" "type=quic")).1 (by decide),
    (buildVLESSOutbound_transport_table exampleRuntime
      (exampleURL "vless" "id" "example.org" "type=+&network=H2")).2.1
      ⟨by decide, by decide, by decide, ⟨443, rfl⟩, ⟨none, rfl⟩⟩ (by decide),
    ((buildVLESSOutbound_transport_table exampleRuntime
      (exampleURL "vless" "id" "example.org" "type=+&network=H2&path=/p")).2.2 _ rfl).2.2.2.2
      (Or.inr (by decide))⟩

/-! ### The stable sort -/

theorem insertLeft_perm {α : Type} (less : α → α → Bool) (x : α) (l : List α) :
    (insertLeft less x l).Perm (x :: l) := by
  induction l with
  | nil => exact List.Perm.refl _
  | cons y before ih =>
    unfold insertLeft
    split
    · exact ((List.Perm.cons y ih).trans (List.Perm.swap x y before))
    · exact List.Perm.refl _

theorem insertionSortFrom_perm {α : Type} (less : α → α → Bool) (l : List α) :
    ∀ sorted, (insertionSortFrom less sorted l).Perm (sorted ++ l) := by
  induction l with
  | nil =>
    intro sorted
    simp [insertionSortFrom]
  | cons x rest ih =>
    intro sorted
    unfold insertionSortFrom
    refine (ih _).trans ?_
    refine ((insertLeft_perm less x sorted).append_right rest).trans ?_
    have hmid : (sorted ++ x :: rest).Perm (x :: (sorted ++ rest)) := List.perm_middle
    simpa using hmid.symm

theorem sliceStable_perm {α : Type} (less : α → α → Bool) (l : List α) :
    (sliceStable less l).Perm l := by
  simpa [sliceStable] using insertionSortFrom_perm less l []

theorem insertLeft_sorted {α : Type} (less : α → α → Bool)
    (hasym : ∀ a b, less a b = true → less b a = false)
    (hneg : ∀ a b c, less a b = false → less b c = false → less a c = false)
    (x : α) (l : List α) (h : l.Pairwise (fun p q => less p q = false)) :
    (insertLeft less x l).Pairwise (fun p q => less p q = false) := by
  induction l with
  | nil => simp [insertLeft]
  | cons y before ih =>
    rw [List.pairwise_cons] at h
    unfold insertLeft
    split
    · rename_i hxy
      rw [List.pairwise_cons]
      refine ⟨?_, ih h.2⟩
      intro z hz
      rcases List.mem_cons.mp ((insertLeft_perm less x before).subset hz) with hz | hz
      · subst hz
        exact hasym _ _ hxy
      · exact h.1 z hz
    · rename_i hxy
      have hxy : less x y = false := by simpa using hxy
      rw [List.pairwise_cons]
      refine ⟨?_, List.pairwise_cons.mpr h⟩
      intro z hz
      rcases List.mem_cons.mp hz with hz | hz
      · subst hz
        exact hxy
      · exact hneg _ _ _ hxy (h.1 z hz)

theorem insertionSortFrom_sorted {α : Type} (less : α → α → Bool)
    (hasym : ∀ a b, less a b = true → less b a = false)
    (hneg : ∀ a b c, less a b = false → less b c = false → less a c = false)
    (l : List α) : ∀ sorted, sorted.Pairwise (fun p q => less p q = false) →
      (insertionSortFrom less sorted l).Pairwise (fun p q => less q p = false) := by
  induction l with
  | nil =>
    intro sorted h
    unfold insertionSortFrom
    exact List.pairwise_reverse.mpr h
  | cons x rest ih =>
    intro sorted h
    unfold insertionSortFrom
    exact ih _ (insertLeft_sorted less hasym hneg x sorted h)

theorem sliceStable_sorted {α : Type} (less : α → α → Bool)
    (hasym : ∀ a b, less a b = true → less b a = false)
    (hneg : ∀ a b c, less a b = false → less b c = false → less a c = false)
    (l : List α) : (sliceStable less l).Pairwise (fun p q => less q p = false) :=
  insertionSortFrom_sorted less hasym hneg l [] List.Pairwise.nil

theorem insertLeft_filter_neg {α : Type} (less : α → α → Bool) (p : α → Bool) (x : α)
    (hx : p x = false) (l : List α) : (insertLeft less x l).filter p = l.filter p := by
  induction l with
  | nil => simp [insertLeft, hx]
  | cons y before ih =>
    unfold insertLeft
    split
    · simp [List.filter_cons, ih]
    · simp [List.filter_cons, hx]

theorem insertLeft_filter_pos {α : Type} (less : α → α → Bool) (p : α → Bool) (x : α)
    (hx : p x = true) (h : ∀ y, p y = true → less x y = false) (l : List α) :
    (insertLeft less x l).filter p = x :: l.filter p := by
  induction l with
  | nil => simp [insertLeft, hx]
  | cons y before ih =>
    unfold insertLeft
    split
    · rename_i hxy
      have hy : p y = false := by
        cases hpy : p y with
        | false => rfl
        | true => rw [h y hpy] at hxy; exact absurd hxy (by simp)
      simp [List.filter_cons, ih, hy]
    · simp [List.filter_cons, hx]

theorem insertionSortFrom_filter {α : Type} (less : α → α → Bool) (p : α → Bool)
    (h : ∀ x y, p x = true → p y = true → less x y = false) (l : List α) :
    ∀ sorted, (insertionSortFrom less sorted l).filter p = (sorted.reverse ++ l).filter p := by
  induction l with
  | nil =>
    intro sorted
    simp [insertionSortFrom]
  | cons x rest ih =>
    intro sorted
    unfold insertionSortFrom
    rw [ih]
    cases hx : p x with
    | false =>
      simp [List.filter_append, List.filter_reverse, insertLeft_filter_neg less p x hx,
        List.filter_cons, hx]
    | true =>
      simp [List.filter_append, List.filter_reverse,
        insertLeft_filter_pos less p x hx (fun y hy => h x y hx hy), List.filter_cons, hx]

theorem sliceStable_filter {α : Type} (less : α → α → Bool) (p : α → Bool)
    (h : ∀ x y, p x = true → p y = true → less x y = false) (l : List α) :
    (sliceStable less l).filter p = l.filter p := by
  simpa [sliceStable] using insertionSortFrom_filter less p h l []

theorem insertLeft_map {α β : Type} (less : β → β → Bool) (f : α → β) (x : α) (l : List α) :
    (insertLeft (fun a b => less (f a) (f b)) x l).map f = insertLeft less (f x) (l.map f) := by
  induction l with
  | nil => simp [insertLeft]
  | cons y before ih =>
    simp only [insertLeft, List.map_cons]
    split
    · simp [ih]
    · simp

theorem insertionSortFrom_map {α β : Type} (less : β → β → Bool) (f : α → β) (l : List α) :
    ∀ sorted, (insertionSortFrom (fun a b => less (f a) (f b)) sorted l).map f
      = insertionSortFrom less (sorted.map f) (l.map f) := by
  induction l with
  | nil =>
    intro sorted
    simp [insertionSortFrom]
  | cons x rest ih =>
    intro sorted
    simp only [insertionSortFrom, List.map_cons]
    rw [ih, insertLeft_map]

theorem sliceStable_map {α β : Type} (less : β → β → Bool) (f : α → β) (l : List α) :
    (sliceStable (fun a b => less (f a) (f b)) l).map f = sliceStable less (l.map f) := by
  simpa [sliceStable] using insertionSortFrom_map less f l []

theorem insertLeft_congr {α : Type} (less1 less2 : α → α → Bool) (x : α) (l : List α)
    (h : ∀ y ∈ l, less1 x y = less2 x y) : insertLeft less1 x l = insertLeft less2 x l := by
  induction l with
  | nil => rfl
  | cons y before ih =>
    simp only [insertLeft]
    rw [h y (List.mem_cons_self _ _), ih (fun z hz => h z (List.mem_cons_of_mem _ hz))]

theorem insertionSortFrom_congr {α : Type} (less1 less2 : α → α → Bool) (l : List α) :
    ∀ sorted, (∀ a ∈ sorted ++ l, ∀ b ∈ sorted ++ l, less1 a b = less2 a b) →
      insertionSortFrom less1 sorted l = insertionSortFrom less2 sorted l := by
  induction l with
  | nil =>
    intro sorted _
    rfl
  | cons x rest ih =>
    intro sorted h
    simp only [insertionSortFrom]
    rw [insertLeft_congr less1 less2 x sorted
      (fun y hy => h x (by simp) y (by simp [hy]))]
    apply ih
    intro a ha b hb
    have sub : ∀ c, c ∈ insertLeft less2 x sorted ++ rest → c ∈ sorted ++ x :: rest := by
      intro c hc
      rcases List.mem_append.mp hc with hc | hc
      · rcases List.mem_cons.mp ((insertLeft_perm less2 x sorted).subset hc) with hc | hc
        · simp [hc]
        · simp [hc]
      · simp [hc]
    exact h a (sub a ha) b (sub b hb)

theorem sliceStable_congr {α : Type} (less1 less2 : α → α → Bool) (l : List α)
    (h : ∀ a ∈ l, ∀ b ∈ l, less1 a b = less2 a b) : sliceStable less1 l = sliceStable less2 l :=
  insertionSortFrom_congr less1 less2 l [] (by simpa using h)

/-! ### The order of the keys -/

theorem strLess_irrefl : ∀ s : GoString, strLess s s = false
  | [] => rfl
  | a :: s => by simp [strLess, strLess_irrefl s]

theorem strLess_asymm : ∀ s t : GoString, strLess s t = true → strLess t s = false
  | _, [] => by simp [strLess]
  | [], _ :: _ => by simp [strLess]
  | a :: s, b :: t => by
    intro h
    simp only [strLess] at h ⊢
    by_cases h1 : a < b
    · have h2 : ¬ b < a := by omega
      simp [h2, h1]
    · by_cases h2 : b < a
      · simp [h1, h2] at h
      · simp only [h1, h2, if_false] at h ⊢
        exact strLess_asymm s t h

theorem strLess_negtrans : ∀ s t u : GoString,
    strLess s t = false → strLess t u = false → strLess s u = false
  | _, _, [] => by simp [strLess]
  | _, [], _ :: _ => by simp [strLess]
  | [], _ :: _, _ :: _ => by simp [strLess]
  | a :: s, b :: t, c :: u => by
    intro h1 h2
    simp only [strLess] at h1 h2 ⊢
    by_cases hab : a < b
    · simp [hab] at h1
    · by_cases hbc : b < c
      · simp [hbc] at h2
      · have hac : ¬ a < c := by omega
        simp only [hab, hbc, hac, if_false] at h1 h2 ⊢
        by_cases hba : b < a
        · have hca : c < a := by omega
          simp [hca]
        · by_cases hcb : c < b
          · have hca : c < a := by omega
            simp [hca]
          · have hca : ¬ c < a := by omega
            simp only [hba, hcb, hca, if_false] at h1 h2 ⊢
            exact strLess_negtrans s t u h1 h2

theorem SortKey.less_iff (a b : SortKey) :
    a.less b = true ↔
      a.bucket < b.bucket ∨ (a.bucket = b.bucket ∧
        (a.healthLatency < b.healthLatency ∨ (a.healthLatency = b.healthLatency ∧
          (a.latency < b.latency ∨ (a.latency = b.latency ∧
            strLess a.name b.name = true))))) := by
  simp [SortKey.less]

theorem SortKey.less_irrefl (a : SortKey) : a.less a = false := by
  rw [← Bool.not_eq_true, SortKey.less_iff]
  simp [strLess_irrefl]

theorem SortKey.less_asymm (a b : SortKey) (h : a.less b = true) : b.less a = false := by
  rw [← Bool.not_eq_true, SortKey.less_iff]
  rw [SortKey.less_iff] at h
  have hs := strLess_asymm a.name b.name
  intro h2
  rcases h with h | ⟨e1, h | ⟨e2, h | ⟨e3, h⟩⟩⟩ <;>
    rcases h2 with h2 | ⟨f1, h2 | ⟨f2, h2 | ⟨f3, h2⟩⟩⟩ <;> try omega
  rw [hs h] at h2
  exact Bool.noConfusion h2

theorem lex_negtrans (x y z : Int) (P Q R : Prop) (h : ¬ P → ¬ Q → ¬ R)
    (h1 : ¬ (x < y ∨ (x = y ∧ P))) (h2 : ¬ (y < z ∨ (y = z ∧ Q))) :
    ¬ (x < z ∨ (x = z ∧ R)) := by
  have a1 : ¬ x < y := fun c => h1 (Or.inl c)
  have a2 : ¬ y < z := fun c => h2 (Or.inl c)
  rintro (c | ⟨e, r⟩)
  · omega
  · by_cases e1 : x = y
    · have e2 : y = z := by omega
      exact h (fun p => h1 (Or.inr ⟨e1, p⟩)) (fun q => h2 (Or.inr ⟨e2, q⟩)) r
    · omega

theorem SortKey.less_negtrans (a b c : SortKey) (h1 : a.less b = false)
    (h2 : b.less c = false) : a.less c = false := by
  rw [← Bool.not_eq_true, SortKey.less_iff] at h1 h2 ⊢
  refine lex_negtrans _ _ _ _ _ _ ?_ h1 h2
  refine lex_negtrans _ _ _ _ _ _ ?_
  refine lex_negtrans _ _ _ _ _ _ ?_
  intro s1 s2
  simpa using strLess_negtrans a.name b.name c.name (by simpa using s1) (by simpa using s2)

theorem sortLess_eq_key (rt : Runtime) (withHTTP : Bool) (a b : proxyEntry) :
    sortLess rt withHTTP a b = (sortKey rt withHTTP a).less (sortKey rt withHTTP b) := by
  rw [Bool.eq_iff_iff, SortKey.less_iff]
  cases withHTTP
  · simp only [sortLess, sortKey, Bool.false_eq_true, false_and, if_false, lt_self_iff_false,
      true_and, false_or]
    by_cases h : probeLatencyOrMax a = probeLatencyOrMax b
    · simp [h]
    · simp only [ne_eq, h, not_false_eq_true, if_true, decide_eq_true_eq, false_and, or_false]
  · simp only [sortLess, sortKey, if_true, true_and]
    by_cases hb : healthBucket a = healthBucket b
    · simp only [ne_eq, hb, not_true_eq_false, if_false, lt_self_iff_false, true_and, false_or]
      by_cases h0 : healthBucket b = 0
      · simp only [h0, true_and, if_true]
        by_cases hl : a.httpLatency = b.httpLatency
        · simp only [hl, not_true_eq_false, if_false, lt_self_iff_false, true_and, false_or]
          by_cases h : probeLatencyOrMax a = probeLatencyOrMax b
          · simp [h]
          · simp only [ne_eq, h, not_false_eq_true, if_true, decide_eq_true_eq, false_and,
              or_false]
        · simp only [ne_eq, hl, not_false_eq_true, if_true, decide_eq_true_eq, false_and,
            or_false]
      · simp only [h0, false_and, if_false, lt_self_iff_false, true_and, false_or]
        by_cases h : probeLatencyOrMax a = probeLatencyOrMax b
        · simp [h]
        · simp only [ne_eq, h, not_false_eq_true, if_true, decide_eq_true_eq, false_and,
            or_false]
    · simp only [ne_eq, hb, not_false_eq_true, if_true, decide_eq_true_eq, false_and, or_false]

theorem sortEntries_sorted (rt : Runtime) (withHTTP : Bool) (entries : List proxyEntry) :
    (sortEntries rt entries withHTTP).Pairwise
      (fun p q => (sortKey rt withHTTP q).less (sortKey rt withHTTP p) = false) := by
  have h := sliceStable_sorted (sortLess rt withHTTP)
    (fun a b => by simpa only [sortLess_eq_key] using SortKey.less_asymm _ _)
    (fun a b c => by simpa only [sortLess_eq_key] using SortKey.less_negtrans _ _ _) entries
  simpa only [sortLess_eq_key] using h

theorem sortEntries_perm (rt : Runtime) (withHTTP : Bool) (entries : List proxyEntry) :
    (sortEntries rt entries withHTTP).Perm entries :=
  sliceStable_perm _ _

theorem sortEntries_filter_key (rt : Runtime) (withHTTP : Bool) (entries : List proxyEntry)
    (k : SortKey) :
    (sortEntries rt entries withHTTP).filter (fun e => decide (sortKey rt withHTTP e = k))
      = entries.filter (fun e => decide (sortKey rt withHTTP e = k)) := by
  apply sliceStable_filter
  intro x y hx hy
  rw [sortLess_eq_key, of_decide_eq_true hx, of_decide_eq_true hy]
  exact SortKey.less_irrefl k

theorem strLess_total : ∀ s t : GoString, strLess s t = false → strLess t s = false → s = t
  | [], [] => fun _ _ => rfl
  | [], _ :: _ => by simp [strLess]
  | _ :: _, [] => by simp [strLess]
  | a :: s, b :: t => by
    intro h1 h2
    simp only [strLess] at h1 h2
    by_cases hab : a < b
    · simp [hab] at h1
    · by_cases hba : b < a
      · simp [hba] at h2
      · simp only [hab, hba, if_false] at h1 h2
        have e : a = b := by omega
        rw [e, strLess_total s t h1 h2]

theorem SortKey.less_total (a b : SortKey) (h1 : a.less b = false) (h2 : b.less a = false) :
    a = b := by
  rw [← Bool.not_eq_true, SortKey.less_iff] at h1 h2
  have e1 : a.bucket = b.bucket := by
    have := fun c => h1 (Or.inl c)
    have := fun c => h2 (Or.inl c)
    omega
  have e2 : a.healthLatency = b.healthLatency := by
    have := fun c => h1 (Or.inr ⟨e1, Or.inl c⟩)
    have := fun c => h2 (Or.inr ⟨e1.symm, Or.inl c⟩)
    omega
  have e3 : a.latency = b.latency := by
    have := fun c => h1 (Or.inr ⟨e1, Or.inr ⟨e2, Or.inl c⟩⟩)
    have := fun c => h2 (Or.inr ⟨e1.symm, Or.inr ⟨e2.symm, Or.inl c⟩⟩)
    omega
  have e4 : a.name = b.name := by
    apply strLess_total
    · simpa using fun c => h1 (Or.inr ⟨e1, Or.inr ⟨e2, Or.inr ⟨e3, c⟩⟩⟩)
    · simpa using fun c => h2 (Or.inr ⟨e1.symm, Or.inr ⟨e2.symm, Or.inr ⟨e3.symm, c⟩⟩⟩)
  cases a
  cases b
  simp only at e1 e2 e3 e4
  simp [e1, e2, e3, e4]

/-- The sorted and stable arrangement of a list is unique: two lists that are both sorted
and have the same sub-list of elements for every key are equal. -/
theorem stable_sorted_unique {α κ : Type} [DecidableEq κ] (key : α → κ) (less : α → α → Bool)
    (hirr : ∀ a, less a a = false)
    (hkey : ∀ a b, less a b = false → less b a = false → key a = key b) :
    ∀ l1 l2 : List α, l1.Pairwise (fun p q => less q p = false) →
      l2.Pairwise (fun p q => less q p = false) →
      (∀ k, l1.filter (fun e => decide (key e = k)) = l2.filter (fun e => decide (key e = k))) →
      l1 = l2
  | [], [], _, _, _ => rfl
  | [], y :: t2, _, _, hf => by
    have := hf (key y)
    simp [List.filter_cons] at this
  | x :: t1, [], _, _, hf => by
    have := hf (key x)
    simp [List.filter_cons] at this
  | x :: t1, y :: t2, hs1, hs2, hf => by
    rw [List.pairwise_cons] at hs1 hs2
    have hx : x ∈ y :: t2 := by
      have : x ∈ (y :: t2).filter (fun e => decide (key e = key x)) := by
        rw [← hf (key x)]
        simp [List.filter_cons]
      exact (List.mem_filter.mp this).1
    have hy : y ∈ x :: t1 := by
      have : y ∈ (x :: t1).filter (fun e => decide (key e = key y)) := by
        rw [hf (key y)]
        simp [List.filter_cons]
      exact (List.mem_filter.mp this).1
    have hyx : less y x = false := by
      rcases List.mem_cons.mp hy with e | hm
      · rw [e]
        exact hirr x
      · exact hs1.1 y hm
    have hxy : less x y = false := by
      rcases List.mem_cons.mp hx with e | hm
      · rw [e]
        exact hirr y
      · exact hs2.1 x hm
    have hk : key x = key y := hkey x y hxy hyx
    have hhead := hf (key x)
    simp only [List.filter_cons, decide_True, if_true, hk] at hhead
    have hxy2 : x = y := (List.cons.inj hhead).1
    subst hxy2
    have htail : t1 = t2 := by
      apply stable_sorted_unique key less hirr hkey t1 t2 hs1.2 hs2.2
      intro k
      have h := hf k
      simp only [List.filter_cons] at h
      by_cases e : key x = k
      · simp only [e, decide_True, if_true] at h
        exact (List.cons.inj h).2
      · simpa only [e, decide_False, Bool.false_eq_true, if_false] using h
    rw [htail]

/-- Every list that is sorted by the ordering key and keeps, for every key, the candidates
of the input with that key in their order, is the list that `sortEntries` returns. -/
theorem sortEntries_unique (rt : Runtime) (withHTTP : Bool) (entries out : List proxyEntry)
    (hs : out.Pairwise
      (fun p q => (sortKey rt withHTTP q).less (sortKey rt withHTTP p) = false))
    (hf : ∀ k, out.filter (fun e => decide (sortKey rt withHTTP e = k))
      = entries.filter (fun e => decide (sortKey rt withHTTP e = k))) :
    out = sortEntries rt entries withHTTP :=
  stable_sorted_unique (sortKey rt withHTTP)
    (fun a b => (sortKey rt withHTTP a).less (sortKey rt withHTTP b))
    (fun _ => SortKey.less_irrefl _) (fun _ _ h1 h2 => SortKey.less_total _ _ h1 h2)
    out (sortEntries rt entries withHTTP) hs (sortEntries_sorted rt withHTTP entries)
    (fun k => (hf k).trans (sortEntries_filter_key rt withHTTP entries k).symm)

theorem pairwise_getElem? {α : Type} (R : α → α → Prop) (l : List α) (h : l.Pairwise R)
    (i j : Nat) (a b : α) (hij : i < j) (ha : l[i]? = some a) (hb : l[j]? = some b) :
    R a b := by
  obtain ⟨hi, rfl⟩ := List.getElem?_eq_some.mp ha
  obtain ⟨hj, rfl⟩ := List.getElem?_eq_some.mp hb
  exact List.pairwise_iff_getElem.mp h i j hi hj hij

/-- C13: after `sortEntries` the list holds the same candidates and is ordered by the key
(health bucket and health latency where consulted, reachability latency or sentinel,
lower-cased name) compared lexicographically: for all positions i < j the key of the entry
at j is not smaller than the key of the entry at i. -/
theorem sortEntries_ordered_by_key (rt : Runtime) (healthEnabled : Bool)
    (entries : List proxyEntry) :
    (sortEntries rt entries healthEnabled).Perm entries ∧
    ∀ (i j : Nat) (a b : proxyEntry), i < j →
      (sortEntries rt entries healthEnabled)[i]? = some a →
      (sortEntries rt entries healthEnabled)[j]? = some b →
      (sortKey rt healthEnabled b).less (sortKey rt healthEnabled a) = false :=
  ⟨sortEntries_perm rt healthEnabled entries, fun i j a b hij ha hb =>
    pairwise_getElem? _ _ (sortEntries_sorted rt healthEnabled entries) i j a b hij ha hb⟩

theorem sortEntries_ordered_by_key_witness :
    (sortEntries exampleRuntime [candidateB, slowCandidate, candidateA] true)[0]?
        = some candidateA ∧
      (sortEntries exampleRuntime [candidateB, slowCandidate, candidateA] true)[2]?
        = some slowCandidate ∧
      (sortKey exampleRuntime true slowCandidate).less (sortKey exampleRuntime true candidateA)
        = false :=
  ⟨by decide, by decide,
    (sortEntries_ordered_by_key exampleRuntime true [candidateB, slowCandidate, candidateA]).2
      0 2 candidateA slowCandidate (by decide) (by decide) (by decide)⟩

/-- C14: ranking is stable: for every key, the candidates with that key are after
`sortEntries` the same and in the same order as before it; in particular two candidates
with equal keys keep their relative order. -/
theorem sortEntries_stable (rt : Runtime) (healthEnabled : Bool) (entries : List proxyEntry) :
    (∀ k, (sortEntries rt entries healthEnabled).filter
        (fun e => decide (sortKey rt healthEnabled e = k))
      = entries.filter (fun e => decide (sortKey rt healthEnabled e = k))) ∧
    ∀ a b, sortKey rt healthEnabled a = sortKey rt healthEnabled b →
      (sortEntries rt entries healthEnabled).filter (fun e => decide (e = a ∨ e = b))
        = entries.filter (fun e => decide (e = a ∨ e = b)) := by
  refine ⟨sortEntries_filter_key rt healthEnabled entries, ?_⟩
  intro a b hab
  have key : ∀ l : List proxyEntry, l.filter (fun e => decide (e = a ∨ e = b))
      = (l.filter (fun e => decide (sortKey rt healthEnabled e = sortKey rt healthEnabled a))).filter
          (fun e => decide (e = a ∨ e = b)) := by
    intro l
    rw [List.filter_filter]
    apply List.filter_congr
    intro e _
    by_cases h : e = a ∨ e = b
    · have : sortKey rt healthEnabled e = sortKey rt healthEnabled a := by
        rcases h with h | h
        · rw [h]
        · rw [h, hab]
      simp [h, this]
    · simp [h]
  rw [key, key entries, sortEntries_filter_key]

theorem sortEntries_stable_witness :
    sortKey exampleRuntime false { candidateA with httpStatus := 204 }
        = sortKey exampleRuntime false candidateA ∧
      (sortEntries exampleRuntime [{ candidateA with httpStatus := 204 }, candidateB, candidateA]
          false).filter
          (fun e => decide (e = { candidateA with httpStatus := 204 } ∨ e = candidateA))
        = [{ candidateA with httpStatus := 204 }, candidateA] :=
  ⟨by decide,
    (sortEntries_stable exampleRuntime false
      [{ candidateA with httpStatus := 204 }, candidateB, candidateA]).2
      { candidateA with httpStatus := 204 } candidateA (by decide)⟩

theorem sortLess_false_congr (rt : Runtime) (a b c d : proxyEntry) (h1 : sameForRanking a c)
    (h2 : sameForRanking b d) : sortLess rt false a b = sortLess rt false c d := by
  obtain ⟨n1, t1, l1, p1⟩ := h1
  obtain ⟨n2, t2, l2, p2⟩ := h2
  simp [sortLess, probeLatencyOrMax, n1, t1, l1, p1, n2, t2, l2, p2]

theorem forall₂_zip {α : Type} (R : α → α → Prop) (l1 l2 : List α) (h : List.Forall₂ R l1 l2) :
    l1.length = l2.length ∧ ∀ p ∈ l1.zip l2, R p.1 p.2 := by
  induction h with
  | nil => simp
  | cons hab _ ih =>
    refine ⟨by simp [ih.1], ?_⟩
    intro p hp
    rw [List.zip_cons_cons] at hp
    rcases List.mem_cons.mp hp with e | hm
    · rw [e]
      exact hab
    · exact ih.2 p hm

/-- C15: with health disabled the ranking does not consult the health fields: two lists
whose entries agree position by position on the display name and on the reachability fields
are rearranged in the same way, so the pairs of corresponding entries stay together. -/
theorem sortEntries_ignores_health (rt : Runtime) (l1 l2 : List proxyEntry)
    (h : List.Forall₂ sameForRanking l1 l2) :
    ∃ pairs : List (proxyEntry × proxyEntry), pairs.Perm (l1.zip l2) ∧
      pairs.map Prod.fst = sortEntries rt l1 false ∧
      pairs.map Prod.snd = sortEntries rt l2 false := by
  obtain ⟨hlen, hmem⟩ := forall₂_zip _ l1 l2 h
  refine ⟨sliceStable (fun p q => sortLess rt false p.1 q.1) (l1.zip l2),
    sliceStable_perm _ _, ?_, ?_⟩
  · rw [sliceStable_map (sortLess rt false) Prod.fst, List.map_fst_zip _ _ (le_of_eq hlen)]
    rfl
  · rw [sliceStable_congr (fun p q => sortLess rt false p.1 q.1)
      (fun p q => sortLess rt false p.2 q.2) (l1.zip l2)
      (fun p hp q hq => sortLess_false_congr rt _ _ _ _ (hmem p hp) (hmem q hq)),
      sliceStable_map (sortLess rt false) Prod.snd,
      List.map_snd_zip _ _ (le_of_eq hlen.symm)]
    rfl

theorem sortEntries_ignores_health_witness :
    List.Forall₂ sameForRanking [candidateA, candidateB]
        [{ candidateA with httpOK := false }, { candidateB with httpOK := true }] ∧
      ∃ pairs : List (proxyEntry × proxyEntry),
        pairs.Perm ([candidateA, candidateB].zip
          [{ candidateA with httpOK := false }, { candidateB with httpOK := true }]) ∧
        pairs.map Prod.fst = sortEntries exampleRuntime [candidateA, candidateB] false ∧
        pairs.map Prod.snd = sortEntries exampleRuntime
          [{ candidateA with httpOK := false }, { candidateB with httpOK := true }] false :=
  ⟨List.Forall₂.cons ⟨rfl, rfl, rfl, rfl⟩ (List.Forall₂.cons ⟨rfl, rfl, rfl, rfl⟩ List.Forall₂.nil),
    sortEntries_ignores_health exampleRuntime [candidateA, candidateB]
      [{ candidateA with httpOK := false }, { candidateB with httpOK := true }]
      (List.Forall₂.cons ⟨rfl, rfl, rfl, rfl⟩
        (List.Forall₂.cons ⟨rfl, rfl, rfl, rfl⟩ List.Forall₂.nil))⟩

theorem healthBucket_eq_zero (e : proxyEntry) :
    healthBucket e = 0 ↔ healthSucceeded e = true := by
  unfold healthBucket healthSucceeded
  by_cases h : e.httpTested = true ∧ e.httpOK = true
  · simp [h]
  · rw [if_neg h]
    constructor
    · intro h2
      split at h2 <;> omega
    · intro h2
      exact absurd (by simpa using h2) h

/-- C16: with health enabled every candidate whose health probe succeeded stands after
`sortEntries` before every candidate whose health probe did not succeed; the candidates A
(health ok, 200, 50 ms) and B (health failed, timeout) rank as A, B from either order. -/
theorem sortEntries_health_first (rt : Runtime) :
    (∀ (entries : List proxyEntry) (i j : Nat) (a b : proxyEntry),
      (sortEntries rt entries true)[i]? = some a → (sortEntries rt entries true)[j]? = some b →
      healthSucceeded a = true → healthSucceeded b = false → i < j) ∧
    sortEntries rt [candidateA, candidateB] true = [candidateA, candidateB] ∧
    sortEntries rt [candidateB, candidateA] true = [candidateA, candidateB] := by
  refine ⟨?_, rfl, rfl⟩
  intro entries i j a b ha hb hsa hsb
  by_contra hij
  have hne : i ≠ j := by
    intro e
    rw [e, hb] at ha
    cases ha
    rw [hsa] at hsb
    exact Bool.noConfusion hsb
  have hji : j < i := by omega
  have hs := pairwise_getElem? _ _ (sortEntries_sorted rt true entries) j i b a hji hb ha
  rw [← Bool.not_eq_true, SortKey.less_iff] at hs
  have h0 : healthBucket a = 0 := (healthBucket_eq_zero a).mpr hsa
  have hb0 : healthBucket b ≠ 0 := by
    intro e
    rw [(healthBucket_eq_zero b).mp e] at hsb
    exact Bool.noConfusion hsb
  have hb1 : 0 ≤ healthBucket b := by
    unfold healthBucket
    split
    · omega
    · split <;> omega
  apply hs
  left
  simp only [sortKey, if_true]
  omega

theorem sortEntries_health_first_witness :
    (sortEntries exampleRuntime [candidateB, slowCandidate, candidateA] true)[0]?
        = some candidateA ∧
      (sortEntries exampleRuntime [candidateB, slowCandidate, candidateA] true)[1]?
        = some candidateB ∧ 0 < 1 :=
  ⟨by decide, by decide,
    (sortEntries_health_first exampleRuntime).1 [candidateB, slowCandidate, candidateA] 0 1
      candidateA candidateB (by decide) (by decide) (by decide) (by decide)⟩

/-- C17 as stated fails: candidate B has a health probe that was attempted and failed and a
successful reachability probe, and `healthBucket` puts it into bucket 1, not 2. -/
theorem healthBucket_attempted_counterexample :
    candidateB.httpTested = true ∧ candidateB.httpOK = false ∧
      candidateB.httpErr = bytes "timeout" ∧ measured candidateB = true ∧
      healthBucket candidateB = 1 ∧
      ¬ (healthBucket candidateB = 1 ↔
          (candidateB.httpTested = false ∧ measured candidateB = true)) := by
  decide

/-- C17, amended: `healthBucket` returns 0 exactly when the health probe succeeded, 1
exactly when it did not succeed (not attempted, failed or skipped) and the reachability
probe succeeded, and 2 exactly when neither succeeded. -/
theorem healthBucket_spec (e : proxyEntry) :
    (healthBucket e = 0 ↔ healthSucceeded e = true) ∧
    (healthBucket e = 1 ↔ (healthSucceeded e = false ∧ measured e = true)) ∧
    (healthBucket e = 2 ↔ (healthSucceeded e = false ∧ measured e = false)) ∧
    (healthBucket e = 0 ∨ healthBucket e = 1 ∨ healthBucket e = 2) := by
  unfold healthBucket healthSucceeded measured
  by_cases h1 : e.httpTested = true ∧ e.httpOK = true
  · simp [h1]
  · by_cases h2 : e.tested = true ∧ e.probeErr = []
    · rw [if_neg h1, if_pos h2]
      have : (e.httpTested && e.httpOK) = false := by simpa using h1
      simp [this, h2]
    · rw [if_neg h1, if_neg h2]
      have h3 : (e.httpTested && e.httpOK) = false := by simpa using h1
      have h4 : (e.tested && decide (e.probeErr = [])) = false := by simpa using h2
      simp [h3, h4]

/-- C18 fails on the code: a candidate measured at 12 seconds (a probe timeout above 10
seconds is accepted) is ranked after a candidate whose reachability probe failed, because
the sentinel is 10 seconds: with health disabled, and with health enabled when both are in
bucket 0 with equal health latency. -/
theorem sortEntries_sentinel_overtaken (rt : Runtime) :
    measured slowCandidate = true ∧ measured failedCandidate = false ∧
      sortEntries rt [slowCandidate, failedCandidate] false
        = [failedCandidate, slowCandidate] ∧
      healthBucket { slowCandidate with httpTested := true, httpOK := true } = 0 ∧
      healthBucket { failedCandidate with httpTested := true, httpOK := true } = 0 ∧
      sortEntries rt [{ slowCandidate with httpTested := true, httpOK := true },
          { failedCandidate with httpTested := true, httpOK := true }] true
        = [{ failedCandidate with httpTested := true, httpOK := true },
            { slowCandidate with httpTested := true, httpOK := true }] :=
  ⟨rfl, rfl, rfl, rfl, rfl, rfl⟩

/-- The ranking of unmeasured candidates is right below the sentinel: after `sortEntries`
no candidate without a successful reachability measurement stands before a candidate of the
same bucket (and equal health latency in bucket 0) that was measured below 10 seconds. -/
theorem sortEntries_unmeasured_last (rt : Runtime) (healthEnabled : Bool)
    (entries : List proxyEntry) (i j : Nat) (a b : proxyEntry)
    (ha : (sortEntries rt entries healthEnabled)[i]? = some a)
    (hb : (sortEntries rt entries healthEnabled)[j]? = some b)
    (hma : measured a = false) (hmb : measured b = true) (hlat : b.latency < 10 * second)
    (hbucket : healthEnabled = true → healthBucket a = healthBucket b)
    (hhealth : healthEnabled = true → healthBucket a = 0 → a.httpLatency = b.httpLatency) :
    j < i := by
  by_contra hji
  have hne : i ≠ j := by
    intro e
    rw [e, hb] at ha
    cases ha
    rw [hma] at hmb
    exact Bool.noConfusion hmb
  have hij : i < j := by omega
  have hs := pairwise_getElem? _ _ (sortEntries_sorted rt healthEnabled entries) i j a b hij ha hb
  rw [← Bool.not_eq_true, SortKey.less_iff] at hs
  have hla : probeLatencyOrMax a = 10 * second := by
    unfold probeLatencyOrMax
    have : ¬ (a.tested = true ∧ a.probeErr = []) := by simpa [measured] using hma
    rw [if_neg this]
  have hlb : probeLatencyOrMax b = b.latency := by
    unfold probeLatencyOrMax
    have : a.tested = a.tested := rfl
    have : b.tested = true ∧ b.probeErr = [] := by simpa [measured] using hmb
    rw [if_pos this]
  apply hs
  cases healthEnabled
  · right
    refine ⟨rfl, Or.inr ⟨rfl, Or.inl ?_⟩⟩
    simp only [sortKey]
    omega
  · right
    have e1 := hbucket rfl
    refine ⟨by simp [sortKey, e1], Or.inr ⟨?_, Or.inl ?_⟩⟩
    · simp only [sortKey, true_and, ← e1]
      by_cases h0 : healthBucket a = 0
      · simp [h0, hhealth rfl h0]
      · simp [h0]
    · simp only [sortKey]
      omega

theorem sortEntries_unmeasured_last_example :
    (sortEntries exampleRuntime [failedCandidate, candidateB] false)[0]? = some candidateB ∧
      (sortEntries exampleRuntime [failedCandidate, candidateB] false)[1]?
        = some failedCandidate ∧ 0 < 1 :=
  ⟨by decide, by decide,
    sortEntries_unmeasured_last exampleRuntime false [failedCandidate, candidateB] 1 0
      failedCandidate candidateB (by decide) (by decide) (by decide) (by decide) (by decide)
      (by decide) (by decide)⟩

/-! ### Parsing a link -/

theorem unescape_fragment : ∀ s : GoString, unescape .encodeFragment s = percentDecode s
  | [] => rfl
  | [b] => by
    by_cases h : b = 37
    · simp [unescape, percentDecode, h]
    · by_cases h2 : b = 43 <;> simp [unescape, percentDecode, h, h2]
  | b :: h :: rest => by
    have ih := unescape_fragment (h :: rest)
    by_cases hb : b = 37
    · cases rest with
      | nil => simp [unescape, percentDecode, hb]
      | cons l more =>
        have ih2 := unescape_fragment more
        simp only [unescape, percentDecode, hb, if_true]
        by_cases hx : (isHex h && isHex l) = true
        · simp [hx, ih2]
        · simp [hx]
    · unfold unescape percentDecode
      by_cases h2 : b = 43 <;> simp [hb, h2, ih]

theorem unescape_query : ∀ s : GoString, unescape .encodeQueryComponent s = queryUnescape s
  | [] => rfl
  | [b] => by
    by_cases h : b = 37
    · simp [unescape, queryUnescape, h]
    · by_cases h2 : b = 43 <;> simp [unescape, queryUnescape, h, h2]
  | b :: h :: rest => by
    have ih := unescape_query (h :: rest)
    by_cases hb : b = 37
    · cases rest with
      | nil => simp [unescape, queryUnescape, hb]
      | cons l more =>
        have ih2 := unescape_query more
        simp only [unescape, queryUnescape, hb, if_true]
        by_cases hx : (isHex h && isHex l) = true
        · simp [hx, ih2]
        · simp [hx]
    · unfold unescape queryUnescape
      by_cases h2 : b = 43 <;> simp [hb, h2, ih]

theorem queryUnescape_plain : ∀ s : GoString, 37 ∉ s → 43 ∉ s → queryUnescape s = some s
  | [], _, _ => rfl
  | b :: rest, h1, h2 => by
    have hb1 : b ≠ 37 := fun e => h1 (by simp [e])
    have hb2 : b ≠ 43 := fun e => h2 (by simp [e])
    have ih := queryUnescape_plain rest (fun m => h1 (List.mem_cons_of_mem _ m))
      (fun m => h2 (List.mem_cons_of_mem _ m))
    unfold queryUnescape
    simp [hb1, hb2, ih]

theorem parse_fragment (u : GoString) (url : URL) (h : parse u = some url) :
    url.Fragment = [] := by
  unfold parse at h
  split at h
  · exact absurd h (by simp)
  · split at h
    · cases h
      rfl
    · split at h
      · exact absurd h (by simp)
      · simp only at h
        split at h
        · cases h
          rfl
        · split at h
          · exact absurd h (by simp)
          · split at h
            · split at h
              · exact absurd h (by simp)
              · split at h
                · exact absurd h (by simp)
                · cases h
                  rfl
            · split at h
              · exact absurd h (by simp)
              · cases h
                rfl

theorem parseURL_fragment (raw : GoString) (uri : URL) (h : parseURL raw = some uri) :
    percentDecode (writtenFragment raw) = some uri.Fragment := by
  unfold parseURL urlParse at h
  unfold writtenFragment
  simp only at h
  cases hp : parse (cutByte 35 (trimSpace raw)).1 with
  | none => simp [hp] at h
  | some url =>
    simp only [hp] at h
    by_cases hf : (cutByte 35 (trimSpace raw)).2 = []
    · rw [if_pos hf] at h
      cases h
      rw [hf, parse_fragment _ _ hp]
      rfl
    · rw [if_neg hf, unescape_fragment] at h
      cases hd : percentDecode (cutByte 35 (trimSpace raw)).2 with
      | none => simp [hd] at h
      | some f =>
        simp only [hd, Option.map_some', Option.some.injEq] at h
        rw [← h]

/-- C12 as stated fails: the link `vless://id@example.org:443#%20Alpha` parses, its fragment
as written is `%20Alpha`, whose percent-decoding is ` Alpha` with a leading space, and
`buildDisplayName` returns `Alpha`, because it trims the fragment. -/
theorem buildDisplayName_trim_counterexample :
    ∃ uri, parseURL (bytes "vless://id@example.org:443#%20Alpha") = some uri ∧
      writtenFragment (bytes "vless://id@example.org:443#%20Alpha") = bytes "%20Alpha" ∧
      percentDecode (bytes "%20Alpha") = some (bytes " Alpha") ∧
      buildDisplayName (some uri) = bytes "Alpha" ∧
      buildDisplayName (some uri) ≠ bytes " Alpha" :=
  ⟨{ Scheme := bytes "vless",
     User := some { username := bytes "id", password := [], passwordSet := false },
     Host := bytes "example.org:443", RawQuery := [], Fragment := bytes " Alpha" },
    by decide, by decide, by decide, by decide, by decide⟩

/-- C12, amended: for every link that parses, the fragment as written percent-decodes to
the fragment of the parsed URL; with f that text trimmed of surrounding white space, when f
is non-empty and holds no `%` and no `+` the display name is f, and when f is empty (no
fragment or a blank one) it is `host:port`, with port 443 when the link has no port. -/
theorem buildDisplayName_spec (raw : GoString) (uri : URL) (h : parseURL raw = some uri) :
    percentDecode (writtenFragment raw) = some uri.Fragment ∧
    ∀ decoded, percentDecode (writtenFragment raw) = some decoded →
      (trimSpace decoded ≠ [] → 37 ∉ trimSpace decoded → 43 ∉ trimSpace decoded →
        buildDisplayName (some uri) = trimSpace decoded) ∧
      (trimSpace decoded = [] → buildDisplayName (some uri) = hostPortName uri) := by
  have hf := parseURL_fragment raw uri h
  refine ⟨hf, ?_⟩
  intro decoded hd
  rw [hf] at hd
  cases hd
  constructor
  · intro hne h1 h2
    simp only [buildDisplayName, hne, ne_eq, not_false_eq_true, if_true,
      queryUnescape_plain _ h1 h2]
  · intro he
    simp [buildDisplayName, he, hostPortName]

theorem buildDisplayName_spec_witness :
    buildDisplayName (some
        { Scheme := bytes "vless",
          User := some { username := bytes "id", password := [], passwordSet := false },
          Host := bytes "example.org:8443", RawQuery := [], Fragment := bytes " Alpha " })
      = bytes "Alpha" ∧
    buildDisplayName (some
        { Scheme := bytes "vless",
          User := some { username := bytes "id", password := [], passwordSet := false },
          Host := bytes "example.org", RawQuery := [], Fragment := bytes " " })
      = bytes "example.org:443" :=
  ⟨((buildDisplayName_spec (bytes "vless://id@example.org:8443#%20Alpha%20") _
      (by decide)).2 (bytes " Alpha ") (by decide)).1 (by decide) (by decide) (by decide),
   ((buildDisplayName_spec (bytes "vless://id@example.org#%20") _
      (by decide)).2 (bytes " ") (by decide)).2 (by decide)⟩

/-- The fragment is unescaped a second time, as a query component: a `+` written in the
fragment becomes a space, and an escaped percent sign is decoded twice. -/
theorem buildDisplayName_second_unescape :
    (parseURL (bytes "vless://id@example.org#A+B")).map (fun u => buildDisplayName (some u))
        = some (bytes "A B") ∧
      percentDecode (writtenFragment (bytes "vless://id@example.org#A+B")) = some (bytes "A+B") ∧
      (parseURL (bytes "vless://id@example.org#%2541")).map (fun u => buildDisplayName (some u))
        = some (bytes "A") ∧
      percentDecode (writtenFragment (bytes "vless://id@example.org#%2541"))
        = some (bytes "%41") := by
  decide

theorem getSchemeFrom_chars (rawURL : GoString) :
    ∀ (s : GoString) (i : Nat) (scheme rest : GoString),
      getSchemeFrom rawURL i s = some (scheme, rest) → rawURL.drop i = s →
      (∀ c ∈ rawURL.take i, c < 128) → ∀ c ∈ scheme, c < 128
  | [], _, scheme, rest, h, _, _ => by
    simp only [getSchemeFrom, Option.some.injEq, Prod.mk.injEq] at h
    rw [← h.1]
    simp
  | c :: tail, i, scheme, rest, h, hd, ht => by
    have hnext : rawURL.drop (i + 1) = tail := by
      rw [← List.drop_drop, hd]
      rfl
    have hstep : c < 128 → ∀ d ∈ rawURL.take (i + 1), d < 128 := by
      intro hc d hm
      have hsplit : rawURL.take (i + 1) = rawURL.take i ++ [c] := by
        have h1 : rawURL = rawURL.take i ++ (c :: tail) := by
          rw [← hd, List.take_append_drop]
        conv_lhs => rw [h1]
        rw [List.take_append_eq_append_take]
        have hlen : (rawURL.take i).length = i := by
          rw [List.length_take]
          have : i < rawURL.length := by
            by_contra hlt
            rw [List.drop_eq_nil_of_le (by omega)] at hd
            exact absurd hd (by simp)
          omega
        rw [hlen]
        simp
      rw [hsplit] at hm
      rcases List.mem_append.mp hm with hm | hm
      · exact ht d hm
      · rw [List.mem_singleton.mp hm]
        exact hc
    unfold getSchemeFrom at h
    by_cases hl : isLetter c = true
    · rw [if_pos hl] at h
      have hc : c < 128 := by
        simp only [isLetter, Bool.or_eq_true, Bool.and_eq_true, decide_eq_true_eq] at hl
        omega
      exact getSchemeFrom_chars rawURL tail (i + 1) scheme rest h hnext (hstep hc)
    · rw [if_neg hl] at h
      by_cases hdg : isDigit c = true ∨ c = 43 ∨ c = 45 ∨ c = 46
      · rw [if_pos hdg] at h
        by_cases hi : i = 0
        · rw [if_pos hi] at h
          simp only [Option.some.injEq, Prod.mk.injEq] at h
          rw [← h.1]
          simp
        · rw [if_neg hi] at h
          have hc : c < 128 := by
            simp only [isDigit, Bool.and_eq_true, decide_eq_true_eq] at hdg
            omega
          exact getSchemeFrom_chars rawURL tail (i + 1) scheme rest h hnext (hstep hc)
      · rw [if_neg hdg] at h
        by_cases hcol : c = 58
        · rw [if_pos hcol] at h
          by_cases hi : i = 0
          · rw [if_pos hi] at h
            exact absurd h (by simp)
          · rw [if_neg hi] at h
            simp only [Option.some.injEq, Prod.mk.injEq] at h
            rw [← h.1]
            exact ht
        · rw [if_neg hcol] at h
          simp only [Option.some.injEq, Prod.mk.injEq] at h
          rw [← h.1]
          simp

theorem toLower_lowerASCII (rt : Runtime) (s : GoString) (h : ∀ c ∈ s, c < 128) :
    toLower rt (lowerASCII s) = lowerASCII s := by
  have hall : (lowerASCII s).all (fun c => decide (c < 128)) = true := by
    rw [List.all_eq_true]
    intro c hc
    simp only [lowerASCII, List.mem_map] at hc
    obtain ⟨d, hd, rfl⟩ := hc
    have := h d hd
    simp only [decide_eq_true_eq]
    split <;> omega
  unfold toLower
  rw [if_pos hall]
  simp only [lowerASCII, List.map_map]
  apply List.map_congr_left
  intro c _
  simp only [Function.comp]
  split_ifs <;> omega

theorem parse_scheme (rt : Runtime) (u : GoString) (url : URL) (h : parse u = some url) :
    toLower rt url.Scheme = url.Scheme := by
  have nil : toLower rt [] = [] := by simp [toLower]
  unfold parse at h
  split at h
  · exact absurd h (by simp)
  · split at h
    · cases h
      exact nil
    · split at h
      · exact absurd h (by simp)
      · rename_i scheme afterScheme hs
        have hlow := toLower_lowerASCII rt scheme
          (getSchemeFrom_chars u u 0 scheme afterScheme hs rfl (by simp))
        simp only at h
        split at h
        · cases h
          exact hlow
        · split at h
          · exact absurd h (by simp)
          · split at h
            · split at h
              · exact absurd h (by simp)
              · split at h
                · exact absurd h (by simp)
                · cases h
                  exact hlow
            · split at h
              · exact absurd h (by simp)
              · cases h
                exact hlow

theorem parseURL_scheme (rt : Runtime) (raw : GoString) (uri : URL)
    (h : parseURL raw = some uri) : toLower rt uri.Scheme = uri.Scheme := by
  unfold parseURL urlParse at h
  simp only at h
  cases hp : parse (cutByte 35 (trimSpace raw)).1 with
  | none => simp [hp] at h
  | some url =>
    simp only [hp] at h
    have hs := parse_scheme rt _ url hp
    split at h
    · cases h
      exact hs
    · cases hd : unescape encoding.encodeFragment (cutByte 35 (trimSpace raw)).2 with
      | none => simp [hd] at h
      | some f =>
        simp only [hd, Option.map_some', Option.some.injEq] at h
        rw [← h]
        exact hs

theorem entriesOfLinks_eq (rt : Runtime) :
    ∀ links, entriesOfLinks rt links = (links.filter (acceptedLink rt)).map freshEntry
  | [] => rfl
  | raw :: rest => by
    have ih := entriesOfLinks_eq rt rest
    unfold entriesOfLinks
    rw [List.filter_cons]
    cases hp : parseURL raw with
    | none => simp [acceptedLink, hp, ih]
    | some uri =>
      have hs := parseURL_scheme rt raw uri hp
      simp only [hs]
      by_cases hv : uri.Scheme = bytes "vless"
      · cases hb : buildVLESSOutbound rt (some uri) with
        | error e => simp [acceptedLink, hp, hv, hb, ih]
        | ok out =>
          simp [acceptedLink, hp, hv, hb, ih, freshEntry, newEntry]
      · simp [acceptedLink, hp, hv, ih]

/-- C19: the candidate list built from a link list is the list of the links that parse as a
URL, have scheme `vless` and decode without error, in the order of the links, each as a
fresh candidate (raw link, display name, both probes untested); the build itself never
fails, so a body with at least one link gives a candidate list. A vless link with fragment
`Alpha` and a link of another scheme give exactly one candidate, named `Alpha`. -/
theorem entriesOfLinks_spec (rt : Runtime) :
    (∀ links, entriesOfLinks rt links = (links.filter (acceptedLink rt)).map freshEntry) ∧
    (∀ body, entriesOfBody rt body =
      if extractLinks rt body = [] then none
      else some (((extractLinks rt body).filter (acceptedLink rt)).map freshEntry)) ∧
    entriesOfLinks rt
        [bytes "vless://id@example.org:443#Alpha", bytes "trojan://pw@example.org:443#Beta"]
      = [freshEntry (bytes "vless://id@example.org:443#Alpha")] ∧
    (freshEntry (bytes "vless://id@example.org:443#Alpha")).name = bytes "Alpha" := by
  refine ⟨entriesOfLinks_eq rt, ?_, rfl, by decide⟩
  intro body
  unfold entriesOfBody
  simp only [entriesOfLinks_eq, List.length_eq_zero]

/-! ### The probes -/

theorem getElem?_modifyAt_eq {α : Type} (f : α → α) :
    ∀ (i : Nat) (l : List α), (modifyAt f i l)[i]? = l[i]?.map f
  | _, [] => by simp [modifyAt]
  | 0, x :: xs => by simp [modifyAt]
  | i + 1, x :: xs => by simpa [modifyAt] using getElem?_modifyAt_eq f i xs

theorem getElem?_modifyAt_ne {α : Type} (f : α → α) :
    ∀ (i j : Nat) (l : List α), j ≠ i → (modifyAt f i l)[j]? = l[j]?
  | _, _, [], _ => by simp [modifyAt]
  | 0, 0, x :: xs, h => absurd rfl h
  | 0, j + 1, x :: xs, _ => by simp [modifyAt]
  | i + 1, 0, x :: xs, _ => by simp [modifyAt]
  | i + 1, j + 1, x :: xs, h => by
    simpa [modifyAt] using getElem?_modifyAt_ne f i j xs (by omega)

theorem mem_modifyAt {α : Type} (f : α → α) (P : α → Prop) (hf : ∀ x, P x → P (f x)) :
    ∀ (i : Nat) (l : List α), (∀ x ∈ l, P x) → ∀ x ∈ modifyAt f i l, P x
  | _, [], _ => by simp [modifyAt]
  | 0, y :: ys, h => by
    intro x hx
    simp only [modifyAt, List.mem_cons] at hx
    rcases hx with e | hm
    · rw [e]
      exact hf y (h y (List.mem_cons_self _ _))
    · exact h x (List.mem_cons_of_mem _ hm)
  | i + 1, y :: ys, h => by
    intro x hx
    simp only [modifyAt, List.mem_cons] at hx
    rcases hx with e | hm
    · rw [e]
      exact h y (List.mem_cons_self _ _)
    · exact mem_modifyAt f P hf i ys (fun z hz => h z (List.mem_cons_of_mem _ hz)) x hm

theorem foldl_modifyAt_notin {α ρ : Type} (idx : ρ → Nat) (upd : ρ → α → α) (i : Nat) :
    ∀ (rs : List ρ) (es : List α), (∀ r ∈ rs, idx r ≠ i) →
      (rs.foldl (fun acc r => modifyAt (upd r) (idx r) acc) es)[i]? = es[i]?
  | [], _, _ => rfl
  | r :: rs, es, h => by
    simp only [List.foldl_cons]
    rw [foldl_modifyAt_notin idx upd i rs _ (fun r1 h1 => h r1 (List.mem_cons_of_mem _ h1)),
      getElem?_modifyAt_ne _ _ _ _ (h r (List.mem_cons_self _ _)).symm]

theorem foldl_modifyAt_unique {α ρ : Type} (idx : ρ → Nat) (upd : ρ → α → α) (i : Nat) (r : ρ)
    (hi : idx r = i) :
    ∀ (rs : List ρ) (es : List α), (rs.map idx).Nodup → r ∈ rs →
      (rs.foldl (fun acc r => modifyAt (upd r) (idx r) acc) es)[i]? = es[i]?.map (upd r)
  | [], _, _, hm => absurd hm (List.not_mem_nil _)
  | r0 :: rs, es, hn, hm => by
    simp only [List.map_cons, List.nodup_cons, List.mem_map, not_exists, not_and] at hn
    simp only [List.foldl_cons]
    rcases List.mem_cons.mp hm with e | hm1
    · subst e
      rw [foldl_modifyAt_notin idx upd i rs _ (fun r1 h1 e1 => hn.1 r1 h1 (e1.trans hi.symm)),
        ← hi, getElem?_modifyAt_eq]
    · have hne : i ≠ idx r0 := fun e => hn.1 r hm1 (hi.trans e)
      rw [foldl_modifyAt_unique idx upd i r hi rs _ hn.2 hm1,
        getElem?_modifyAt_ne _ _ _ _ hne]

theorem foldl_modifyAt_mem {α ρ : Type} (idx : ρ → Nat) (upd : ρ → α → α) (P : α → Prop)
    (hf : ∀ r x, P x → P (upd r x)) :
    ∀ (rs : List ρ) (es : List α), (∀ x ∈ es, P x) →
      ∀ x ∈ rs.foldl (fun acc r => modifyAt (upd r) (idx r) acc) es, P x
  | [], _, h => h
  | r :: rs, es, h => by
    simp only [List.foldl_cons]
    exact foldl_modifyAt_mem idx upd P hf rs _ (mem_modifyAt _ P (hf r) _ _ h)

/-- The health fields of a candidate have their zero value. -/
theorem entriesOfLinks_health_unset (rt : Runtime) (links : List GoString) :
    ∀ e ∈ entriesOfLinks rt links,
      e.httpTested = false ∧ e.httpOK = false ∧ e.httpStatus = 0 ∧ e.httpLatency = 0 ∧
        e.httpErr = [] := by
  induction links with
  | nil => simp [entriesOfLinks]
  | cons raw rest ih =>
    unfold entriesOfLinks
    split
    · exact ih
    · split
      · exact ih
      · split
        · exact ih
        · intro e he
          rcases List.mem_cons.mp he with e1 | hm
          · rw [e1]
            exact ⟨rfl, rfl, rfl, rfl, rfl⟩
          · exact ih e hm

theorem probeEntriesRTT_health (env : Environment) (entries : List proxyEntry)
    (timeout workers : Int) (P : proxyEntry → Prop)
    (hP : ∀ a b : proxyEntry, a.httpTested = b.httpTested → a.httpOK = b.httpOK →
      a.httpStatus = b.httpStatus → a.httpLatency = b.httpLatency → a.httpErr = b.httpErr →
      P a → P b)
    (h : ∀ e ∈ entries, P e) : ∀ e ∈ probeEntriesRTT env entries timeout workers, P e := by
  unfold probeEntriesRTT
  split
  · exact h
  · have hfold : recordRTT = fun acc (r : probeOutcome) =>
        modifyAt (setRTTOutcome r) r.index acc := rfl
    rw [hfold]
    apply foldl_modifyAt_mem (fun res : probeOutcome => res.index) setRTTOutcome P _ _ _ h
    intro res x hx
    unfold setRTTOutcome
    cases res.err with
    | none => exact hP x _ rfl rfl rfl rfl rfl hx
    | some err => exact hP x _ rfl rfl rfl rfl rfl hx

theorem normalizeHTTPProbeError_skip (rt : Runtime) :
    normalizeHTTPProbeError rt (some (errorsNew (bytes "skip"))) = bytes "skip" := rfl

theorem probeEntriesHTTP_skip (rt : Runtime) (env : Environment) (entries : List proxyEntry)
    (opts : options) (i : Nat) (e : proxyEntry) (h : entries[i]? = some e)
    (hp : e.probeErr ≠ []) (hs : e.httpStatus = 0) (hl : e.httpLatency = 0) :
    (probeEntriesHTTP rt env entries opts).entries[i]?
        = some { e with httpTested := true, httpErr := bytes "skip" } ∧
      i ∉ (probeEntriesHTTP rt env entries opts).probed := by
  have hlen : i < entries.length := by
    obtain ⟨hi, _⟩ := List.getElem?_eq_some.mp h
    exact hi
  have hmark : (markHTTPProbeSkipped entries)[i]?
      = some { e with httpTested := true, httpErr := bytes "skip" } := by
    simp [markHTTPProbeSkipped, h]
  unfold probeEntriesHTTP
  split
  · omega
  · split
    · exact ⟨hmark, by simp⟩
    · split
      · exact ⟨hmark, by simp⟩
      · simp only
        generalize hw : (workerCount opts.healthWorkers entries.length).toNat = w
        have hperm := env.httpArrival_perm w entries.length
        have hmem : i ∈ env.httpArrival w entries.length :=
          hperm.symm.subset (List.mem_range.mpr hlen)
        have hnd : (env.httpArrival w entries.length).Nodup :=
          hperm.symm.nodup (List.nodup_range _)
        constructor
        · have hjob : (httpJob env i e).1 ∈
              ((env.httpArrival w entries.length).filterMap (fun idx =>
                entries[idx]?.map (fun entry => httpJob env idx entry))).map
                  (fun job => job.1) := by
            refine List.mem_map.mpr ⟨httpJob env i e, ?_, rfl⟩
            exact List.mem_filterMap.mpr ⟨i, hmem, by simp [h]⟩
          have hidx : (httpJob env i e).1.index = i := by
            unfold httpJob
            split <;> rfl
          have hnodup : ((((env.httpArrival w entries.length).filterMap (fun idx =>
                entries[idx]?.map (fun entry => httpJob env idx entry))).map
                  (fun job => job.1)).map (fun res : httpProbeOutcome => res.index)).Nodup := by
            rw [List.map_map, List.map_filterMap]
            apply List.Nodup.filterMap _ hnd
            intro a a1 b hb hb1
            simp only [Option.mem_def, Option.map_eq_some', Function.comp] at hb hb1
            obtain ⟨x, ⟨y, _, rfl⟩, rfl⟩ := hb
            obtain ⟨x1, ⟨y1, _, rfl⟩, hx1⟩ := hb1
            have e1 : ∀ k (z : proxyEntry), (httpJob env k z).1.index = k := by
              intro k z
              unfold httpJob
              split <;> rfl
            rw [e1, e1] at hx1
            exact hx1.symm
          have hfold : recordHTTP rt = fun acc (r : httpProbeOutcome) =>
              modifyAt (setHTTPOutcome rt r) r.index acc := rfl
          rw [hfold, foldl_modifyAt_unique (fun res : httpProbeOutcome => res.index)
            (setHTTPOutcome rt) i (httpJob env i e).1 hidx _ entries hnodup hjob, h]
          simp only [httpJob, hp, ne_eq, not_false_eq_true, if_true, Option.map_some',
            setHTTPOutcome, normalizeHTTPProbeError_skip, hs, hl]
        · intro hin
          obtain ⟨job, hjob, hji⟩ := List.mem_map.mp hin
          obtain ⟨hjm, hflag⟩ := List.mem_filter.mp hjob
          obtain ⟨k, _, hk⟩ := List.mem_filterMap.mp hjm
          simp only [Option.map_eq_some'] at hk
          obtain ⟨z, hz, rfl⟩ := hk
          have e1 : (httpJob env k z).1.index = k := by
            unfold httpJob
            split <;> rfl
          rw [e1] at hji
          subst hji
          rw [h] at hz
          cases hz
          simp [httpJob, hp] at hflag

/-- C20: a candidate that leaves the reachability stage with a non-empty `probeErr` is
after `probeEntriesHTTP` skipped: `httpTested` is true, `httpErr` is `skip`, `httpOK` is
false, status code and health latency are 0, its other fields are unchanged, and
`probeEntryHTTP` was not called for it. -/
theorem probeEntriesHTTP_skips_failed (rt : Runtime) (env : Environment) (opts : options)
    (links : List GoString) (i : Nat) (e : proxyEntry)
    (h : (reachabilityStage env (entriesOfLinks rt links) opts)[i]? = some e)
    (hp : e.probeErr ≠ []) :
    ∃ after,
      (probeEntriesHTTP rt env (reachabilityStage env (entriesOfLinks rt links) opts)
        opts).entries[i]? = some after ∧
      after.httpTested = true ∧ after.httpErr = bytes "skip" ∧ after.httpOK = false ∧
      after.httpStatus = 0 ∧ after.httpLatency = 0 ∧
      after = { e with httpTested := true, httpErr := bytes "skip" } ∧
      i ∉ (probeEntriesHTTP rt env (reachabilityStage env (entriesOfLinks rt links) opts)
        opts).probed := by
  have hunset : e.httpTested = false ∧ e.httpOK = false ∧ e.httpStatus = 0 ∧
      e.httpLatency = 0 ∧ e.httpErr = [] := by
    apply probeEntriesRTT_health env (entriesOfLinks rt links) opts.probeTimeout
      opts.probeWorkers
      (fun x => x.httpTested = false ∧ x.httpOK = false ∧ x.httpStatus = 0 ∧
        x.httpLatency = 0 ∧ x.httpErr = [])
    · intro a b h1 h2 h3 h4 h5 ha
      rw [← h1, ← h2, ← h3, ← h4, ← h5]
      exact ha
    · exact entriesOfLinks_health_unset rt links
    · obtain ⟨hi, he⟩ := List.getElem?_eq_some.mp h
      rw [← he]
      exact List.getElem_mem _
  obtain ⟨_, hok, hs, hl, _⟩ := hunset
  obtain ⟨h1, h2⟩ := probeEntriesHTTP_skip rt env
    (reachabilityStage env (entriesOfLinks rt links) opts) opts i e h hp hs hl
  exact ⟨_, h1, rfl, rfl, hok, hs, hl, rfl, h2⟩

theorem probeEntriesHTTP_skips_failed_witness :
    ∃ after,
      (probeEntriesHTTP exampleRuntime exampleEnvironment
        (reachabilityStage exampleEnvironment
          (entriesOfLinks exampleRuntime [bytes "vless://id@example.org:443#Alpha"])
          exampleOptions)
        exampleOptions).entries[0]? = some after ∧
      after.httpTested = true ∧ after.httpErr = bytes "skip" ∧ after.httpOK = false ∧
      after.httpStatus = 0 ∧ after.httpLatency = 0 ∧
      after = { ({ freshEntry (bytes "vless://id@example.org:443#Alpha") with
          tested := true, probeErr := bytes "timeout" } : proxyEntry) with
        httpTested := true, httpErr := bytes "skip" } ∧
      0 ∉ (probeEntriesHTTP exampleRuntime exampleEnvironment
        (reachabilityStage exampleEnvironment
          (entriesOfLinks exampleRuntime [bytes "vless://id@example.org:443#Alpha"])
          exampleOptions)
        exampleOptions).probed :=
  probeEntriesHTTP_skips_failed exampleRuntime exampleEnvironment exampleOptions
    [bytes "vless://id@example.org:443#Alpha"] 0
    { freshEntry (bytes "vless://id@example.org:443#Alpha") with
      tested := true, probeErr := bytes "timeout" }
    (by decide) (by decide)

/-- The skipped state rests on the health fields being unset before the health stage, as
they are for every candidate of the pipeline: `probeEntriesHTTP` leaves `httpOK` of a
skipped candidate as it was. -/
theorem probeEntriesHTTP_keeps_httpOK :
    (probeEntriesHTTP exampleRuntime exampleEnvironment
        [{ failedCandidate with httpOK := true }] exampleOptions).entries
      = [{ failedCandidate with httpOK := true, httpTested := true, httpErr := bytes "skip" }] := by
  decide

/-- C28: the comparison used by `sortEntries` is a strict weak ordering for both values of
`healthEnabled` and all candidate states: it is irreflexive and transitive, and `neither is
less than the other` is transitive; so the sorted and stable arrangement of a list is
unique, and it is the list that `sortEntries` returns. -/
theorem sortLess_strict_weak_order (rt : Runtime) (healthEnabled : Bool) :
    (∀ a, sortLess rt healthEnabled a a = false) ∧
    (∀ a b c, sortLess rt healthEnabled a b = true → sortLess rt healthEnabled b c = true →
      sortLess rt healthEnabled a c = true) ∧
    (∀ a b c, (sortLess rt healthEnabled a b = false ∧ sortLess rt healthEnabled b a = false) →
      (sortLess rt healthEnabled b c = false ∧ sortLess rt healthEnabled c b = false) →
      (sortLess rt healthEnabled a c = false ∧ sortLess rt healthEnabled c a = false)) ∧
    (∀ entries out : List proxyEntry,
      out.Pairwise (fun p q => sortLess rt healthEnabled q p = false) →
      (∀ k, out.filter (fun e => decide (sortKey rt healthEnabled e = k))
        = entries.filter (fun e => decide (sortKey rt healthEnabled e = k))) →
      out = sortEntries rt entries healthEnabled) := by
  refine ⟨?_, ?_, ?_, ?_⟩
  · intro a
    rw [sortLess_eq_key]
    exact SortKey.less_irrefl _
  · intro a b c hab hbc
    rw [sortLess_eq_key] at hab hbc ⊢
    by_contra hac
    have hac : (sortKey rt healthEnabled a).less (sortKey rt healthEnabled c) = false := by
      simpa using hac
    have hcb := SortKey.less_asymm _ _ hbc
    have := SortKey.less_negtrans _ _ _ hac hcb
    rw [hab] at this
    exact Bool.noConfusion this
  · intro a b c hab hbc
    simp only [sortLess_eq_key] at hab hbc ⊢
    exact ⟨SortKey.less_negtrans _ _ _ hab.1 hbc.1, SortKey.less_negtrans _ _ _ hbc.2 hab.2⟩
  · intro entries out hs hf
    apply sortEntries_unique rt healthEnabled entries out _ hf
    simpa only [sortLess_eq_key] using hs

theorem sortLess_strict_weak_order_witness :
    sortLess exampleRuntime true candidateA slowCandidate = true ∧
      (sortLess exampleRuntime true candidateA { candidateA with httpStatus := 204 } = false ∧
        sortLess exampleRuntime true { candidateA with httpStatus := 204 } candidateA = false) ∧
      [candidateA, candidateB] = sortEntries exampleRuntime [candidateB, candidateA] true :=
  ⟨(sortLess_strict_weak_order exampleRuntime true).2.1 candidateA candidateB slowCandidate
      (by decide) (by decide),
    (sortLess_strict_weak_order exampleRuntime true).2.2.1 candidateA
      { candidateA with httpErr := bytes "x" } { candidateA with httpStatus := 204 }
      (by decide) (by decide),
    (sortLess_strict_weak_order exampleRuntime true).2.2.2 [candidateB, candidateA]
      [candidateA, candidateB] (by decide)
      (fun k => by
        have hne : sortKey exampleRuntime true candidateA ≠ sortKey exampleRuntime true candidateB :=
          by decide
        by_cases h1 : sortKey exampleRuntime true candidateA = k
        · have h2 : ¬ sortKey exampleRuntime true candidateB = k :=
            fun h2 => hne (h1.trans h2.symm)
          simp [List.filter, h1, h2]
        · by_cases h2 : sortKey exampleRuntime true candidateB = k
          · simp [List.filter, h1, h2]
          · simp [List.filter, h1, h2])⟩

/-- C29: `sortEntries` only rearranges: the result is a permutation of the input, so it has
the same length and holds every candidate, with all its fields, as often as the input. -/
theorem sortEntries_only_rearranges (rt : Runtime) (healthEnabled : Bool)
    (entries : List proxyEntry) :
    (sortEntries rt entries healthEnabled).Perm entries ∧
      (sortEntries rt entries healthEnabled).length = entries.length ∧
      (∀ e, (sortEntries rt entries healthEnabled).count e = entries.count e) ∧
      ∀ e, e ∈ sortEntries rt entries healthEnabled ↔ e ∈ entries :=
  ⟨sortEntries_perm rt healthEnabled entries, (sortEntries_perm rt healthEnabled entries).length_eq,
    fun e => (sortEntries_perm rt healthEnabled entries).count_eq e,
    fun _ => (sortEntries_perm rt healthEnabled entries).mem_iff⟩

/-! ### Coverage of the probes -/

theorem getElem?_mapFrom {α β : Type} (f : Nat → α → β) :
    ∀ (l : List α) (start i : Nat), (mapFrom f start l)[i]? = l[i]?.map (f (start + i))
  | [], _, _ => by simp [mapFrom]
  | x :: xs, start, 0 => by simp [mapFrom]
  | x :: xs, start, i + 1 => by
    simp only [mapFrom, List.getElem?_cons_succ]
    rw [getElem?_mapFrom f xs (start + 1) i]
    have e : start + 1 + i = start + (i + 1) := by omega
    rw [e]

theorem mem_mapFrom {α β : Type} (f : Nat → α → β) :
    ∀ (l : List α) (start : Nat) (y : β), y ∈ mapFrom f start l → ∃ i, ∃ x ∈ l, y = f i x
  | [], _, _, h => by simp [mapFrom] at h
  | x :: xs, start, y, h => by
    simp only [mapFrom, List.mem_cons] at h
    rcases h with e | hm
    · exact ⟨start, x, List.mem_cons_self _ _, e⟩
    · obtain ⟨i, z, hz, e⟩ := mem_mapFrom f xs (start + 1) y hm
      exact ⟨i, z, List.mem_cons_of_mem _ hz, e⟩

theorem length_mapFrom {α β : Type} (f : Nat → α → β) :
    ∀ (l : List α) (start : Nat), (mapFrom f start l).length = l.length
  | [], _ => rfl
  | x :: xs, start => by simp [mapFrom, length_mapFrom f xs]

theorem results_indexes {α ρ : Type} (idx : ρ → Nat) (g : Nat → α → ρ)
    (hg : ∀ i e, idx (g i e) = i) (es : List α) (arr : List Nat)
    (hperm : arr.Perm (List.range es.length)) :
    (arr.filterMap (fun i => es[i]?.map (g i))).map idx = arr := by
  have hin : ∀ i ∈ arr, i < es.length := fun i hi => List.mem_range.mp (hperm.subset hi)
  clear hperm
  induction arr with
  | nil => rfl
  | cons a rest ih =>
    have ha := hin a (List.mem_cons_self _ _)
    rw [List.filterMap_cons]
    simp only [List.getElem?_eq_getElem ha, Option.map_some', List.map_cons, hg]
    rw [ih (fun i hi => hin i (List.mem_cons_of_mem _ hi))]

theorem foldl_results {α ρ : Type} (idx : ρ → Nat) (upd : ρ → α → α) (g : Nat → α → ρ)
    (hg : ∀ i e, idx (g i e) = i) (es : List α) (arr : List Nat)
    (hperm : arr.Perm (List.range es.length)) :
    (arr.filterMap (fun i => es[i]?.map (g i))).foldl
        (fun acc r => modifyAt (upd r) (idx r) acc) es
      = mapFrom (fun i e => upd (g i e) e) 0 es := by
  have hidx := results_indexes idx g hg es arr hperm
  apply List.ext_getElem?
  intro i
  rw [getElem?_mapFrom, Nat.zero_add]
  by_cases hi : i < es.length
  · have hmem : i ∈ arr := hperm.symm.subset (List.mem_range.mpr hi)
    have hr : g i es[i] ∈ arr.filterMap (fun i => es[i]?.map (g i)) :=
      List.mem_filterMap.mpr ⟨i, hmem, by simp [List.getElem?_eq_getElem hi]⟩
    rw [foldl_modifyAt_unique idx upd i (g i es[i]) (hg _ _) _ es
      (by rw [hidx]; exact hperm.symm.nodup (List.nodup_range _)) hr]
    simp [List.getElem?_eq_getElem hi]
  · have hnot : ∀ r ∈ arr.filterMap (fun i => es[i]?.map (g i)), idx r ≠ i := by
      intro r hr
      have : idx r ∈ arr := by
        rw [← hidx]
        exact List.mem_map.mpr ⟨r, hr, rfl⟩
      have := List.mem_range.mp (hperm.subset this)
      omega
    rw [foldl_modifyAt_notin idx upd i _ _ hnot, List.getElem?_eq_none (by omega)]
    rfl

theorem probeEntriesRTT_eq (env : Environment) (entries : List proxyEntry)
    (timeout workers : Int) :
    probeEntriesRTT env entries timeout workers
      = mapFrom (fun i e => setRTTOutcome (rttResult env timeout i e) e) 0 entries := by
  unfold probeEntriesRTT
  split
  · rename_i h0
    rw [List.length_eq_zero.mp h0]
    rfl
  · exact foldl_results (fun res : probeOutcome => res.index) setRTTOutcome
      (rttResult env timeout) (fun _ _ => rfl) entries _ (env.rttArrival_perm _ _)

theorem httpJob_index (env : Environment) (i : Nat) (e : proxyEntry) :
    (httpJob env i e).1.index = i := by
  unfold httpJob
  split <;> rfl

theorem probeEntriesHTTP_found (rt : Runtime) (env : Environment) (entries : List proxyEntry)
    (opts : options) (h1 : env.lookPath opts.singBoxBinary = true)
    (h2 : env.lookPath (bytes "curl") = true) :
    (probeEntriesHTTP rt env entries opts).entries
      = mapFrom (fun i e => setHTTPOutcome rt (httpJob env i e).1 e) 0 entries := by
  unfold probeEntriesHTTP
  split
  · rename_i h0
    rw [List.length_eq_zero.mp h0]
    rfl
  · simp only [h1, h2, Bool.not_true, Bool.false_eq_true, if_false]
    rw [List.map_filterMap]
    have hfun : (fun idx => Option.map (fun job : httpProbeOutcome × Bool => job.1)
        (Option.map (fun entry => httpJob env idx entry) entries[idx]?))
        = fun idx => entries[idx]?.map (fun e => (httpJob env idx e).1) := by
      funext idx
      rw [Option.map_map]
      rfl
    rw [hfun]
    exact foldl_results (fun res : httpProbeOutcome => res.index) (setHTTPOutcome rt)
      (fun i e => (httpJob env i e).1) (httpJob_index env) entries _
      (env.httpArrival_perm _ _)

theorem probeEntriesHTTP_missing (rt : Runtime) (env : Environment)
    (entries : List proxyEntry) (opts : options)
    (h : env.lookPath opts.singBoxBinary = false ∨ env.lookPath (bytes "curl") = false) :
    (probeEntriesHTTP rt env entries opts).entries = markHTTPProbeSkipped entries := by
  unfold probeEntriesHTTP
  split
  · rename_i h0
    rw [List.length_eq_zero.mp h0]
    rfl
  · rcases h with h | h
    · simp [h]
    · by_cases h1 : env.lookPath opts.singBoxBinary = true
      · simp [h, h1]
      · simp [h1]

theorem rttResults_indexes (env : Environment) (entries : List proxyEntry)
    (timeout workers : Int) :
    ((rttResults env entries timeout workers).map (fun res => res.index)).Perm
      (List.range entries.length) := by
  unfold rttResults
  rw [results_indexes (fun res : probeOutcome => res.index) (rttResult env timeout)
    (fun _ _ => rfl) entries _ (env.rttArrival_perm _ _)]
  exact env.rttArrival_perm _ _

theorem httpResults_indexes (env : Environment) (entries : List proxyEntry) (opts : options) :
    ((httpResults env entries opts).map (fun res => res.index)).Perm
      (List.range entries.length) := by
  unfold httpResults
  rw [List.map_filterMap]
  have hfun : (fun idx => Option.map (fun job : httpProbeOutcome × Bool => job.1)
      (Option.map (fun entry => httpJob env idx entry) entries[idx]?))
      = fun idx => entries[idx]?.map (fun e => (httpJob env idx e).1) := by
    funext idx
    rw [Option.map_map]
    rfl
  rw [hfun, results_indexes (fun res : httpProbeOutcome => res.index)
    (fun i e => (httpJob env i e).1) (httpJob_index env) entries _ (env.httpArrival_perm _ _)]
  exact env.httpArrival_perm _ _

theorem count_of_perm_range (l : List Nat) (n i : Nat) (h : l.Perm (List.range n))
    (hi : i < n) : l.count i = 1 := by
  rw [h.count_eq]
  exact List.count_eq_one_of_mem (List.nodup_range n) (List.mem_range.mpr hi)

theorem setRTTOutcome_tested (res : probeOutcome) (e : proxyEntry) :
    (setRTTOutcome res e).tested = true := by
  unfold setRTTOutcome
  cases res.err <;> rfl

theorem setHTTPOutcome_httpTested (rt : Runtime) (res : httpProbeOutcome) (e : proxyEntry) :
    (setHTTPOutcome rt res e).httpTested = true := by
  unfold setHTTPOutcome
  cases res.err <;> rfl

/-- C21: when `probeEntriesRTT` returns every candidate has `tested = true`, and when
`probeEntriesHTTP` returns every candidate has `httpTested = true`, with `httpErr = skip`
for every candidate when an executable is missing. The collecting loop receives exactly one
result for every index, and the entry at every index is the entry that was there, updated
from the result of its own job. -/
theorem probes_total_coverage (rt : Runtime) (env : Environment) (entries : List proxyEntry)
    (timeout workers : Int) (opts : options) :
    (∀ e ∈ probeEntriesRTT env entries timeout workers, e.tested = true) ∧
    (∀ e ∈ (probeEntriesHTTP rt env entries opts).entries, e.httpTested = true) ∧
    ((env.lookPath opts.singBoxBinary = false ∨ env.lookPath (bytes "curl") = false) →
      (probeEntriesHTTP rt env entries opts).entries = markHTTPProbeSkipped entries ∧
      ∀ e ∈ (probeEntriesHTTP rt env entries opts).entries, e.httpErr = bytes "skip") ∧
    (probeEntriesRTT env entries timeout workers
        = mapFrom (fun i e => setRTTOutcome (rttResult env timeout i e) e) 0 entries ∧
      probeEntriesRTT env entries timeout workers
        = (if entries.length = 0 then entries
          else (rttResults env entries timeout workers).foldl recordRTT entries) ∧
      ∀ i, i < entries.length →
        ((rttResults env entries timeout workers).map (fun res => res.index)).count i = 1) ∧
    (env.lookPath opts.singBoxBinary = true → env.lookPath (bytes "curl") = true →
      (probeEntriesHTTP rt env entries opts).entries
        = mapFrom (fun i e => setHTTPOutcome rt (httpJob env i e).1 e) 0 entries ∧
      (probeEntriesHTTP rt env entries opts).entries
        = (if entries.length = 0 then entries
          else (httpResults env entries opts).foldl (recordHTTP rt) entries) ∧
      ∀ i, i < entries.length →
        ((httpResults env entries opts).map (fun res => res.index)).count i = 1) := by
  have hmissing : (env.lookPath opts.singBoxBinary = false ∨
      env.lookPath (bytes "curl") = false) →
      ∀ e ∈ (probeEntriesHTTP rt env entries opts).entries,
        e.httpTested = true ∧ e.httpErr = bytes "skip" := by
    intro h e he
    rw [probeEntriesHTTP_missing rt env entries opts h] at he
    simp only [markHTTPProbeSkipped, List.mem_map] at he
    obtain ⟨x, _, rfl⟩ := he
    exact ⟨rfl, rfl⟩
  refine ⟨?_, ?_, ?_, ⟨probeEntriesRTT_eq env entries timeout workers, rfl, ?_⟩, ?_⟩
  · intro e he
    rw [probeEntriesRTT_eq] at he
    obtain ⟨i, x, _, rfl⟩ := mem_mapFrom _ _ _ _ he
    exact setRTTOutcome_tested _ _
  · intro e he
    by_cases h1 : env.lookPath opts.singBoxBinary = true
    · by_cases h2 : env.lookPath (bytes "curl") = true
      · rw [probeEntriesHTTP_found rt env entries opts h1 h2] at he
        obtain ⟨i, x, _, rfl⟩ := mem_mapFrom _ _ _ _ he
        exact setHTTPOutcome_httpTested _ _ _
      · exact (hmissing (Or.inr (by simpa using h2)) e he).1
    · exact (hmissing (Or.inl (by simpa using h1)) e he).1
  · intro h
    exact ⟨probeEntriesHTTP_missing rt env entries opts h, fun e he => (hmissing h e he).2⟩
  · intro i hi
    exact count_of_perm_range _ _ _ (rttResults_indexes env entries timeout workers) hi
  · intro h1 h2
    refine ⟨probeEntriesHTTP_found rt env entries opts h1 h2, ?_, ?_⟩
    · unfold probeEntriesHTTP httpResults
      simp only [h1, h2, Bool.not_true, Bool.false_eq_true, if_false]
      split <;> rfl
    · intro i hi
      exact count_of_perm_range _ _ _ (httpResults_indexes env entries opts) hi

theorem probes_total_coverage_witness :
    ((probeEntriesHTTP exampleRuntime
        { exampleEnvironment with lookPath := fun _ => false }
        [failedCandidate, slowCandidate] exampleOptions).entries
        = markHTTPProbeSkipped [failedCandidate, slowCandidate] ∧
      ∀ e ∈ (probeEntriesHTTP exampleRuntime
        { exampleEnvironment with lookPath := fun _ => false }
        [failedCandidate, slowCandidate] exampleOptions).entries, e.httpErr = bytes "skip") ∧
    ((rttResults exampleEnvironment [failedCandidate, slowCandidate] second 12).map
        (fun res => res.index)).count 1 = 1 ∧
    ((httpResults exampleEnvironment [failedCandidate, slowCandidate] exampleOptions).map
        (fun res => res.index)).count 0 = 1 :=
  ⟨(probes_total_coverage exampleRuntime { exampleEnvironment with lookPath := fun _ => false }
      [failedCandidate, slowCandidate] second 12 exampleOptions).2.2.1 (Or.inl rfl),
    (probes_total_coverage exampleRuntime exampleEnvironment
      [failedCandidate, slowCandidate] second 12 exampleOptions).2.2.2.1.2.2 1 (by decide),
    ((probes_total_coverage exampleRuntime exampleEnvironment
      [failedCandidate, slowCandidate] second 12 exampleOptions).2.2.2.2 rfl rfl).2.2 0
      (by decide)⟩

theorem normalizeProbeError_values (err : GoError) :
    normalizeProbeError err = bytes "timeout" ∨ normalizeProbeError err = bytes "fail" := by
  unfold normalizeProbeError
  split
  · exact Or.inl rfl
  · exact Or.inr rfl

theorem normalizeHTTPProbeError_values (rt : Runtime) (err : GoError) :
    normalizeHTTPProbeError rt (some err) = bytes "skip" ∨
      normalizeHTTPProbeError rt (some err) = bytes "timeout" ∨
      normalizeHTTPProbeError rt (some err) = bytes "fail" := by
  unfold normalizeHTTPProbeError
  simp only
  split
  · exact Or.inl rfl
  · split
    · exact Or.inr (Or.inl rfl)
    · split
      · exact Or.inr (Or.inl rfl)
      · exact Or.inr (Or.inr rfl)

theorem normalizeHTTPProbeError_eq_nil (rt : Runtime) (err : Option GoError) :
    normalizeHTTPProbeError rt err = [] ↔ err = none := by
  cases err with
  | none => simp [normalizeHTTPProbeError]
  | some e =>
    have h := normalizeHTTPProbeError_values rt e
    constructor
    · intro h0
      rw [h0] at h
      rcases h with h | h | h <;> exact absurd h (by decide)
    · intro h0
      exact absurd h0 (by simp)

theorem setRTTOutcome_health (res : probeOutcome) (e : proxyEntry) :
    (setRTTOutcome res e).httpOK = e.httpOK ∧ (setRTTOutcome res e).httpErr = e.httpErr := by
  unfold setRTTOutcome
  cases res.err <;> exact ⟨rfl, rfl⟩

theorem setRTTOutcome_probeErr (res : probeOutcome) (e : proxyEntry) (h : e.probeErr = []) :
    (setRTTOutcome res e).probeErr ∈ [[], bytes "timeout", bytes "fail"] := by
  unfold setRTTOutcome
  cases hres : res.err with
  | none => simp [h]
  | some err =>
    simp only
    rcases normalizeProbeError_values err with h1 | h1 <;> simp [h1]

theorem setHTTPOutcome_state (rt : Runtime) (res : httpProbeOutcome) (e : proxyEntry)
    (h1 : e.httpOK = false) (h2 : e.httpErr = []) :
    healthSuccess (setHTTPOutcome rt res e) ∨ healthFailure (setHTTPOutcome rt res e) := by
  unfold setHTTPOutcome healthSuccess healthFailure
  cases hres : res.err with
  | none => exact Or.inl ⟨rfl, h2⟩
  | some err =>
    right
    refine ⟨h1, ?_⟩
    simp only
    rcases normalizeHTTPProbeError_values rt err with h | h | h <;> simp [h]

theorem health_states_exclusive (e : proxyEntry) : ¬ (healthSuccess e ∧ healthFailure e) := by
  rintro ⟨⟨h1, _⟩, ⟨h2, _⟩⟩
  rw [h1] at h2
  exact Bool.noConfusion h2

/-- C22: starting from freshly created candidates, after the reachability stage the
`probeErr` of every candidate is empty, `timeout` or `fail`, and after the health stage that
follows every candidate is in exactly one of the health states success and failure;
`normalizeHTTPProbeError` returns the empty string exactly for the nil error and otherwise
one of `skip`, `timeout`, `fail`. -/
theorem probe_states (rt : Runtime) (env : Environment) (opts : options) :
    (∀ entries : List proxyEntry, (∀ e ∈ entries, isFresh e) →
      (∀ e ∈ reachabilityStage env entries opts,
        e.probeErr ∈ [[], bytes "timeout", bytes "fail"]) ∧
      (∀ e ∈ (probeEntriesHTTP rt env (reachabilityStage env entries opts) opts).entries,
        (healthSuccess e ∨ healthFailure e) ∧ ¬ (healthSuccess e ∧ healthFailure e))) ∧
    (∀ err, normalizeHTTPProbeError rt err = [] ↔ err = none) ∧
    (∀ err, normalizeHTTPProbeError rt (some err)
      ∈ [bytes "skip", bytes "timeout", bytes "fail"]) := by
  refine ⟨?_, normalizeHTTPProbeError_eq_nil rt, ?_⟩
  · intro entries hfresh
    have hstage : ∀ e ∈ reachabilityStage env entries opts,
        e.probeErr ∈ [[], bytes "timeout", bytes "fail"] ∧ e.httpOK = false ∧
          e.httpErr = [] := by
      intro e he
      unfold reachabilityStage at he
      rw [probeEntriesRTT_eq] at he
      obtain ⟨i, x, hx, rfl⟩ := mem_mapFrom _ _ _ _ he
      obtain ⟨_, _, hp, _, hok, _, _, herr⟩ := hfresh x hx
      have hh := setRTTOutcome_health (rttResult env opts.probeTimeout i x) x
      exact ⟨setRTTOutcome_probeErr _ x hp, hh.1.trans hok, hh.2.trans herr⟩
    refine ⟨fun e he => (hstage e he).1, ?_⟩
    intro e he
    refine ⟨?_, health_states_exclusive e⟩
    by_cases h1 : env.lookPath opts.singBoxBinary = true
    · by_cases h2 : env.lookPath (bytes "curl") = true
      · rw [probeEntriesHTTP_found rt env _ opts h1 h2] at he
        obtain ⟨i, x, hx, rfl⟩ := mem_mapFrom _ _ _ _ he
        exact setHTTPOutcome_state rt _ x (hstage x hx).2.1 (hstage x hx).2.2
      · rw [probeEntriesHTTP_missing rt env _ opts (Or.inr (by simpa using h2))] at he
        simp only [markHTTPProbeSkipped, List.mem_map] at he
        obtain ⟨x, hx, rfl⟩ := he
        exact Or.inr ⟨(hstage x hx).2.1, by simp⟩
    · rw [probeEntriesHTTP_missing rt env _ opts (Or.inl (by simpa using h1))] at he
      simp only [markHTTPProbeSkipped, List.mem_map] at he
      obtain ⟨x, hx, rfl⟩ := he
      exact Or.inr ⟨(hstage x hx).2.1, by simp⟩
  · intro err
    rcases normalizeHTTPProbeError_values rt err with h | h | h <;> simp [h]

theorem probe_states_witness :
    (∀ e ∈ reachabilityStage exampleEnvironment
        [newEntry [] (bytes "a") none, freshEntry (bytes "vless://id@example.org:443#Alpha")]
        exampleOptions,
      e.probeErr ∈ [[], bytes "timeout", bytes "fail"]) ∧
    (∀ e ∈ (probeEntriesHTTP exampleRuntime exampleEnvironment
        (reachabilityStage exampleEnvironment
          [newEntry [] (bytes "a") none, freshEntry (bytes "vless://id@example.org:443#Alpha")]
          exampleOptions) exampleOptions).entries,
      (healthSuccess e ∨ healthFailure e) ∧ ¬ (healthSuccess e ∧ healthFailure e)) :=
  (probe_states exampleRuntime exampleEnvironment exampleOptions).1
    [newEntry [] (bytes "a") none, freshEntry (bytes "vless://id@example.org:443#Alpha")]
    (by
      intro e he
      simp only [List.mem_cons, List.mem_singleton, List.not_mem_nil, or_false] at he
      rcases he with rfl | rfl <;> exact ⟨rfl, rfl, rfl, rfl, rfl, rfl, rfl, rfl⟩)

theorem workerCount_eq_clamp (workers : Int) (n : Nat) (hn : 1 ≤ n) :
    workerCount workers n = clamp workers 1 n := by
  unfold workerCount clamp
  simp only
  split <;> split <;> omega

/-- C23: for a non-empty list of length n and every integer workerCount, the number of
workers that either stage starts is clamp(workerCount, 1, n); every workerCount above n
gives the pool size and the outcomes of workerCount = n, and the entries that a stage leaves
are the same for all worker counts. -/
theorem workers_clamped (rt : Runtime) (env : Environment) (entries : List proxyEntry)
    (timeout : Int) (opts : options) (hne : entries ≠ []) (workers : Int) :
    workerCount workers entries.length = clamp workers 1 entries.length ∧
    ((entries.length : Int) < workers →
      workerCount workers entries.length = workerCount entries.length entries.length ∧
      workerCount workers entries.length = entries.length ∧
      probeEntriesRTT env entries timeout workers
        = probeEntriesRTT env entries timeout entries.length ∧
      (probeEntriesHTTP rt env entries { opts with healthWorkers := workers }).entries
        = (probeEntriesHTTP rt env entries
            { opts with healthWorkers := entries.length }).entries ∧
      (probeEntriesHTTP rt env entries { opts with healthWorkers := workers }).probed
        = (probeEntriesHTTP rt env entries
            { opts with healthWorkers := entries.length }).probed) ∧
    (∀ other : Int,
      probeEntriesRTT env entries timeout workers = probeEntriesRTT env entries timeout other ∧
      (probeEntriesHTTP rt env entries { opts with healthWorkers := workers }).entries
        = (probeEntriesHTTP rt env entries { opts with healthWorkers := other }).entries) := by
  have hn : 1 ≤ entries.length := by
    cases entries with
    | nil => exact absurd rfl hne
    | cons x xs => simp
  refine ⟨workerCount_eq_clamp workers entries.length hn, ?_, ?_⟩
  · intro hw
    have e1 : workerCount workers entries.length = entries.length := by
      unfold workerCount
      simp only
      split <;> split <;> omega
    have e2 : workerCount (entries.length : Int) entries.length = entries.length := by
      unfold workerCount
      simp only
      split <;> split <;> omega
    refine ⟨e1.trans e2.symm, e1, ?_, ?_, ?_⟩
    · unfold probeEntriesRTT
      simp only [e1, e2]
    · unfold probeEntriesHTTP
      simp only [e1, e2]
    · unfold probeEntriesHTTP
      simp only [e1, e2]
  · intro other
    constructor
    · rw [probeEntriesRTT_eq, probeEntriesRTT_eq]
    · by_cases h1 : env.lookPath opts.singBoxBinary = true
      · by_cases h2 : env.lookPath (bytes "curl") = true
        · rw [probeEntriesHTTP_found rt env entries { opts with healthWorkers := workers } h1 h2,
            probeEntriesHTTP_found rt env entries { opts with healthWorkers := other } h1 h2]
        · have h3 : env.lookPath (bytes "curl") = false := by simpa using h2
          rw [probeEntriesHTTP_missing rt env entries { opts with healthWorkers := workers }
              (Or.inr h3),
            probeEntriesHTTP_missing rt env entries { opts with healthWorkers := other }
              (Or.inr h3)]
      · have h3 : env.lookPath opts.singBoxBinary = false := by simpa using h1
        rw [probeEntriesHTTP_missing rt env entries { opts with healthWorkers := workers }
            (Or.inl h3),
          probeEntriesHTTP_missing rt env entries { opts with healthWorkers := other }
            (Or.inl h3)]

theorem workers_clamped_witness :
    workerCount (-3) [failedCandidate, slowCandidate].length = clamp (-3) 1 2 ∧
      workerCount 12 [failedCandidate, slowCandidate].length = 2 ∧
      probeEntriesRTT exampleEnvironment [failedCandidate, slowCandidate] second 12
        = probeEntriesRTT exampleEnvironment [failedCandidate, slowCandidate] second 2 :=
  ⟨(workers_clamped exampleRuntime exampleEnvironment [failedCandidate, slowCandidate] second
      exampleOptions (by decide) (-3)).1,
    ((workers_clamped exampleRuntime exampleEnvironment [failedCandidate, slowCandidate] second
      exampleOptions (by decide) 12).2.1 (by decide)).2.1,
    ((workers_clamped exampleRuntime exampleEnvironment [failedCandidate, slowCandidate] second
      exampleOptions (by decide) 12).2.1 (by decide)).2.2.1⟩

theorem tlsOf_ok (rt : Runtime) (query : Values)
    (h : toLower rt (trimSpace (query.Get (bytes "security"))) = bytes "reality" →
      trimSpace (query.Get (bytes "pbk")) ≠ []) :
    ∃ tls, tlsOf rt query = .ok tls := by
  unfold tlsOf
  simp only
  split
  · split
    · rename_i hr
      split
      · rename_i hk
        rcases hr with hr | hr
        · exact absurd hk (h hr)
        · exact absurd hk hr
      · exact ⟨_, rfl⟩
    · exact ⟨_, rfl⟩
  · exact ⟨_, rfl⟩

theorem transportOf_ok_of_known (rt : Runtime) (query : Values)
    (h : transportTypeSpec rt query ∈ knownTransportTypes) :
    ∃ transport, transportOf rt query = .ok transport := by
  obtain ⟨_, htcp, hgrpc, hws, hup, hhttp⟩ := transportOf_spec rt query
  simp only [knownTransportTypes, List.mem_cons, List.mem_singleton, List.not_mem_nil,
    or_false] at h
  rcases h with h | h | h | h | h | h | h | h
  · exact ⟨none, htcp (Or.inl h)⟩
  · exact ⟨none, htcp (Or.inr h)⟩
  · obtain ⟨tr, e, _⟩ := hgrpc h
    exact ⟨_, e⟩
  · obtain ⟨tr, e, _⟩ := hws (Or.inl h)
    exact ⟨_, e⟩
  · obtain ⟨tr, e, _⟩ := hws (Or.inr h)
    exact ⟨_, e⟩
  · obtain ⟨tr, e, _⟩ := hup h
    exact ⟨_, e⟩
  · obtain ⟨tr, e, _⟩ := hhttp (Or.inl h)
    exact ⟨_, e⟩
  · obtain ⟨tr, e, _⟩ := hhttp (Or.inr h)
    exact ⟨_, e⟩

theorem toLower_of_lowerASCII (rt : Runtime) (s t : GoString) (h : lowerASCII s = t)
    (ht : ∀ c ∈ t, c < 128) : toLower rt s = t := by
  have hs : ∀ c ∈ s, c < 128 := by
    intro c hc
    have hm : (if 65 ≤ c ∧ c ≤ 90 then c + 32 else c) ∈ t := by
      rw [← h]
      exact List.mem_map.mpr ⟨c, hc, rfl⟩
    have := ht _ hm
    split at this <;> omega
  have hall : s.all (fun c => decide (c < 128)) = true := by
    rw [List.all_eq_true]
    intro c hc
    simpa using hs c hc
  unfold toLower
  rw [if_pos hall]
  exact h

/-- C27: decoding has no other failure causes: a URI whose scheme is `vless` in any letter
case, whose user name and host are not blank, whose port is absent or in 1..65535, whose
`pbk` is not blank whenever the security parameter is `reality`, and whose transport type is
absent, `tcp`, `grpc`, `ws`, `websocket`, `httpupgrade`, `http` or `h2`, is decoded, and the
descriptor has type `vless`, tag `proxy`, and the trimmed host and user name as server and
uuid. -/
theorem buildVLESSOutbound_succeeds (rt : Runtime) (uri : URL)
    (hscheme : lowerASCII uri.Scheme = bytes "vless")
    (huser : trimSpace uri.Username ≠ [])
    (hhost : trimSpace uri.Hostname ≠ [])
    (hport : uri.Port = [] ∨ (1 ≤ decimalValue uri.Port ∧ decimalValue uri.Port ≤ 65535))
    (hpbk : toLower rt (trimSpace (uri.Query.Get (bytes "security"))) = bytes "reality" →
      trimSpace (uri.Query.Get (bytes "pbk")) ≠ [])
    (htransport : transportTypeSpec rt uri.Query ∈ knownTransportTypes) :
    ∃ out, buildVLESSOutbound rt (some uri) = .ok out ∧ out.type = bytes "vless" ∧
      out.tag = bytes "proxy" ∧ out.server = trimSpace uri.Hostname ∧
      out.uuid = trimSpace uri.Username ∧
      (uri.Port = [] → out.server_port = 443) ∧
      (uri.Port ≠ [] → out.server_port = (decimalValue uri.Port : Int)) := by
  obtain ⟨tls, htls⟩ := tlsOf_ok rt uri.Query hpbk
  obtain ⟨transport, htr⟩ := transportOf_ok_of_known rt uri.Query htransport
  have hs : toLower rt uri.Scheme = bytes "vless" :=
    toLower_of_lowerASCII rt _ _ hscheme (by decide)
  have hp : ∃ port, serverPortOf uri = .ok port ∧ (uri.Port = [] → port = 443) ∧
      (uri.Port ≠ [] → port = (decimalValue uri.Port : Int)) := by
    rw [serverPortOf_eq]
    rcases hport with h0 | hr
    · exact ⟨443, by rw [if_pos h0], fun _ => rfl, fun h => absurd h0 h⟩
    · by_cases h0 : uri.Port = []
      · exact ⟨443, by rw [if_pos h0], fun _ => rfl, fun h => absurd h0 h⟩
      · exact ⟨_, by rw [if_neg h0, if_pos hr], fun h => absurd h h0, fun _ => rfl⟩
  obtain ⟨port, hp, hp0, hp1⟩ := hp
  exact ⟨_, (buildVLESSOutbound_ok_iff rt uri _).mpr
    ⟨hs, huser, hhost, port, tls, transport, hp, htls, htr, rfl⟩, rfl, rfl, rfl, rfl, hp0, hp1⟩

theorem buildVLESSOutbound_succeeds_witness :
    ∃ out, buildVLESSOutbound exampleRuntime
        (some (exampleURL "VLess" " id " "example.org:8443"
          "security=Reality&pbk=KEY&network=H2")) = .ok out ∧
      out.type = bytes "vless" ∧ out.tag = bytes "proxy" ∧
      out.server = trimSpace (exampleURL "VLess" " id " "example.org:8443"
          "security=Reality&pbk=KEY&network=H2").Hostname ∧
      out.uuid = trimSpace (exampleURL "VLess" " id " "example.org:8443"
          "security=Reality&pbk=KEY&network=H2").Username ∧
      ((exampleURL "VLess" " id " "example.org:8443"
          "security=Reality&pbk=KEY&network=H2").Port = [] → out.server_port = 443) ∧
      ((exampleURL "VLess" " id " "example.org:8443"
          "security=Reality&pbk=KEY&network=H2").Port ≠ [] →
        out.server_port = (decimalValue (exampleURL "VLess" " id " "example.org:8443"
          "security=Reality&pbk=KEY&network=H2").Port : Int)) :=
  buildVLESSOutbound_succeeds exampleRuntime
    (exampleURL "VLess" " id " "example.org:8443" "security=Reality&pbk=KEY&network=H2")
    (by decide) (by decide) (by decide) (Or.inr (by decide)) (fun _ => by decide) (by decide)

theorem wrapInt64_of_range (x : Int) (h1 : -(2 ^ 63) ≤ x) (h2 : x < 2 ^ 63) :
    wrapInt64 x = x := by
  unfold wrapInt64
  rw [Int.emod_eq_of_lt (by omega) (by omega)]
  omega

theorem startTimeout_cases (h : Int) :
    (h < 500 * millisecond → startTimeout h = 500 * millisecond) ∧
    (500 * millisecond ≤ h → h ≤ 3 * second → startTimeout h = h) ∧
    (3 * second < h → startTimeout h = 3 * second) := by
  unfold startTimeout minDuration second millisecond
  refine ⟨?_, ?_, ?_⟩ <;> intros <;> simp only <;> split_ifs <;> omega

/-- C26 as stated fails: with the default health timeout of 8 s the deadline is 12 s, and
the start-timeout of 3 s plus two attempts of 8 s with the backoff of 200 ms is 19.2 s. -/
theorem deadline_retry_counterexample :
    exampleOptions.healthTimeout = 8 * second ∧ 0 < exampleOptions.healthTimeout ∧
      totalTimeout exampleOptions.healthTimeout = 12 * second ∧
      startTimeout exampleOptions.healthTimeout = 3 * second ∧
      longestHealthRequest exampleOptions.healthTimeout = 16200 * millisecond ∧
      ¬ (startTimeout exampleOptions.healthTimeout
          + longestHealthRequest exampleOptions.healthTimeout
        ≤ totalTimeout exampleOptions.healthTimeout) := by
  decide

/-- C26, amended: for every positive health timeout h for which h + 4 s is a duration, the
deadline is h + 4 s and it is at least the start-timeout max(500 ms, min(3 s, h)) plus one
request of at most h, with 1 s to spare; it is at least the start-timeout plus both attempts
and the backoff exactly when h is at most 1.9 s. -/
theorem deadline_covers_one_request (h : Int) (hpos : 0 < h) (hmax : h + 4 * second < 2 ^ 63) :
    totalTimeout h = h + 4 * second ∧
      startTimeout h = max (500 * millisecond) (min (3 * second) h) ∧
      startTimeout h + h + second ≤ totalTimeout h ∧
      (startTimeout h + longestHealthRequest h ≤ totalTimeout h ↔ h ≤ 1900 * millisecond) := by
  have hs := startTimeout_cases h
  have ht : totalTimeout h = h + 4 * second := by
    unfold totalTimeout
    apply wrapInt64_of_range
    · unfold second millisecond
      omega
    · exact hmax
  rw [ht]
  unfold longestHealthRequest
  unfold second millisecond at *
  refine ⟨rfl, ?_, ?_, ?_⟩
  · rcases lt_or_le h (500 * 1000000) with h1 | h1
    · rw [hs.1 h1]
      omega
    · rcases le_or_lt h (3 * (1000 * 1000000)) with h2 | h2
      · rw [hs.2.1 h1 h2]
        omega
      · rw [hs.2.2 h2]
        omega
  · rcases lt_or_le h (500 * 1000000) with h1 | h1
    · rw [hs.1 h1]
      omega
    · rcases le_or_lt h (3 * (1000 * 1000000)) with h2 | h2
      · rw [hs.2.1 h1 h2]
        omega
      · rw [hs.2.2 h2]
        omega
  · rcases lt_or_le h (500 * 1000000) with h1 | h1
    · rw [hs.1 h1]
      omega
    · rcases le_or_lt h (3 * (1000 * 1000000)) with h2 | h2
      · rw [hs.2.1 h1 h2]
        omega
      · rw [hs.2.2 h2]
        omega

theorem deadline_covers_one_request_witness :
    totalTimeout second = second + 4 * second ∧
      startTimeout second = max (500 * millisecond) (min (3 * second) second) ∧
      startTimeout second + second + second ≤ totalTimeout second ∧
      (startTimeout second + longestHealthRequest second ≤ totalTimeout second
        ↔ second ≤ 1900 * millisecond) :=
  deadline_covers_one_request second (by decide) (by decide)

/-- A health timeout near the largest duration makes the deadline wrap around: it lies in
the past. -/
theorem totalTimeout_overflow_example : totalTimeout (2 ^ 63 - 1) < 0 := by
  decide

/-- C25 fails on the code: the payload `{"a":"vless://a@h:1","b":"vless://b@h:2"}` is valid
JSON whose link-valued members are, in document order, `vless://a@h:1` and `vless://b@h:2`;
`extractLinks` returns them in the order in which `range` visits the decoded map, which two
runs may choose differently: in document order in one runtime, reversed in another. -/
theorem extractLinks_order_depends_on_map :
    jsonValid orderPayload = true ∧
      (∃ doc, jsonDocument orderPayload = some doc ∧
        stringValues doc = [bytes "vless://a@h:1", bytes "vless://b@h:2"]) ∧
      extractLinks exampleRuntime orderPayload = [bytes "vless://a@h:1", bytes "vless://b@h:2"] ∧
      extractLinks reversedRuntime orderPayload
        = [bytes "vless://b@h:2", bytes "vless://a@h:1"] :=
  ⟨by decide,
    ⟨.obj [(bytes "a", .str (bytes "vless://a@h:1")), (bytes "b", .str (bytes "vless://b@h:2"))],
      rfl, rfl⟩,
    by decide, by decide⟩

/-- The elements of an array are visited in document order, whatever the runtime. -/
theorem walk_array_of_strings (ss : List GoString) :
    walk (.arr (ss.map JValue.str)) = (ss.map trimSpace).filter schemePattern := by
  rw [walk]
  induction ss with
  | nil => rfl
  | cons s rest ih =>
    simp only [List.map_cons, walkItems, walk, List.filter_cons, ih]
    split <;> simp

/-- An array of two links comes out in document order in both runtimes. -/
theorem extractLinks_array_order_example :
    extractLinks exampleRuntime (bytes "[\"vless://b@h:2\",\"vless://a@h:1\"]")
        = [bytes "vless://b@h:2", bytes "vless://a@h:1"] ∧
      extractLinks reversedRuntime (bytes "[\"vless://b@h:2\",\"vless://a@h:1\"]")
        = [bytes "vless://b@h:2", bytes "vless://a@h:1"] := by
  decide

/-! ### The teardown of the health probe -/

/-- The three deferred calls, run on a state in which the child was started, the config file
is `path` and a pending exit belongs to a child that ended. -/
theorem teardown_started (w : HealthWorld) (path : GoString) (s : HealthState)
    (hfile : s.configFile = some path) (hchild : s.child = .running ∨ s.child = .exited)
    (hpending : s.exitPending = true → s.child = .exited) (hcalls : s.calls = []) :
    ∀ final, final = [Deferred.stopProbeProcess, Deferred.cancel,
        Deferred.cleanupConfig path].foldl (runDeferred w) s →
      final.configFile = none ∧ (final.child = .exited ∨ final.child = .killed) ∧
      final.cancelled = true ∧
      (final.calls = [.interrupt, .cancel, .remove path] ∨
        final.calls = [.interrupt, .kill, .cancel, .remove path]) ∧
      (final.child = .killed → final.calls = [.interrupt, .kill, .cancel, .remove path]) := by
  intro final hfinal
  subst hfinal
  obtain ⟨configFile, child, exitPending, cancelled, calls⟩ := s
  simp only at hfile hchild hpending hcalls
  subst hfile hcalls
  rcases hchild with rfl | rfl
  · have hp : exitPending = false := by
      cases exitPending with
      | false => rfl
      | true => exact absurd (hpending rfl) (by decide)
    subst hp
    cases hi : w.endsOnInterrupt <;>
      simp [runDeferred, stopProbeProcess, cancelContext, cleanupConfig, hi]
  · cases exitPending <;> cases hi : w.endsOnInterrupt <;>
      simp [runDeferred, stopProbeProcess, cancelContext, cleanupConfig, hi]

theorem finish_final (w : HealthWorld) (deferred : List Deferred) (status latency : Int)
    (err : Option HealthError) (s : HealthState) :
    (finish w deferred status latency err s).final = deferred.foldl (runDeferred w) s := rfl

theorem requestLoop_final (w : HealthWorld) (deferred : List Deferred) (s : HealthState) :
    (requestLoop w deferred s).final = deferred.foldl (runDeferred w) s := by
  unfold requestLoop
  simp only
  split
  · rfl
  · split <;> rfl

/-- C24: on every exit path of `probeEntryHTTP` taken after the temporary config file has
been written, when the function returns the file has been removed (the last call is
`os.Remove` of its path), the context is cancelled, and the child, if it was started, does
not run: it has ended, or it was killed after the interrupt; when `cmd.Start` failed there
is no child and the teardown is the cancel and the removal. -/
theorem probeEntryHTTP_teardown (rt : Runtime) (w : HealthWorld) (entry : proxyEntry)
    (out : Outbound) (port : Int) (path : GoString)
    (hdecode : buildVLESSOutbound rt entry.uri = .ok out)
    (hport : w.reserveLocalPort = .ok port)
    (hwritten : w.configWrite = .written path) :
    (probeEntryHTTP rt w entry).final.configFile = none ∧
      (probeEntryHTTP rt w entry).final.child ≠ .running ∧
      (probeEntryHTTP rt w entry).final.cancelled = true ∧
      (probeEntryHTTP rt w entry).final.calls.getLast? = some (.remove path) ∧
      (w.start ≠ none →
        (probeEntryHTTP rt w entry).final.child = .notStarted ∧
        (probeEntryHTTP rt w entry).final.calls = [.cancel, .remove path]) ∧
      (w.start = none →
        ((probeEntryHTTP rt w entry).final.child = .exited ∨
          (probeEntryHTTP rt w entry).final.child = .killed) ∧
        ((probeEntryHTTP rt w entry).final.calls = [.interrupt, .cancel, .remove path] ∨
          (probeEntryHTTP rt w entry).final.calls
            = [.interrupt, .kill, .cancel, .remove path]) ∧
        ((probeEntryHTTP rt w entry).final.child = .killed →
          (probeEntryHTTP rt w entry).final.calls
            = [.interrupt, .kill, .cancel, .remove path])) := by
  cases hstart : w.start with
  | some err =>
    have hrun : (probeEntryHTTP rt w entry).final
        = { configFile := none, child := .notStarted, exitPending := false, cancelled := true,
            calls := [.cancel, .remove path] } := by
      unfold probeEntryHTTP
      simp [hdecode, hport, writeConfig, hwritten, hstart, finish, runDeferred, cancelContext,
        cleanupConfig]
    rw [hrun]
    simp
  | none =>
    have key : ∃ s : HealthState, s.configFile = some path ∧
        (s.child = .running ∨ s.child = .exited) ∧
        (s.exitPending = true → s.child = .exited) ∧ s.calls = [] ∧
        (probeEntryHTTP rt w entry).final
          = [Deferred.stopProbeProcess, Deferred.cancel,
              Deferred.cleanupConfig path].foldl (runDeferred w) s := by
      unfold probeEntryHTTP
      simp only [hdecode, hport, writeConfig, hwritten, hstart]
      cases w.readiness with
      | exited cause =>
        exact ⟨_, rfl, Or.inr rfl, fun h => absurd h (by simp), rfl, rfl⟩
      | timedOut =>
        exact ⟨_, rfl, Or.inl rfl, fun h => absurd h (by simp), rfl, rfl⟩
      | ready =>
        simp only [requestLoop_final]
        cases w.endsDuringRequests with
        | false => exact ⟨_, rfl, Or.inl rfl, fun h => absurd h (by simp), rfl, rfl⟩
        | true => exact ⟨_, rfl, Or.inr rfl, fun _ => rfl, rfl, rfl⟩
    obtain ⟨s, h1, h2, h3, h4, hfinal⟩ := key
    obtain ⟨g1, g2, g3, g4, g5⟩ := teardown_started w path s h1 h2 h3 h4 _ hfinal
    refine ⟨g1, ?_, g3, ?_, fun h => absurd rfl h, fun _ => ⟨g2, g4, g5⟩⟩
    · rcases g2 with g | g <;> rw [g] <;> decide
    · rcases g4 with g | g <;> rw [g] <;> rfl

theorem probeEntryHTTP_teardown_witness :
    (probeEntryHTTP exampleRuntime stuckWorld
        (freshEntry (bytes "vless://id@example.org:443#Alpha"))).final.configFile = none ∧
      (probeEntryHTTP exampleRuntime stuckWorld
        (freshEntry (bytes "vless://id@example.org:443#Alpha"))).final.child ≠ .running ∧
      (probeEntryHTTP exampleRuntime stuckWorld
        (freshEntry (bytes "vless://id@example.org:443#Alpha"))).final.child = .killed ∧
      (probeEntryHTTP exampleRuntime stuckWorld
        (freshEntry (bytes "vless://id@example.org:443#Alpha"))).final.calls
        = [.interrupt, .kill, .cancel, .remove (bytes "/tmp/subbox-1.json")] :=
  ⟨(probeEntryHTTP_teardown exampleRuntime
      stuckWorld
      (freshEntry (bytes "vless://id@example.org:443#Alpha")) _ 40000
      (bytes "/tmp/subbox-1.json") rfl rfl rfl).1,
    (probeEntryHTTP_teardown exampleRuntime
      stuckWorld
      (freshEntry (bytes "vless://id@example.org:443#Alpha")) _ 40000
      (bytes "/tmp/subbox-1.json") rfl rfl rfl).2.1,
    by decide,
    ((probeEntryHTTP_teardown exampleRuntime
      stuckWorld
      (freshEntry (bytes "vless://id@example.org:443#Alpha")) _ 40000
      (bytes "/tmp/subbox-1.json") rfl rfl rfl).2.2.2.2.2 rfl).2.2 (by decide)⟩

/-- Outside the exit paths of C24: when `file.Write` or `file.Close` fails in `writeConfig`,
the error is returned and the temporary file stays. -/
theorem probeEntryHTTP_write_failure (rt : Runtime) (w : HealthWorld) (entry : proxyEntry)
    (out : Outbound) (port : Int) (path : GoString) (err : GoError)
    (hdecode : buildVLESSOutbound rt entry.uri = .ok out)
    (hport : w.reserveLocalPort = .ok port)
    (hwrite : w.configWrite = .writeFailed path err ∨ w.configWrite = .closeFailed path err) :
    (probeEntryHTTP rt w entry).err = some (.os err) ∧
      (probeEntryHTTP rt w entry).final.configFile = some path ∧
      (probeEntryHTTP rt w entry).final.calls = [] := by
  unfold probeEntryHTTP
  rcases hwrite with h | h <;> simp [hdecode, hport, writeConfig, h, finish]

end Subbox
